import Mathlib

/-! # ts-depgraph: a shallow embedding of `dist/bin.js`

The program scans `<sourceDirectory>/src` for TypeScript files, extracts their
`import … from …;` statements with regular expressions, resolves every
specifier to a path, and assembles a node/edge graph.

Modelling conventions.

* A JavaScript string is a `List Char` (`Str`); one `Char` stands for one
  UTF-16 code unit.  None of the patterns of the program can tell a
  surrogate pair from a single non-word, non-space character, so this is exact
  for well-formed text.
* Regular expressions are values of `Regex`, run by a backtracking matcher
  that follows the ECMAScript matcher semantics (continuation passing,
  priority-ordered alternatives, greedy and lazy quantifiers).
* The file system is explicit: a directory listing is a `List Dirent`,
  `existsSync` and `readFileSync` are functions of the world.
* `path` is the POSIX flavour of Node's `path` module.
* A function that can throw returns an `Option`; `none` is the exception.
  `new RegExp(source)` is modelled for sources without groups, alternation,
  classes and braces, and is `none` outside that fragment too.
* A plain object used as a map is the list of its own properties; the
  enumeration order of `Object.keys` and `Object.values` (array indices first)
  and the inherited accessor `__proto__` are modelled.
-/

namespace DepGraph

/-- A JavaScript string. -/
abbrev Str := List Char

/-! ## Character predicates of ECMAScript -/

/-- LineTerminator: LF, CR, LS, PS. -/
def isLineTerminator (c : Char) : Bool :=
  c = '\n' || c = '\r' || c = Char.ofNat 0x2028 || c = Char.ofNat 0x2029

/-- The characters matched by `\s` and removed by `String.prototype.trim`:
WhiteSpace together with LineTerminator. -/
def isWhiteSpace (c : Char) : Bool :=
  c = '\t' || c = '\n' || c = Char.ofNat 0x0B || c = Char.ofNat 0x0C || c = '\r' || c = ' ' ||
  c = Char.ofNat 0xA0 || c = Char.ofNat 0x1680 ||
  (0x2000 ≤ c.toNat && c.toNat ≤ 0x200A) ||
  c = Char.ofNat 0x2028 || c = Char.ofNat 0x2029 || c = Char.ofNat 0x202F ||
  c = Char.ofNat 0x205F || c = Char.ofNat 0x3000 || c = Char.ofNat 0xFEFF

/-- The characters matched by `\d`. -/
def isDigitChar (c : Char) : Bool := '0' ≤ c && c ≤ '9'

/-- The characters matched by `\w` (also the word characters of `\b`). -/
def isWordChar (c : Char) : Bool :=
  ('a' ≤ c && c ≤ 'z') || ('A' ≤ c && c ≤ 'Z') || ('0' ≤ c && c ≤ '9') || c = '_'

/-! ## Regular expressions -/

/-- One member of a character class `[...]`. -/
inductive ClassItem where
  | chr (c : Char)
  | range (lo hi : Char)
  | digit
  | word
  | space
  | notDigit
  | notWord
  | notSpace
  deriving DecidableEq

/-- Abstract syntax of the regular expressions the program uses. -/
inductive Regex where
  | empty
  | chr (c : Char)
  | any
  | cls (neg : Bool) (items : List ClassItem)
  | bol
  | eol
  | wordB
  | notWordB
  | seq (a b : Regex)
  | alt (a b : Regex)
  | star (greedy : Bool) (r : Regex)
  | plus (greedy : Bool) (r : Regex)
  | opt (greedy : Bool) (r : Regex)
  | group (i : Nat) (r : Regex)
  deriving DecidableEq

/-- A regular expression object: pattern and flags. -/
structure RegExp where
  re : Regex
  global : Bool := false
  ignoreCase : Bool := false
  multiline : Bool := false
  deriving DecidableEq

/-- Sequence of patterns, right nested. -/
def Regex.seqs : List Regex → Regex
  | [] => .empty
  | r :: rs => .seq r (Regex.seqs rs)

/-- The pattern matching the given text literally. -/
def Regex.lit (s : Str) : Regex := Regex.seqs (s.map Regex.chr)

/-- Case folding of the `i` flag.  ECMAScript canonicalises with the full
upper-case mapping but never maps a non-ASCII character to an ASCII one, so
for patterns whose literal characters are ASCII (the only `i` patterns of the
program) folding ASCII letters is exact. -/
def canonicalize (ignoreCase : Bool) (c : Char) : Char :=
  if ignoreCase then c.toUpper else c

/-- Membership of a character in one class item. -/
def ClassItem.test : ClassItem → Char → Bool
  | .chr a, c => a = c
  | .range lo hi, c => lo ≤ c && c ≤ hi
  | .digit, c => isDigitChar c
  | .word, c => isWordChar c
  | .space, c => isWhiteSpace c
  | .notDigit, c => !isDigitChar c
  | .notWord, c => !isWordChar c
  | .notSpace, c => !isWhiteSpace c

/-- Membership of a character in a class, with the `i` flag honoured. -/
def classTest (ignoreCase neg : Bool) (items : List ClassItem) (c : Char) : Bool :=
  let hit := items.any fun it =>
    it.test c || (ignoreCase && (it.test c.toUpper || it.test c.toLower))
  if neg then !hit else hit

/-- Matcher state: the input consumed so far (most recent character first),
the input still ahead, and the captures recorded so far (latest first). -/
structure MState where
  prev : Str
  rest : Str
  caps : List (Nat × Str)
  deriving DecidableEq

/-- A matcher continuation. -/
abbrev Cont := MState → Option MState

/-- A matcher: tries to match at the state and hands on to the continuation. -/
abbrev Matcher := MState → Cont → Option MState

/-- Consume one character satisfying `p`. -/
def stepChar (p : Char → Bool) : Matcher := fun s k =>
  match s.rest with
  | [] => none
  | c :: t => if p c then k { s with prev := c :: s.prev, rest := t } else none

/-- Is the character at the head of the list a word character? -/
def headIsWord : Str → Bool
  | [] => false
  | c :: _ => isWordChar c

/-- Is the character at the head of the list a line terminator? -/
def headIsLineTerminator : Str → Bool
  | [] => false
  | c :: _ => isLineTerminator c

/-- The capture groups occurring in a pattern. -/
def Regex.groups : Regex → List Nat
  | .seq a b => a.groups ++ b.groups
  | .alt a b => a.groups ++ b.groups
  | .star _ r => r.groups
  | .plus _ r => r.groups
  | .opt _ r => r.groups
  | .group i r => i :: r.groups
  | _ => []

/-- ECMAScript RepeatMatcher.  `fuel` bounds the number of iterations; every
iteration either lowers `min` or consumes input, so more fuel than
`min + rest.length` is always enough (`repeatMatcher_fuel`). -/
def repeatMatcher (m : Matcher) (inner : List Nat) (greedy : Bool) :
    Nat → Nat → Option Nat → Matcher
  | 0, _, _ => fun _ _ => none
  | fuel + 1, min, max => fun x c =>
    if max = some 0 then c x
    else
      let d : Cont := fun y =>
        if min = 0 ∧ y.rest.length = x.rest.length then none
        else repeatMatcher m inner greedy fuel (min - 1) (max.map (· - 1)) y c
      let xr : MState := { x with caps := x.caps.filter fun p => !inner.contains p.1 }
      if min ≠ 0 then m xr d
      else if greedy then
        match m xr d with
        | some z => some z
        | none => c x
      else
        match c x with
        | some z => some z
        | none => m xr d

/-- The matcher of a pattern under the flags `ignoreCase` and `multiline`. -/
def Regex.matcher (ic ml : Bool) : Regex → Matcher
  | .empty => fun s k => k s
  | .chr a => stepChar fun c => canonicalize ic c = canonicalize ic a
  | .any => stepChar fun c => !isLineTerminator c
  | .cls neg items => stepChar (classTest ic neg items)
  | .bol => fun s k =>
    if s.prev.isEmpty || (ml && headIsLineTerminator s.prev) then k s else none
  | .eol => fun s k =>
    if s.rest.isEmpty || (ml && headIsLineTerminator s.rest) then k s else none
  | .wordB => fun s k =>
    if headIsWord s.prev != headIsWord s.rest then k s else none
  | .notWordB => fun s k =>
    if headIsWord s.prev == headIsWord s.rest then k s else none
  | .seq a b => fun s k => Regex.matcher ic ml a s fun s1 => Regex.matcher ic ml b s1 k
  | .alt a b => fun s k =>
    match Regex.matcher ic ml a s k with
    | some z => some z
    | none => Regex.matcher ic ml b s k
  | .star g r => fun s k =>
    repeatMatcher (Regex.matcher ic ml r) r.groups g (s.rest.length + 1) 0 none s k
  | .plus g r => fun s k =>
    repeatMatcher (Regex.matcher ic ml r) r.groups g (s.rest.length + 2) 1 none s k
  | .opt g r => fun s k =>
    repeatMatcher (Regex.matcher ic ml r) r.groups g (s.rest.length + 1) 0 (some 1) s k
  | .group i r => fun s k =>
    Regex.matcher ic ml r s fun s1 =>
      k { s1 with caps := (i, s.rest.take (s.rest.length - s1.rest.length)) :: s1.caps }

/-- A matcher hands on only states that have no more input ahead than the
state it was given: its result depends on the continuation at such states
alone. -/
def Matcher.Consuming (m : Matcher) : Prop :=
  ∀ (s : MState) (k k1 : Cont),
    (∀ s1 : MState, s1.rest.length ≤ s.rest.length → k s1 = k1 s1) → m s k = m s k1

/-- A matcher that succeeds returns what the continuation returns at a state
reached by consuming input: no more input is ahead, and the positions of the
consumed and the remaining input add up as before. -/
def Matcher.Forward (m : Matcher) : Prop :=
  ∀ (s : MState) (k : Cont), m s k = none ∨
    ∃ s1 : MState, s1.rest.length ≤ s.rest.length ∧
      s1.prev.length + s1.rest.length = s.prev.length + s.rest.length ∧ m s k = k s1

/-- Result of a successful match. -/
structure MatchResult where
  pre : Str
  matched : Str
  post : Str
  caps : List (Nat × Str)
  deriving DecidableEq

/-- Capture `i` of a match: `none` stands for `undefined`. -/
def MatchResult.cap (r : MatchResult) (i : Nat) : Option Str :=
  (r.caps.find? fun p => p.1 = i).map Prod.snd

/-- Try to match exactly at the current position. -/
def RegExp.matchAt (r : RegExp) (prev rest : Str) : Option MState :=
  r.re.matcher r.ignoreCase r.multiline ⟨prev, rest, []⟩ some

/-- Leftmost match at or after the current position: the start positions are
tried from left to right, the end of input included.  Returns the consumed
prefix (reversed) at the start of the match and the final matcher state. -/
def RegExp.search (r : RegExp) : Str → Str → Option (Str × MState)
  | prev, [] => (r.matchAt prev []).map fun s => (prev, s)
  | prev, c :: t =>
    match r.matchAt prev (c :: t) with
    | some s => some (prev, s)
    | none => RegExp.search r (c :: prev) t

/-- The text matched between the start position `prev0` and the final state. -/
def matchedText (prev0 : Str) (s : MState) : Str :=
  (s.prev.take (s.prev.length - prev0.length)).reverse

/-- `RegExp.prototype.exec` with `lastIndex = 0`. -/
def RegExp.exec (r : RegExp) (s : Str) : Option MatchResult :=
  (r.search [] s).map fun (p, st) =>
    { pre := p.reverse, matched := matchedText p st, post := st.rest, caps := st.caps }

/-- `RegExp.prototype.test` of a regular expression without the `g` flag. -/
def RegExp.test (r : RegExp) (s : Str) : Bool := (r.exec s).isSome

/-- All matches of a global regular expression, scanning from the given
position: after a match the scan resumes at its end, one character further
when the match was empty.  More fuel than the length of the input is always
enough (`RegExp.matchAllFrom_fuel`). -/
def RegExp.matchAllFrom (r : RegExp) : Nat → Str → Str → List Str
  | 0, _, _ => []
  | fuel + 1, prev, rest =>
    match r.search prev rest with
    | none => []
    | some (p, st) =>
      let matched := matchedText p st
      if matched.isEmpty then
        match st.rest with
        | [] => [matched]
        | c :: t => matched :: RegExp.matchAllFrom r fuel (c :: st.prev) t
      else matched :: RegExp.matchAllFrom r fuel st.prev st.rest

/-- `String.prototype.match` with a global regular expression, followed by
`|| []`: the matched substrings in order, empty when there is none. -/
def RegExp.matchAll (r : RegExp) (s : Str) : List Str :=
  r.matchAllFrom (s.length + 1) [] s

/-- GetSubstitution for a pattern without capture groups (every pattern the
program hands to `replace` is one): `$$` is a dollar sign, `$&` the match,
`` $` `` the text before it, `$'` the text after it, and any other `$` stands
for itself. -/
def getSubstitution (matched pre post : Str) : Str → Str
  | [] => []
  | [c] => [c]
  | c :: d :: t =>
    if c = '$' ∧ d = '$' then '$' :: getSubstitution matched pre post t
    else if c = '$' ∧ d = '&' then matched ++ getSubstitution matched pre post t
    else if c = '$' ∧ d = '`' then pre ++ getSubstitution matched pre post t
    else if c = '$' ∧ d = '\'' then post ++ getSubstitution matched pre post t
    else c :: getSubstitution matched pre post (d :: t)

/-- `String.prototype.replace` with a regular expression without the `g`
flag: the leftmost match is replaced, the string is returned as it is when
there is none. -/
def RegExp.replaceFirst (r : RegExp) (s repl : Str) : Str :=
  match r.exec s with
  | none => s
  | some m => m.pre ++ getSubstitution m.matched m.pre m.post repl ++ m.post

/-- `String.prototype.replace` with a global regular expression, scanning
from the given position: every match is replaced.  More fuel than the length
of the input is always enough (`RegExp.replaceAllFrom_fuel`). -/
def RegExp.replaceAllFrom (r : RegExp) (repl : Str) : Nat → Str → Str → Str
  | 0, _, rest => rest
  | fuel + 1, prev, rest =>
    match r.search prev rest with
    | none => rest
    | some (p, st) =>
      let matched := matchedText p st
      let skipped := rest.take (p.length - prev.length)
      let sub := getSubstitution matched p.reverse st.rest repl
      if matched.isEmpty then
        match st.rest with
        | [] => skipped ++ sub
        | c :: t => skipped ++ sub ++ c :: RegExp.replaceAllFrom r repl fuel (c :: st.prev) t
      else skipped ++ sub ++ RegExp.replaceAllFrom r repl fuel st.prev st.rest

/-- `String.prototype.replace(regexp, string)`. -/
def RegExp.replace (r : RegExp) (s repl : Str) : Str :=
  if r.global then r.replaceAllFrom repl (s.length + 1) [] s else r.replaceFirst s repl

/-! ### `new RegExp(string)` -/

/-- SyntaxCharacter of the ECMAScript pattern grammar. -/
def isSyntaxChar (c : Char) : Bool :=
  c = '^' || c = '$' || c = '\\' || c = '.' || c = '*' || c = '+' || c = '?' ||
  c = '(' || c = ')' || c = '[' || c = ']' || c = '{' || c = '}' || c = '|'

/-- The atom or assertion written `\c`; the flag tells an assertion, which
takes no quantifier.  `none` outside the modelled escapes. -/
def parseEscape (c : Char) : Option (Regex × Bool) :=
  if c = 'd' then some (.cls false [.digit], false)
  else if c = 'D' then some (.cls false [.notDigit], false)
  else if c = 'w' then some (.cls false [.word], false)
  else if c = 'W' then some (.cls false [.notWord], false)
  else if c = 's' then some (.cls false [.space], false)
  else if c = 'S' then some (.cls false [.notSpace], false)
  else if c = 'b' then some (.wordB, true)
  else if c = 'B' then some (.notWordB, true)
  else if c = 't' then some (.chr '\t', false)
  else if c = 'n' then some (.chr '\n', false)
  else if c = 'v' then some (.chr (Char.ofNat 0x0B), false)
  else if c = 'f' then some (.chr (Char.ofNat 0x0C), false)
  else if c = 'r' then some (.chr '\r', false)
  else if c = '/' || isSyntaxChar c then some (.chr c, false)
  else none

/-- Does the text start with a quantifier symbol? -/
def startsWithQuant : Str → Bool
  | [] => false
  | c :: _ => c = '*' || c = '+' || c = '?'

/-- The `?` that makes a quantifier lazy, if present: whether the quantifier
is greedy, and the text after the mark. -/
def lazyMark : Str → Bool × Str
  | [] => (true, [])
  | c :: t => if c = '?' then (false, t) else (true, c :: t)

/-- Apply the quantifier at the head of the text, if any, to the atom. -/
def applyQuant (a : Regex) : Str → Regex × Str
  | [] => (a, [])
  | q :: t =>
    if q = '*' then (.star (lazyMark t).1 a, (lazyMark t).2)
    else if q = '+' then (.plus (lazyMark t).1 a, (lazyMark t).2)
    else if q = '?' then (.opt (lazyMark t).1 a, (lazyMark t).2)
    else (a, q :: t)

/-- Parser of pattern text for the fragment without groups, alternation,
classes and braces: literal characters, `.`, `^`, `$`, the escapes of
`parseEscape`, and the quantifiers `*`, `+`, `?` with their lazy forms.
`none` is a SyntaxError or a pattern outside this fragment; more fuel than the
length of the source is always enough (`parsePattern_fuel`). -/
def parsePattern : Nat → Str → Option Regex
  | 0, _ => none
  | _ + 1, [] => some .empty
  | fuel + 1, c :: t =>
    if c = '^' then
      if startsWithQuant t then none else (parsePattern fuel t).map (Regex.seq .bol)
    else if c = '$' then
      if startsWithQuant t then none else (parsePattern fuel t).map (Regex.seq .eol)
    else if c = '\\' then
      match t with
      | [] => none
      | e :: t1 =>
        match parseEscape e with
        | none => none
        | some (a, true) =>
          if startsWithQuant t1 then none else (parsePattern fuel t1).map (Regex.seq a)
        | some (a, false) =>
          (parsePattern fuel (applyQuant a t1).2).map (Regex.seq (applyQuant a t1).1)
    else if c = '.' then
      (parsePattern fuel (applyQuant .any t).2).map (Regex.seq (applyQuant .any t).1)
    else if isSyntaxChar c then none
    else (parsePattern fuel (applyQuant (.chr c) t).2).map (Regex.seq (applyQuant (.chr c) t).1)

/-- `new RegExp(source)` without flags; `none` when the constructor throws a
SyntaxError or the source is outside the modelled fragment. -/
def RegExp.compile (source : Str) : Option RegExp :=
  (parsePattern (source.length + 1) source).map fun re => { re := re }

/-! ## Strings -/

/-- `String.prototype.trim`. -/
def trim (s : Str) : Str :=
  ((s.dropWhile isWhiteSpace).reverse.dropWhile isWhiteSpace).reverse

/-- `String.prototype.split` on a separator that matches exactly the one
character `sep` (the program splits on `/,/`): the pieces between the
separators, at least one. -/
def splitOn (sep : Char) : Str → List Str
  | [] => [[]]
  | c :: t =>
    if c = sep then [] :: splitOn sep t
    else
      match splitOn sep t with
      | [] => [[c]]
      | p :: ps => (c :: p) :: ps

/-- `Array.prototype.map` with a callback that may throw (`none`): the first
exception aborts the whole map. -/
def mapOpt {α β : Type} (f : α → Option β) : List α → Option (List β)
  | [] => some []
  | a :: rest =>
    match f a with
    | none => none
    | some b => (mapOpt f rest).map fun bs => b :: bs

/-- `Array.prototype.join`. -/
def joinWith (sep : Str) : List Str → Str
  | [] => []
  | [a] => a
  | a :: b :: rest => a ++ sep ++ joinWith sep (b :: rest)

/-! ## Node's `path` module, POSIX flavour -/

namespace Path

/-- The segment walk of `normalizeString`: empty and `.` segments are
dropped, `..` removes the segment before it, or is kept when there is none to
remove and the path is relative.  `acc` holds the kept segments, last first. -/
def normalizeSegs (allowAboveRoot : Bool) : List Str → List Str → List Str
  | acc, [] => acc.reverse
  | acc, seg :: segs =>
    if seg = [] ∨ seg = ['.'] then normalizeSegs allowAboveRoot acc segs
    else if seg = ['.', '.'] then
      match acc with
      | [] =>
        if allowAboveRoot then normalizeSegs allowAboveRoot [seg] segs
        else normalizeSegs allowAboveRoot [] segs
      | top :: acc1 =>
        if top = ['.', '.'] then
          if allowAboveRoot then normalizeSegs allowAboveRoot (seg :: acc) segs
          else normalizeSegs allowAboveRoot acc segs
        else normalizeSegs allowAboveRoot acc1 segs
    else normalizeSegs allowAboveRoot (seg :: acc) segs

/-- `path.normalize`. -/
def normalize (p : Str) : Str :=
  if p = [] then ['.']
  else
    let isAbsolute := p.head? = some '/'
    let trailing := p.getLast? = some '/'
    let res := joinWith ['/'] (normalizeSegs (!isAbsolute) [] (splitOn '/' p))
    if res = [] then
      if isAbsolute then ['/'] else if trailing then ['.', '/'] else ['.']
    else
      (if isAbsolute then ['/'] else []) ++ res ++ (if trailing then ['/'] else [])

/-- The backwards scan of `path.dirname` over the characters at indices
`length - 1` down to `1` (given last first): the index of the last separator
that follows a non-separator, counted from the end. -/
def dirnameScan : Bool → Str → Option Nat
  | _, [] => none
  | matchedSlash, c :: t =>
    if c = '/' then
      if !matchedSlash then some (t.length + 1) else dirnameScan matchedSlash t
    else dirnameScan false t

/-- `path.dirname`. -/
def dirname (p : Str) : Str :=
  if p = [] then ['.']
  else
    let hasRoot := p.head? = some '/'
    match dirnameScan true p.tail.reverse with
    | none => if hasRoot then ['/'] else ['.']
    | some e => if hasRoot ∧ e = 1 then ['/', '/'] else p.take e

/-- The backwards scan of `path.basename` over the characters at indices
`length - 1` down to `0` (given last first): `(start, end)` of the last
segment, `end = none` when there is no non-separator character. -/
def basenameScan : Bool → Option Nat → Str → Nat × Option Nat
  | _, e, [] => (0, e)
  | matchedSlash, e, c :: t =>
    if c = '/' then
      if !matchedSlash then (t.length + 1, e) else basenameScan matchedSlash e t
    else
      match e with
      | none => basenameScan false (some (t.length + 1)) t
      | some _ => basenameScan matchedSlash e t

/-- `path.basename` without the extension argument. -/
def basename (p : Str) : Str :=
  match basenameScan true none p.reverse with
  | (_, none) => []
  | (start, some e) => (p.take e).drop start

end Path

/-! ## Plain objects used as maps -/

/-- The own string-keyed properties of a plain object, in creation order. -/
abbrev Obj (V : Type) := List (Str × V)

/-- The property name `__proto__`. -/
def protoKey : Str := "__proto__".toList

/-- The assignment `o[k] = v` on a plain object: an existing own property
keeps its place and takes the new value, a new one is added last.  The key
`__proto__` is the inherited accessor of `Object.prototype`: assigning to it
invokes the prototype setter and creates no own property. -/
def Obj.set {V : Type} (o : Obj V) (k : Str) (v : V) : Obj V :=
  if k = protoKey then o
  else if o.any (fun p => p.1 = k) then o.map fun p => if p.1 = k then (k, v) else p
  else o ++ [(k, v)]

/-- The value of the digits read as a decimal numeral. -/
def decimalValue (ds : Str) : Nat :=
  ds.foldl (fun n c => 10 * n + (c.toNat - '0'.toNat)) 0

/-- The array index a key denotes, if any: a canonical decimal numeral
(no leading zero) of value at most `2^32 - 2`. -/
def arrayIndex (k : Str) : Option Nat :=
  if k = ['0'] then some 0
  else if k ≠ [] ∧ k.all isDigitChar ∧ k.head? ≠ some '0' ∧ decimalValue k ≤ 4294967294 then
    some (decimalValue k)
  else none

/-- Insert an entry with array index `i` into entries ordered by index. -/
def insertIndexed {V : Type} (i : Nat) (e : Str × V) : List (Nat × (Str × V)) →
    List (Nat × (Str × V))
  | [] => [(i, e)]
  | (j, f) :: rest => if i ≤ j then (i, e) :: (j, f) :: rest else (j, f) :: insertIndexed i e rest

/-- The entries whose key is an array index, in ascending index order. -/
def indexedEntries {V : Type} : Obj V → List (Nat × (Str × V))
  | [] => []
  | e :: rest =>
    match arrayIndex e.1 with
    | some i => insertIndexed i e (indexedEntries rest)
    | none => indexedEntries rest

/-- OrdinaryOwnPropertyKeys order: array-index keys in ascending numeric
order, then the other keys in creation order. -/
def Obj.ordered {V : Type} (o : Obj V) : Obj V :=
  (indexedEntries o).map Prod.snd ++ o.filter fun e => (arrayIndex e.1).isNone

/-- `Object.keys`. -/
def Obj.keys {V : Type} (o : Obj V) : List Str := o.ordered.map Prod.fst

/-- `Object.values`. -/
def Obj.values {V : Type} (o : Obj V) : List V := o.ordered.map Prod.snd

/-- The property read `o[k]` for an own property. -/
def Obj.get {V : Type} (o : Obj V) (k : Str) : Option V :=
  (o.find? fun p => p.1 = k).map Prod.snd

/-! ## File system -/

/-- A directory entry as `readdirSync(_, { withFileTypes: true })` reports
it, with the contents below it: a regular file and its text, a directory and
its entries, or an entry that is neither (`isFile()` and `isDirectory()` are
both false: symbolic link, socket, device). -/
inductive Dirent where
  | file (name : Str) (content : Str)
  | dir (name : Str) (children : List Dirent)
  | other (name : Str)

/-- `dirent.name`. -/
def Dirent.name : Dirent → Str
  | .file n _ => n
  | .dir n _ => n
  | .other n => n

/-- `dirent.isFile()`. -/
def Dirent.isFile : Dirent → Bool
  | .file _ _ => true
  | _ => false

/-- `dirent.isDirectory()`. -/
def Dirent.isDirectory : Dirent → Bool
  | .dir _ _ => true
  | _ => false

/-- A file system: the entries of the root directory and the working
directory of the process (an absolute path). -/
structure FS where
  root : List Dirent
  cwd : Str

/-- Walk path segments from the entry `cur` whose ancestors are `anc`
(nearest first). -/
def FS.walk : Dirent → List Dirent → List Str → Option Dirent
  | cur, _, [] => some cur
  | cur, anc, seg :: segs =>
    match cur with
    | .dir _ children =>
      if seg = [] ∨ seg = ['.'] then FS.walk cur anc segs
      else if seg = ['.', '.'] then
        match anc with
        | [] => FS.walk cur [] segs
        | p :: anc1 => FS.walk p anc1 segs
      else
        match children.find? fun d => d.name = seg with
        | none => none
        | some d => FS.walk d (cur :: anc) segs
    | _ => none

/-- The entry a path names, if it exists. -/
def FS.find (fs : FS) (p : Str) : Option Dirent :=
  if p = [] then none
  else if p.head? = some '/' then FS.walk (.dir [] fs.root) [] (splitOn '/' p)
  else FS.walk (.dir [] fs.root) [] (splitOn '/' (fs.cwd ++ '/' :: p))

/-- `fs.existsSync`. -/
def FS.existsSync (fs : FS) (p : Str) : Bool := (fs.find p).isSome

/-- `fs.readFileSync(p, { encoding: "UTF-8" })`; `none` when it throws. -/
def FS.readFileSync (fs : FS) (p : Str) : Option Str :=
  match fs.find p with
  | some (.file _ content) => some content
  | _ => none

/-- `fs.readdirSync(p, { withFileTypes: true })`; `none` when it throws. -/
def FS.readdirSync (fs : FS) (p : Str) : Option (List Dirent) :=
  match fs.find p with
  | some (.dir _ children) => some children
  | _ => none

/-! ## The program -/

/-- The constants the script computes before it scans: `sourceDirectory`,
`sourceDirectoryRegex`, `includePattern`, `excludePattern`, `aliasMapping`. -/
structure Env where
  sourceDirectory : Str
  sourceDirectoryRegex : RegExp
  includePattern : RegExp
  excludePattern : RegExp
  aliasMapping : Obj Str
  deriving DecidableEq

/-- `new RegExp(sourceDirectory + "/src/")`. -/
def sourceDirectoryRegex (sourceDirectory : Str) : Option RegExp :=
  RegExp.compile (sourceDirectory ++ "/src/".toList)

/-- The constants for a source directory, the sources of the include and
exclude patterns (`config.includePattern || ".ts$"`,
`config.excludePattern || ".spec.ts$"`) and the alias mapping; `none` when a
`RegExp` constructor throws. -/
def Env.make (sourceDirectory includeSource excludeSource : Str) (aliasMapping : Obj Str) :
    Option Env :=
  match DepGraph.sourceDirectoryRegex sourceDirectory, RegExp.compile includeSource,
    RegExp.compile excludeSource with
  | some r, some inc, some exc =>
    some { sourceDirectory := sourceDirectory, sourceDirectoryRegex := r,
           includePattern := inc, excludePattern := exc, aliasMapping := aliasMapping }
  | _, _, _ => none

/-- `getSourceFiles` of `getFileList`, mapped to normalized paths: the
regular files of the listing whose name matches the include pattern and not
the exclude pattern. -/
def getSourceFiles (includePattern excludePattern : RegExp) (path : Str)
    (files : List Dirent) : List Str :=
  (((files.filter fun file => file.isFile).filter
      fun file => includePattern.test file.name).filter
      fun file => !excludePattern.test file.name).map
    fun file => Path.normalize (path ++ '/' :: file.name)

mutual
/-- The recursive call of `getFileList` for one entry of a listing, when it
is a directory: the source files of the directory followed by the results of
the recursive calls for its own directories.  Other entries contribute
nothing. -/
def getDirentFiles (includePattern excludePattern : RegExp) (path : Str) : Dirent → List Str
  | .dir name children =>
    getSourceFiles includePattern excludePattern (path ++ '/' :: name) children ++
      getSubDirFiles includePattern excludePattern (path ++ '/' :: name) children
  | _ => []
/-- The recursive calls of `getFileList` for the directories of a listing,
concatenated in listing order. -/
def getSubDirFiles (includePattern excludePattern : RegExp) (path : Str) :
    List Dirent → List Str
  | [] => []
  | d :: rest =>
    getDirentFiles includePattern excludePattern path d ++
      getSubDirFiles includePattern excludePattern path rest
end

/-- `getFileList(path)`, where `files` is what `readdirSync(path)` lists. -/
def getFileList (includePattern excludePattern : RegExp) (path : Str)
    (files : List Dirent) : List Str :=
  getSourceFiles includePattern excludePattern path files ++
    getSubDirFiles includePattern excludePattern path files

/-- The pattern `/[\r\n]/gi`. -/
def lineBreakRegex : RegExp :=
  { re := .cls false [.chr '\r', .chr '\n'], global := true, ignoreCase := true }

/-- The pattern `/import\s+.*?\s+from\s+.*?;/gim`. -/
def importStatementRegex : RegExp :=
  { re := Regex.seqs [.lit "import".toList, .plus true (.cls false [.space]), .star false .any,
      .plus true (.cls false [.space]), .lit "from".toList, .plus true (.cls false [.space]),
      .star false .any, .chr ';'],
    global := true, ignoreCase := true, multiline := true }

/-- `getImports` on the text of the file. -/
def getImportsOfText (text : Str) : List Str :=
  importStatementRegex.matchAll (lineBreakRegex.replace text [' '])

/-- `getImports(file)`; `none` when the file cannot be read. -/
def getImports (fs : FS) (file : Str) : Option (List Str) :=
  (fs.readFileSync file).map getImportsOfText

/-- `resolveAlias(path)`: the first key, in `Object.keys` order, whose
pattern `^key` matches the path decides; `none` when a `RegExp` constructor
throws. -/
def resolveAlias (aliasMapping : Obj Str) (path : Str) : Option Str :=
  (mapOpt (fun aliasKey =>
      (RegExp.compile ('^' :: aliasKey)).map fun regex =>
        if regex.test path then some (regex, (aliasMapping.get aliasKey).getD []) else none)
      aliasMapping.keys).map
    fun found =>
      match found.filterMap id with
      | [] => path
      | (regex, replacement) :: _ => regex.replace path replacement

/-- `normalizImportPath(path, origin)`. -/
def normalizImportPath (existsSync : Str → Bool) (sourceDirectory : Str)
    (aliasMapping : Obj Str) (path origin : Str) : Option Str :=
  let currentDir := Path.dirname origin
  (resolveAlias aliasMapping path).map fun resolved =>
    let absolutePath :=
      if path ≠ resolved then Path.normalize (sourceDirectory ++ '/' :: resolved)
      else Path.normalize (currentDir ++ '/' :: path)
    if !(existsSync absolutePath || existsSync (absolutePath ++ ".ts".toList)) then path
    else absolutePath

/-- An import record `{ to, imports, from }`: the importing file, the bound
names and the import target (`to_` and `from_` stand for `to` and `from`). -/
structure Record where
  to_ : Str
  imports : List Str
  from_ : Str
  deriving DecidableEq

/-- The class `['" ]`. -/
def quoteOrSpace : Regex := .cls false [.chr '\'', .chr '"', .chr ' ']

/-- The pattern `/import\b(.*?)\bfrom\b['" ]*(.*?)['" ]*;/`. -/
def parseImportRegex : RegExp :=
  { re := Regex.seqs [.lit "import".toList, .wordB, .group 1 (.star false .any), .wordB,
      .lit "from".toList, .wordB, .star true quoteOrSpace, .group 2 (.star false .any),
      .star true quoteOrSpace, .chr ';'] }

/-- The pattern `/[\{\}]/g`. -/
def braceRegex : RegExp := { re := .cls false [.chr '{', .chr '}'], global := true }

/-- The `imports` of `parseImport`: braces removed, split on commas, each
piece trimmed. -/
def parseBoundNames (clause : Str) : List Str :=
  (splitOn ',' (braceRegex.replace clause [])).map trim

/-- `parseImport(imp, path)`; `none` when it throws: the statement does not
match (`data` is `null`, reading `data[1]` is a TypeError) or a `RegExp`
constructor throws during alias resolution. -/
def parseImport (existsSync : Str → Bool) (sourceDirectory : Str) (aliasMapping : Obj Str)
    (imp path : Str) : Option Record :=
  match parseImportRegex.exec imp with
  | none => none
  | some data =>
    (normalizImportPath existsSync sourceDirectory aliasMapping
        ((data.cap 2).getD []) path).map fun target =>
      { to_ := Path.normalize path,
        imports := parseBoundNames ((data.cap 1).getD []),
        from_ := target }

/-- The pattern `/module$/`. -/
def moduleRegex : RegExp := { re := .seq (.lit "module".toList) .eol }

/-- The pattern `/component$/`. -/
def componentRegex : RegExp := { re := .seq (.lit "component".toList) .eol }

/-- The pattern `/service$/`. -/
def serviceRegex : RegExp := { re := .seq (.lit "service".toList) .eol }

/-- The pattern `/(effects?|selectors?|actions?|reducers?|state|facade)$/`. -/
def stateLayerRegex : RegExp :=
  { re := .seq (.group 1
      (.alt (.seq (.lit "effect".toList) (.opt true (.chr 's')))
      (.alt (.seq (.lit "selector".toList) (.opt true (.chr 's')))
      (.alt (.seq (.lit "action".toList) (.opt true (.chr 's')))
      (.alt (.seq (.lit "reducer".toList) (.opt true (.chr 's')))
      (.alt (.lit "state".toList) (.lit "facade".toList))))))) .eol }

/-- `getNodeColor(path)`; `none` stands for `undefined`. -/
def getNodeColor (path : Str) : Option Str :=
  if moduleRegex.test path then some "#ffcfcf".toList
  else if componentRegex.test path then some "#cfffcf".toList
  else if serviceRegex.test path then some "#ffcfff".toList
  else if stateLayerRegex.test path then some "#cfcfcf".toList
  else none

/-- A node of the rendered graph (`fontMulti` and `fontSize` stand for
`font.multi` and `font.size`). -/
structure Node where
  id : Str
  label : Str
  shape : Str
  color : Option Str
  fontMulti : Str
  fontSize : Nat
  deriving DecidableEq

/-- The node object `createNodes` builds for an identifier. -/
def mkNode (id : Str) : Node :=
  { id := id,
    label := ['*'] ++ Path.basename id ++ ['*', '\n'] ++ Path.dirname id,
    shape := "box".toList,
    color := getNodeColor id,
    fontMulti := "md".toList,
    fontSize := 14 }

/-- One round of the `forEach` of `createNodes`: the two assignments for an
edge. -/
def nodeStep (nodes : Obj Node) (node : Record) : Obj Node :=
  (nodes.set node.to_ (mkNode node.to_)).set node.from_ (mkNode node.from_)

/-- The object `nodes` of `createNodes` after the `forEach`. -/
def nodeTable (graph : List Record) : Obj Node := graph.foldl nodeStep []

/-- `createNodes(graph)`. -/
def createNodes (graph : List Record) : List Node := (nodeTable graph).values

/-- An edge of the rendered graph (`to_` and `from_` stand for `to` and
`from`, `fontAlign` for `font.align`). -/
structure Edge where
  to_ : Str
  from_ : Str
  arrows : Str
  label : Str
  fontAlign : Str
  deriving DecidableEq

/-- `createEdges(graph)`. -/
def createEdges (graph : List Record) : List Edge :=
  graph.map fun node =>
    { to_ := node.to_, from_ := node.from_, arrows := "from".toList,
      label := joinWith ['\n'] node.imports, fontAlign := "horizontal".toList }

/-- The pattern `/\.ts$/`. -/
def tsSuffixRegex : RegExp := { re := Regex.seqs [.chr '.', .chr 't', .chr 's', .eol] }

/-- `clearPath(path)`. -/
def clearPath (sourceDirectoryRegex : RegExp) (path : Str) : Str :=
  sourceDirectoryRegex.replace (tsSuffixRegex.replace path []) []

/-- `filterFile(path)`. -/
def filterFile (sourceDirectoryRegex : RegExp) (path : Str) : Bool :=
  sourceDirectoryRegex.test path

/-- The pattern `/\\/g`. -/
def backslashRegex : RegExp := { re := .chr '\\', global := true }

/-- The raw import records of the scanned files: the first `map` and the
`reduce` of `graph`. -/
def rawRecords (fs : FS) (env : Env) (fileList : List Str) : Option (List Record) :=
  (mapOpt (fun fileName =>
      (getImports fs fileName).bind fun imps =>
        mapOpt (fun imp =>
          parseImport fs.existsSync env.sourceDirectory env.aliasMapping imp fileName) imps)
    fileList).map List.flatten

/-- The rest of `graph`: separators normalized, records filtered with
`filterFile(node.from)`, both endpoints cleaned with `clearPath`. -/
def buildGraph (sourceDirectoryRegex : RegExp) (raw : List Record) : List Record :=
  (((raw.map fun node =>
        ({ from_ := backslashRegex.replace node.from_ ['/'],
           to_ := backslashRegex.replace node.to_ ['/'],
           imports := node.imports } : Record)).filter
      fun node => filterFile sourceDirectoryRegex node.from_).map
    fun node =>
      ({ from_ := clearPath sourceDirectoryRegex node.from_,
         to_ := clearPath sourceDirectoryRegex node.to_,
         imports := node.imports } : Record))

/-- The constant `graph` of the script; `none` when the run aborts with an
exception. -/
def graph (fs : FS) (env : Env) : Option (List Record) :=
  (fs.readdirSync (env.sourceDirectory ++ "/src".toList)).bind fun files =>
    (rawRecords fs env
      (getFileList env.includePattern env.excludePattern
        (env.sourceDirectory ++ "/src".toList) files)).map
      (buildGraph env.sourceDirectoryRegex)

/-! ## The file collector as the specification words it -/

mutual
/-- The regular files an entry of a directory stands for: itself when it is a
regular file, the regular files below it when it is a directory. -/
def regularFilesOf (path : Str) : Dirent → List (Str × Str)
  | .file name _ => [(path, name)]
  | .dir name children => regularFiles (path ++ '/' :: name) children
  | .other _ => []
/-- Every regular file of a directory tree, at any depth, as the pair of the
directory path it lies in and its name; every sub-directory is descended. -/
def regularFiles (path : Str) : List Dirent → List (Str × Str)
  | [] => []
  | d :: rest => regularFilesOf path d ++ regularFiles path rest
end

/-- The collection the specification describes: the regular files of the
tree whose name matches the inclusion pattern and not the exclusion pattern,
as normalized paths. -/
def collectSpec (includePattern excludePattern : RegExp) (path : Str) (files : List Dirent) :
    List Str :=
  ((regularFiles path files).filter
      fun f => includePattern.test f.2 && !excludePattern.test f.2).map
    fun f => Path.normalize (f.1 ++ '/' :: f.2)

/-! ## Pattern families used in the proofs -/

/-- The regular expression `text$` for a text without syntax characters,
without flags; `tsSuffixRegex` is `litAtEnd ".ts"`. -/
def litAtEnd (s : Str) : RegExp := { re := Regex.seqs (s.map Regex.chr ++ [Regex.eol]) }

/-! ## Well-formed project roots -/

/-- A path segment that is not empty and holds neither a separator nor a
syntax character of regular expressions (so it is neither `.` nor `..`). -/
def isPlainSegment (seg : Str) : Bool :=
  !seg.isEmpty && seg.all fun c => !isSyntaxChar c && c != '/'

/-- The absolute path with the given segments. -/
def rootPath (segments : List Str) : Str := '/' :: joinWith ['/'] segments

/-! ## The scenario of the specification -/

/-- Entries nested in the directories named by the segments. -/
def nestIn : List Str → List Dirent → List Dirent
  | [], entries => entries
  | seg :: segs, entries => [.dir seg (nestIn segs entries)]

/-- The import statement of the scenario. -/
def scenarioStatement : Str := "import { Foo } from './app.service';".toList

/-- The entries of `src` in the scenario: `app.module.ts` with one import
statement and `app.service.ts` without imports. -/
def scenarioSrc : List Dirent :=
  [.file "app.module.ts".toList scenarioStatement, .file "app.service.ts".toList []]

/-- The file system of the scenario: the project root holds the directory
`src`. -/
def scenarioFS (rootSegments : List Str) : FS :=
  { root := nestIn rootSegments [.dir "src".toList scenarioSrc],
    cwd := rootPath rootSegments }

/-- The pattern `new RegExp(".ts$")`, the default inclusion pattern. -/
def defaultIncludePattern : RegExp :=
  { re := Regex.seqs (.any :: ("ts".toList.map Regex.chr ++ [.eol])) }

/-- The pattern `new RegExp(".spec.ts$")`, the default exclusion pattern. -/
def defaultExcludePattern : RegExp :=
  { re := Regex.seqs (.any :: ("spec".toList.map Regex.chr ++
      .any :: ("ts".toList.map Regex.chr ++ [.eol]))) }

/-- The constants the script computes in the scenario: the source-directory
pattern for a root without syntax characters and the default patterns. -/
def scenarioEnv (rootSegments : List Str) : Env :=
  { sourceDirectory := rootPath rootSegments,
    sourceDirectoryRegex := { re := Regex.lit (rootPath rootSegments ++ "/src/".toList) },
    includePattern := defaultIncludePattern,
    excludePattern := defaultExcludePattern,
    aliasMapping := [] }

/-- The run of the script in the scenario: default include and exclude
patterns, empty alias mapping. -/
def scenarioGraph (rootSegments : List Str) : Option (List Record) :=
  (Env.make (rootPath rootSegments) ".ts$".toList ".spec.ts$".toList []).bind
    (graph (scenarioFS rootSegments))

/-! ## A project with an unresolved import -/

/-- A project at `/home/dev/shop` whose only source file, `src/main.ts`,
imports the package `lodash`, which no probed location holds. -/
def unresolvedFS : FS :=
  { root := nestIn ["home".toList, "dev".toList, "shop".toList]
      [.dir "src".toList [.file "main.ts".toList "import _ from 'lodash';".toList]],
    cwd := "/home/dev/shop".toList }

/-- The run of the script on `unresolvedFS`: default patterns, empty alias
mapping. -/
def unresolvedGraph : Option (List Record) :=
  (Env.make "/home/dev/shop".toList ".ts$".toList ".spec.ts$".toList []).bind
    (graph unresolvedFS)

/-! ## Node order as the specification words it -/

/-- The endpoints of the edges in scan order: for each edge the importing
file, then the target. -/
def endpoints (graph : List Record) : List Str :=
  graph.flatMap fun r => [r.to_, r.from_]

/-- One more identifier seen: it is added last unless it was seen before. -/
def noteFirst (seen : List Str) (k : Str) : List Str :=
  if k ∈ seen then seen else seen ++ [k]

/-- The identifiers in the order of their first appearance. -/
def firstAppearance (ids : List Str) : List Str := ids.foldl noteFirst []

/-! ## The alias table -/

/-- The pattern `/\*$/`. -/
def trailingStarRegex : RegExp := { re := Regex.seqs [.chr '*', .eol] }

/-- What `require(tsconfig)` yields in `getTsConfigPaths`: an exception, or
the configuration, of which the script reads `compilerOptions.paths` (`none`
when the chain `tsconfig && tsconfig.compilerOptions &&
tsconfig.compilerOptions.paths` is falsy). -/
inductive TsConfigLoad where
  | failed
  | loaded (paths : Option (Obj (List Str)))

/-- One round of the `map` of `getTsConfigPaths`; `none` when it throws:
`replacement[0]` is `undefined` for an empty list, and calling `replace` on it
is a TypeError. -/
def aliasStep (paths : Obj (List Str)) (mapping : Option (Obj Str)) (aliasKey : Str) :
    Option (Obj Str) :=
  mapping.bind fun m =>
    match (paths.get aliasKey).getD [] with
    | [] => none
    | r0 :: _ =>
      some (m.set (trailingStarRegex.replace aliasKey []) (trailingStarRegex.replace r0 []))

/-- `getTsConfigPaths(path)`, as a function of what loading the
configuration yields. -/
def getTsConfigPaths : TsConfigLoad → Option (Obj Str)
  | .failed => some []
  | .loaded none => some []
  | .loaded (some paths) => paths.keys.foldl (aliasStep paths) (some [])

/-- A string with one trailing `*` removed, as the specification words it. -/
def dropTrailingStar (s : Str) : Str :=
  if s.getLast? = some '*' then s.dropLast else s

/-- What `getTsConfigPaths` stores for an alias: the first replacement of the
alias, `paths[alias][0]`, with one trailing `*` removed. -/
def aliasTarget (paths : Obj (List Str)) (aliasKey : Str) : Str :=
  dropTrailingStar (((paths.get aliasKey).getD []).headD [])

/-! ## Match derivations -/

/-- The captures of the groups in `inner` cleared, as RepeatMatcher does at
the start of each iteration. -/
def MState.clear (s : MState) (inner : List Nat) : MState :=
  { s with caps := s.caps.filter fun p => !inner.contains p.1 }

/-- One way for a pattern to match: `Run ic ml r s s1` holds when the
pattern `r` can consume input from the state `s` and end in the state `s1`.
It lists the choices the backtracking matcher explores, without their order:
`Regex.matcher` hands one of these end states to its continuation
(`Regex.matcher_sound`), and it succeeds as soon as its continuation accepts
one of them (`Regex.matcher_complete`). -/
inductive Run (ic ml : Bool) : Regex → MState → MState → Prop
  | empty (s : MState) : Run ic ml .empty s s
  | chr (a c : Char) (prev t : Str) (caps : List (Nat × Str))
      (h : canonicalize ic c = canonicalize ic a) :
      Run ic ml (.chr a) ⟨prev, c :: t, caps⟩ ⟨c :: prev, t, caps⟩
  | any (c : Char) (prev t : Str) (caps : List (Nat × Str)) (h : isLineTerminator c = false) :
      Run ic ml .any ⟨prev, c :: t, caps⟩ ⟨c :: prev, t, caps⟩
  | cls (neg : Bool) (items : List ClassItem) (c : Char) (prev t : Str)
      (caps : List (Nat × Str)) (h : classTest ic neg items c = true) :
      Run ic ml (.cls neg items) ⟨prev, c :: t, caps⟩ ⟨c :: prev, t, caps⟩
  | bol (s : MState) (h : (s.prev.isEmpty || (ml && headIsLineTerminator s.prev)) = true) :
      Run ic ml .bol s s
  | eol (s : MState) (h : (s.rest.isEmpty || (ml && headIsLineTerminator s.rest)) = true) :
      Run ic ml .eol s s
  | wordB (s : MState) (h : (headIsWord s.prev != headIsWord s.rest) = true) :
      Run ic ml .wordB s s
  | notWordB (s : MState) (h : (headIsWord s.prev == headIsWord s.rest) = true) :
      Run ic ml .notWordB s s
  | seq (a b : Regex) (s s1 s2 : MState) (ha : Run ic ml a s s1) (hb : Run ic ml b s1 s2) :
      Run ic ml (.seq a b) s s2
  | altL (a b : Regex) (s s1 : MState) (ha : Run ic ml a s s1) : Run ic ml (.alt a b) s s1
  | altR (a b : Regex) (s s1 : MState) (hb : Run ic ml b s s1) : Run ic ml (.alt a b) s s1
  | starDone (g : Bool) (r : Regex) (s : MState) : Run ic ml (.star g r) s s
  | starStep (g : Bool) (r : Regex) (s s1 s2 : MState) (hr : Run ic ml r (s.clear r.groups) s1)
      (hp : s1.rest.length ≠ s.rest.length) (hs : Run ic ml (.star g r) s1 s2) :
      Run ic ml (.star g r) s s2
  | plus (g : Bool) (r : Regex) (s s1 s2 : MState) (hr : Run ic ml r (s.clear r.groups) s1)
      (hs : Run ic ml (.star g r) s1 s2) : Run ic ml (.plus g r) s s2
  | optSkip (g : Bool) (r : Regex) (s : MState) : Run ic ml (.opt g r) s s
  | optTake (g : Bool) (r : Regex) (s s1 : MState) (hr : Run ic ml r (s.clear r.groups) s1)
      (hp : s1.rest.length ≠ s.rest.length) : Run ic ml (.opt g r) s s1
  | group (i : Nat) (r : Regex) (s s1 : MState) (hr : Run ic ml r s s1) :
      Run ic ml (.group i r) s
        { s1 with caps := (i, s.rest.take (s.rest.length - s1.rest.length)) :: s1.caps }

/-- The continuation of one more iteration of `*`: the iteration must have
consumed input. -/
def starCont (m : Matcher) (inner : List Nat) (g : Bool) (fuel : Nat) (x : MState) (c : Cont) :
    Cont := fun y =>
  if 0 = 0 ∧ y.rest.length = x.rest.length then none
  else repeatMatcher m inner g fuel (0 - 1) (Option.map (· - 1) none) y c

/-- The continuation of the one iteration of `?`: the iteration must have
consumed input, and no further iteration is allowed. -/
def optCont (m : Matcher) (inner : List Nat) (g : Bool) (fuel : Nat) (x : MState) (c : Cont) :
    Cont := fun y =>
  if 0 = 0 ∧ y.rest.length = x.rest.length then none
  else repeatMatcher m inner g fuel (0 - 1) (Option.map (· - 1) (some 1)) y c

/-- The state `s1` is the state `s` after the text `w` was consumed from the
input ahead, with the captures unchanged. -/
def Consumed (w : Str) (s s1 : MState) : Prop :=
  s.rest = w ++ s1.rest ∧ s1 = ⟨w.reverse ++ s.prev, s1.rest, s.caps⟩

/-- The suffixes of the state-layer colour rule, as the specification lists
them. -/
def stateLayerWords : List Str :=
  ["effect".toList, "effects".toList, "selector".toList, "selectors".toList, "action".toList,
    "actions".toList, "reducer".toList, "reducers".toList, "state".toList, "facade".toList]

/-- The letters `A` to `Z`, the values of the case mapping `Char.toUpper` on
the characters it changes. -/
def upperLetters : List Char := "ABCDEFGHIJKLMNOPQRSTUVWXYZ".toList

/-- The letters `a` to `z`, the values of the case mapping `Char.toLower` on
the characters it changes. -/
def lowerLetters : List Char := "abcdefghijklmnopqrstuvwxyz".toList

/-- A space for CR and for LF, any other character as it is. -/
def spaceForLineBreak (c : Char) : Char := if c = '\r' ∨ c = '\n' then ' ' else c

/-- Does the text begin with the keyword `import`, in any letter case? -/
def startsWithImportKeyword (s : Str) : Bool :=
  (s.take 6).map Char.toUpper = "IMPORT".toList

/-- Does the keyword `from` stand at this position, as `\bfrom\b` requires:
the text ahead begins with `from`, with a word boundary before it and behind
it?  The text before the position is given most recent character first. -/
def fromKeywordAt (prev rest : Str) : Bool :=
  "from".toList.isPrefixOf rest && (headIsWord prev != headIsWord rest) &&
    (headIsWord ("from".toList.reverse ++ prev) != headIsWord (rest.drop 4))

/-- The part of the pattern of `parseImport` behind the bound names,
`\bfrom\b['" ]*(.*?)['" ]*;`. -/
def fromClauseRegex : Regex :=
  Regex.seqs [.wordB, .lit "from".toList, .wordB, .star true quoteOrSpace,
    .group 2 (.star false .any), .star true quoteOrSpace, .chr ';']

/-! # Theorems -/


/-! ## The fuel of the repeat matcher is enough -/

theorem stepChar_consuming (p : Char → Bool) : Matcher.Consuming (stepChar p) := by
  intro s k k1 hk
  obtain ⟨prev, rest, caps⟩ := s
  cases rest with
  | nil => rfl
  | cons c t =>
    simp only [stepChar]
    split_ifs
    · exact hk _ (by simp)
    · rfl

theorem repeatMatcher_consuming (m : Matcher) (hm : Matcher.Consuming m) (inner : List Nat)
    (greedy : Bool) :
    ∀ (fuel min : Nat) (max : Option Nat),
      Matcher.Consuming (repeatMatcher m inner greedy fuel min max)
  | 0, _, _ => fun _ _ _ _ => rfl
  | fuel + 1, min, max => by
    intro x c c1 hc
    have hx : c x = c1 x := hc x (Nat.le_refl _)
    have hd : m { x with caps := x.caps.filter fun p => !inner.contains p.1 }
        (fun y => if min = 0 ∧ y.rest.length = x.rest.length then none
          else repeatMatcher m inner greedy fuel (min - 1) (max.map (· - 1)) y c) =
        m { x with caps := x.caps.filter fun p => !inner.contains p.1 }
        (fun y => if min = 0 ∧ y.rest.length = x.rest.length then none
          else repeatMatcher m inner greedy fuel (min - 1) (max.map (· - 1)) y c1) := by
      apply hm
      intro y hy
      split_ifs
      · rfl
      · exact repeatMatcher_consuming m hm inner greedy fuel (min - 1) (max.map (· - 1)) y c c1
          fun s1 hs1 => hc s1 (Nat.le_trans hs1 hy)
    simp only [repeatMatcher]
    rw [hx, hd]

/-- Every pattern's matcher only moves forward in the input. -/
theorem Regex.matcher_consuming (ic ml : Bool) :
    ∀ r : Regex, Matcher.Consuming (r.matcher ic ml)
  | .empty => fun s _ _ hk => hk s (Nat.le_refl _)
  | .chr _ => stepChar_consuming _
  | .any => stepChar_consuming _
  | .cls _ _ => stepChar_consuming _
  | .bol => by
    intro s k k1 hk
    simp only [Regex.matcher]
    rw [hk s (Nat.le_refl _)]
  | .eol => by
    intro s k k1 hk
    simp only [Regex.matcher]
    rw [hk s (Nat.le_refl _)]
  | .wordB => by
    intro s k k1 hk
    simp only [Regex.matcher]
    rw [hk s (Nat.le_refl _)]
  | .notWordB => by
    intro s k k1 hk
    simp only [Regex.matcher]
    rw [hk s (Nat.le_refl _)]
  | .seq a b => by
    intro s k k1 hk
    simp only [Regex.matcher]
    apply Regex.matcher_consuming ic ml a
    intro s1 hs1
    apply Regex.matcher_consuming ic ml b
    intro s2 hs2
    exact hk s2 (Nat.le_trans hs2 hs1)
  | .alt a b => by
    intro s k k1 hk
    simp only [Regex.matcher]
    rw [Regex.matcher_consuming ic ml a s k k1 hk, Regex.matcher_consuming ic ml b s k k1 hk]
  | .star g r => by
    intro s k k1 hk
    simp only [Regex.matcher]
    exact repeatMatcher_consuming _ (Regex.matcher_consuming ic ml r) _ _ _ _ _ s k k1 hk
  | .plus g r => by
    intro s k k1 hk
    simp only [Regex.matcher]
    exact repeatMatcher_consuming _ (Regex.matcher_consuming ic ml r) _ _ _ _ _ s k k1 hk
  | .opt g r => by
    intro s k k1 hk
    simp only [Regex.matcher]
    exact repeatMatcher_consuming _ (Regex.matcher_consuming ic ml r) _ _ _ _ _ s k k1 hk
  | .group i r => by
    intro s k k1 hk
    simp only [Regex.matcher]
    apply Regex.matcher_consuming ic ml r
    intro s1 hs1
    exact hk _ hs1

/-- More fuel than `min + rest.length` never changes the result of the repeat
matcher: the bound on the number of iterations is never reached. -/
theorem repeatMatcher_fuel (m : Matcher) (hm : Matcher.Consuming m) (inner : List Nat)
    (greedy : Bool) :
    ∀ (n fuel fuel1 min : Nat) (max : Option Nat) (x : MState) (c : Cont),
      x.rest.length + min ≤ n → n < fuel → n < fuel1 →
      repeatMatcher m inner greedy fuel min max x c =
        repeatMatcher m inner greedy fuel1 min max x c := by
  intro n
  induction n with
  | zero =>
    intro fuel fuel1 min max x c hn hf hf1
    obtain ⟨f, rfl⟩ := Nat.exists_eq_succ_of_ne_zero (Nat.pos_iff_ne_zero.1 hf)
    obtain ⟨f1, rfl⟩ := Nat.exists_eq_succ_of_ne_zero (Nat.pos_iff_ne_zero.1 hf1)
    have hmin : min = 0 := by omega
    have hlen : x.rest.length = 0 := by omega
    have hd : m { x with caps := x.caps.filter fun p => !inner.contains p.1 }
        (fun y => if min = 0 ∧ y.rest.length = x.rest.length then none
          else repeatMatcher m inner greedy f (min - 1) (max.map (· - 1)) y c) =
        m { x with caps := x.caps.filter fun p => !inner.contains p.1 }
        (fun y => if min = 0 ∧ y.rest.length = x.rest.length then none
          else repeatMatcher m inner greedy f1 (min - 1) (max.map (· - 1)) y c) := by
      apply hm
      intro y hy
      have hy0 : y.rest.length = x.rest.length := by
        simp only at hy
        omega
      simp [hmin, hy0]
    simp only [repeatMatcher]
    rw [hd]
  | succ n ih =>
    intro fuel fuel1 min max x c hn hf hf1
    obtain ⟨f, rfl⟩ := Nat.exists_eq_succ_of_ne_zero (Nat.pos_iff_ne_zero.1 (by omega : 0 < fuel))
    obtain ⟨f1, rfl⟩ :=
      Nat.exists_eq_succ_of_ne_zero (Nat.pos_iff_ne_zero.1 (by omega : 0 < fuel1))
    have hd : m { x with caps := x.caps.filter fun p => !inner.contains p.1 }
        (fun y => if min = 0 ∧ y.rest.length = x.rest.length then none
          else repeatMatcher m inner greedy f (min - 1) (max.map (· - 1)) y c) =
        m { x with caps := x.caps.filter fun p => !inner.contains p.1 }
        (fun y => if min = 0 ∧ y.rest.length = x.rest.length then none
          else repeatMatcher m inner greedy f1 (min - 1) (max.map (· - 1)) y c) := by
      apply hm
      intro y hy
      simp only at hy
      split_ifs with hrej
      · rfl
      · apply ih
        · by_cases hmin : min = 0
          · have : y.rest.length ≠ x.rest.length := fun e => hrej ⟨hmin, e⟩
            omega
          · omega
        · omega
        · omega
    simp only [repeatMatcher]
    rw [hd]

/-- The fuel that `*` gives to the repeat matcher is enough. -/
theorem Regex.matcher_star_fuel (ic ml g : Bool) (r : Regex) (s : MState) (k : Cont)
    (fuel : Nat) (hfuel : s.rest.length < fuel) :
    (Regex.star g r).matcher ic ml s k =
      repeatMatcher (r.matcher ic ml) r.groups g fuel 0 none s k := by
  simp only [Regex.matcher]
  exact repeatMatcher_fuel _ (Regex.matcher_consuming ic ml r) _ _ s.rest.length _ _ _ _ _ _
    (by omega) (by omega) hfuel

/-- The fuel that `+` gives to the repeat matcher is enough. -/
theorem Regex.matcher_plus_fuel (ic ml g : Bool) (r : Regex) (s : MState) (k : Cont)
    (fuel : Nat) (hfuel : s.rest.length + 1 < fuel) :
    (Regex.plus g r).matcher ic ml s k =
      repeatMatcher (r.matcher ic ml) r.groups g fuel 1 none s k := by
  simp only [Regex.matcher]
  exact repeatMatcher_fuel _ (Regex.matcher_consuming ic ml r) _ _ (s.rest.length + 1) _ _ _ _
    _ _ (by omega) (by omega) hfuel

/-- The fuel that `?` gives to the repeat matcher is enough. -/
theorem Regex.matcher_opt_fuel (ic ml g : Bool) (r : Regex) (s : MState) (k : Cont)
    (fuel : Nat) (hfuel : s.rest.length < fuel) :
    (Regex.opt g r).matcher ic ml s k =
      repeatMatcher (r.matcher ic ml) r.groups g fuel 0 (some 1) s k := by
  simp only [Regex.matcher]
  exact repeatMatcher_fuel _ (Regex.matcher_consuming ic ml r) _ _ s.rest.length _ _ _ _ _ _
    (by omega) (by omega) hfuel


/-! ## The fuel of the global scans is enough -/

theorem stepChar_forward (p : Char → Bool) : Matcher.Forward (stepChar p) := by
  intro s k
  obtain ⟨prev, rest, caps⟩ := s
  cases rest with
  | nil => exact Or.inl rfl
  | cons c t =>
    simp only [stepChar]
    split_ifs
    · exact Or.inr ⟨_, by simp, by simp; omega, rfl⟩
    · exact Or.inl rfl

theorem forward_of_guard (g : MState → Bool) :
    Matcher.Forward fun s k => if g s then k s else none := by
  intro s k
  by_cases h : g s = true
  · exact Or.inr ⟨s, Nat.le_refl _, rfl, by simp [h]⟩
  · exact Or.inl (by simp [h])

theorem repeatMatcher_forward (m : Matcher) (hm : Matcher.Forward m) (inner : List Nat)
    (greedy : Bool) :
    ∀ (fuel min : Nat) (max : Option Nat),
      Matcher.Forward (repeatMatcher m inner greedy fuel min max)
  | 0, _, _ => fun _ _ => Or.inl rfl
  | fuel + 1, min, max => by
    intro x c
    have hself : c x = none ∨ ∃ s1 : MState, s1.rest.length ≤ x.rest.length ∧
        s1.prev.length + s1.rest.length = x.prev.length + x.rest.length ∧ c x = c s1 :=
      Or.inr ⟨x, Nat.le_refl _, rfl, rfl⟩
    have hbody : ∀ d : Cont,
        (∀ y : MState, y.rest.length ≤ x.rest.length →
          y.prev.length + y.rest.length = x.prev.length + x.rest.length →
          d y = none ∨ ∃ s1 : MState, s1.rest.length ≤ x.rest.length ∧
            s1.prev.length + s1.rest.length = x.prev.length + x.rest.length ∧ d y = c s1) →
        (m { x with caps := x.caps.filter fun p => !inner.contains p.1 } d = none ∨
          ∃ s1 : MState, s1.rest.length ≤ x.rest.length ∧
            s1.prev.length + s1.rest.length = x.prev.length + x.rest.length ∧
            m { x with caps := x.caps.filter fun p => !inner.contains p.1 } d = c s1) := by
      intro d hd
      rcases hm { x with caps := x.caps.filter fun p => !inner.contains p.1 } d with h0 | h1
      · exact Or.inl h0
      · obtain ⟨y, hy1, hy2, hy3⟩ := h1
        rw [hy3]
        exact hd y hy1 hy2
    have hd : ∀ y : MState, y.rest.length ≤ x.rest.length →
        y.prev.length + y.rest.length = x.prev.length + x.rest.length →
        (if min = 0 ∧ y.rest.length = x.rest.length then none
          else repeatMatcher m inner greedy fuel (min - 1) (max.map (· - 1)) y c) = none ∨
        ∃ s1 : MState, s1.rest.length ≤ x.rest.length ∧
          s1.prev.length + s1.rest.length = x.prev.length + x.rest.length ∧
          (if min = 0 ∧ y.rest.length = x.rest.length then none
            else repeatMatcher m inner greedy fuel (min - 1) (max.map (· - 1)) y c) = c s1 := by
      intro y hy1 hy2
      split_ifs
      · exact Or.inl rfl
      · rcases repeatMatcher_forward m hm inner greedy fuel (min - 1) (max.map (· - 1)) y c
          with h0 | ⟨s1, h1, h2, h3⟩
        · exact Or.inl h0
        · exact Or.inr ⟨s1, Nat.le_trans h1 hy1, by omega, h3⟩
    have hiter := hbody _ hd
    simp only [repeatMatcher]
    split_ifs
    · exact hself
    · exact hiter
    · cases hres : m { x with caps := x.caps.filter fun p => !inner.contains p.1 }
          (fun y => if min = 0 ∧ y.rest.length = x.rest.length then none
            else repeatMatcher m inner greedy fuel (min - 1) (max.map (· - 1)) y c) with
      | none => exact hself
      | some z =>
        rw [hres] at hiter
        exact hiter
    · cases hres : c x with
      | none => exact hiter
      | some z =>
        rw [hres] at hself
        exact hself

/-- Every pattern's matcher returns what the continuation returns at a state
further on in the same input. -/
theorem Regex.matcher_forward (ic ml : Bool) : ∀ r : Regex, Matcher.Forward (r.matcher ic ml)
  | .empty => fun s _ => Or.inr ⟨s, Nat.le_refl _, rfl, rfl⟩
  | .chr _ => stepChar_forward _
  | .any => stepChar_forward _
  | .cls _ _ => stepChar_forward _
  | .bol => forward_of_guard fun s => s.prev.isEmpty || (ml && headIsLineTerminator s.prev)
  | .eol => forward_of_guard fun s => s.rest.isEmpty || (ml && headIsLineTerminator s.rest)
  | .wordB => forward_of_guard fun s => headIsWord s.prev != headIsWord s.rest
  | .notWordB => forward_of_guard fun s => headIsWord s.prev == headIsWord s.rest
  | .seq a b => by
    intro s k
    simp only [Regex.matcher]
    rcases Regex.matcher_forward ic ml a s (fun s1 => Regex.matcher ic ml b s1 k)
      with h0 | ⟨s1, h1, h2, h3⟩
    · exact Or.inl h0
    · rw [h3]
      rcases Regex.matcher_forward ic ml b s1 k with h0 | ⟨s2, h4, h5, h6⟩
      · exact Or.inl h0
      · exact Or.inr ⟨s2, Nat.le_trans h4 h1, by omega, h6⟩
  | .alt a b => by
    intro s k
    simp only [Regex.matcher]
    cases hres : Regex.matcher ic ml a s k with
    | none => exact Regex.matcher_forward ic ml b s k
    | some z =>
      have := Regex.matcher_forward ic ml a s k
      rw [hres] at this
      exact this
  | .star g r => by
    intro s k
    simp only [Regex.matcher]
    exact repeatMatcher_forward _ (Regex.matcher_forward ic ml r) _ _ _ _ _ s k
  | .plus g r => by
    intro s k
    simp only [Regex.matcher]
    exact repeatMatcher_forward _ (Regex.matcher_forward ic ml r) _ _ _ _ _ s k
  | .opt g r => by
    intro s k
    simp only [Regex.matcher]
    exact repeatMatcher_forward _ (Regex.matcher_forward ic ml r) _ _ _ _ _ s k
  | .group i r => by
    intro s k
    simp only [Regex.matcher]
    rcases Regex.matcher_forward ic ml r s
      (fun s1 => k { s1 with
        caps := (i, s.rest.take (s.rest.length - s1.rest.length)) :: s1.caps })
      with h0 | ⟨s1, h1, h2, h3⟩
    · exact Or.inl h0
    · exact Or.inr ⟨{ s1 with
        caps := (i, s.rest.take (s.rest.length - s1.rest.length)) :: s1.caps }, h1, h2, h3⟩

/-- A match at a position ends further on in the same input. -/
theorem RegExp.matchAt_lengths (r : RegExp) (prev rest : Str) (st : MState)
    (h : r.matchAt prev rest = some st) :
    st.rest.length ≤ rest.length ∧ st.prev.length + st.rest.length = prev.length + rest.length := by
  unfold RegExp.matchAt at h
  rcases Regex.matcher_forward r.ignoreCase r.multiline r.re ⟨prev, rest, []⟩ some
    with h0 | ⟨s1, h1, h2, h3⟩
  · rw [h0] at h
    cases h
  · rw [h3] at h
    cases h
    exact ⟨h1, h2⟩

/-- The leftmost match starts at or after the current position and ends
further on in the same input. -/
theorem RegExp.search_lengths (r : RegExp) :
    ∀ (rest prev p : Str) (st : MState), r.search prev rest = some (p, st) →
      prev.length ≤ p.length ∧ p.length ≤ st.prev.length ∧
      st.prev.length + st.rest.length = prev.length + rest.length
  | [], prev, p, st, h => by
    simp only [RegExp.search] at h
    cases hm : r.matchAt prev [] with
    | none => simp [hm] at h
    | some s1 =>
      simp only [hm, Option.map_some', Option.some.injEq, Prod.mk.injEq] at h
      obtain ⟨rfl, rfl⟩ := h
      have := RegExp.matchAt_lengths r _ _ _ hm
      simp only [List.length_nil] at this ⊢
      omega
  | c :: t, prev, p, st, h => by
    simp only [RegExp.search] at h
    cases hm : r.matchAt prev (c :: t) with
    | some s1 =>
      simp only [hm, Option.some.injEq, Prod.mk.injEq] at h
      obtain ⟨rfl, rfl⟩ := h
      have := RegExp.matchAt_lengths r _ _ _ hm
      omega
    | none =>
      simp only [hm] at h
      have := RegExp.search_lengths r t (c :: prev) p st h
      simp only [List.length_cons] at this ⊢
      omega

theorem matchedText_length (p : Str) (st : MState) :
    (matchedText p st).length = st.prev.length - p.length := by
  simp [matchedText]

/-- More fuel than the length of the input never changes the list of global
matches. -/
theorem RegExp.matchAllFrom_fuel (r : RegExp) :
    ∀ (n fuel fuel1 : Nat) (prev rest : Str), rest.length ≤ n → n < fuel → n < fuel1 →
      r.matchAllFrom fuel prev rest = r.matchAllFrom fuel1 prev rest := by
  intro n
  induction n with
  | zero =>
    intro fuel fuel1 prev rest hn hf hf1
    obtain ⟨f, rfl⟩ := Nat.exists_eq_succ_of_ne_zero (Nat.pos_iff_ne_zero.1 hf)
    obtain ⟨f1, rfl⟩ := Nat.exists_eq_succ_of_ne_zero (Nat.pos_iff_ne_zero.1 hf1)
    simp only [RegExp.matchAllFrom]
    cases hs : r.search prev rest with
    | none => rfl
    | some res =>
      obtain ⟨p, st⟩ := res
      have hl := RegExp.search_lengths r rest prev p st hs
      have hlen := matchedText_length p st
      have hst : st.rest = [] := List.eq_nil_of_length_eq_zero (by omega)
      have hem : matchedText p st = [] := List.eq_nil_of_length_eq_zero (by omega)
      simp [hst, hem]
  | succ n ih =>
    intro fuel fuel1 prev rest hn hf hf1
    obtain ⟨f, rfl⟩ := Nat.exists_eq_succ_of_ne_zero (Nat.pos_iff_ne_zero.1 (by omega : 0 < fuel))
    obtain ⟨f1, rfl⟩ :=
      Nat.exists_eq_succ_of_ne_zero (Nat.pos_iff_ne_zero.1 (by omega : 0 < fuel1))
    simp only [RegExp.matchAllFrom]
    cases hs : r.search prev rest with
    | none => rfl
    | some res =>
      obtain ⟨p, st⟩ := res
      have hl := RegExp.search_lengths r rest prev p st hs
      have hlen := matchedText_length p st
      simp only
      split_ifs with hem
      · cases hrest : st.rest with
        | nil => rfl
        | cons c t =>
          simp only
          rw [ih f f1 (c :: st.prev) t (by
            have := congrArg List.length hrest
            simp only [List.length_cons] at this
            omega) (by omega) (by omega)]
      · have hpos : 0 < (matchedText p st).length := by
          cases hm : matchedText p st with
          | nil => simp [hm] at hem
          | cons a l => simp
        rw [ih f f1 st.prev st.rest (by omega) (by omega) (by omega)]

/-- More fuel than the length of the input never changes the result of a
global replacement. -/
theorem RegExp.replaceAllFrom_fuel (r : RegExp) (repl : Str) :
    ∀ (n fuel fuel1 : Nat) (prev rest : Str), rest.length ≤ n → n < fuel → n < fuel1 →
      r.replaceAllFrom repl fuel prev rest = r.replaceAllFrom repl fuel1 prev rest := by
  intro n
  induction n with
  | zero =>
    intro fuel fuel1 prev rest hn hf hf1
    obtain ⟨f, rfl⟩ := Nat.exists_eq_succ_of_ne_zero (Nat.pos_iff_ne_zero.1 hf)
    obtain ⟨f1, rfl⟩ := Nat.exists_eq_succ_of_ne_zero (Nat.pos_iff_ne_zero.1 hf1)
    simp only [RegExp.replaceAllFrom]
    cases hs : r.search prev rest with
    | none => rfl
    | some res =>
      obtain ⟨p, st⟩ := res
      have hl := RegExp.search_lengths r rest prev p st hs
      have hlen := matchedText_length p st
      have hst : st.rest = [] := List.eq_nil_of_length_eq_zero (by omega)
      have hem : matchedText p st = [] := List.eq_nil_of_length_eq_zero (by omega)
      simp [hst, hem]
  | succ n ih =>
    intro fuel fuel1 prev rest hn hf hf1
    obtain ⟨f, rfl⟩ := Nat.exists_eq_succ_of_ne_zero (Nat.pos_iff_ne_zero.1 (by omega : 0 < fuel))
    obtain ⟨f1, rfl⟩ :=
      Nat.exists_eq_succ_of_ne_zero (Nat.pos_iff_ne_zero.1 (by omega : 0 < fuel1))
    simp only [RegExp.replaceAllFrom]
    cases hs : r.search prev rest with
    | none => rfl
    | some res =>
      obtain ⟨p, st⟩ := res
      have hl := RegExp.search_lengths r rest prev p st hs
      have hlen := matchedText_length p st
      simp only
      split_ifs with hem
      · cases hrest : st.rest with
        | nil => rfl
        | cons c t =>
          simp only
          rw [ih f f1 (c :: st.prev) t (by
            have := congrArg List.length hrest
            simp only [List.length_cons] at this
            omega) (by omega) (by omega)]
      · have hpos : 0 < (matchedText p st).length := by
          cases hm : matchedText p st with
          | nil => simp [hm] at hem
          | cons a l => simp
        rw [ih f f1 st.prev st.rest (by omega) (by omega) (by omega)]


/-! ## The fuel of the pattern parser is enough -/

theorem lazyMark_length (t : Str) : (lazyMark t).2.length ≤ t.length := by
  cases t with
  | nil => simp [lazyMark]
  | cons c t =>
    simp only [lazyMark]
    split_ifs <;> simp

theorem applyQuant_length (a : Regex) (t : Str) : (applyQuant a t).2.length ≤ t.length := by
  cases t with
  | nil => simp [applyQuant]
  | cons q t =>
    have := lazyMark_length t
    simp only [applyQuant]
    split_ifs <;> simp <;> omega

/-- More fuel than the length of the source never changes the result of the
pattern parser. -/
theorem parsePattern_fuel :
    ∀ (n fuel fuel1 : Nat) (s : Str), s.length ≤ n → n < fuel → n < fuel1 →
      parsePattern fuel s = parsePattern fuel1 s := by
  intro n
  induction n with
  | zero =>
    intro fuel fuel1 s hn hf hf1
    obtain ⟨f, rfl⟩ := Nat.exists_eq_succ_of_ne_zero (Nat.pos_iff_ne_zero.1 hf)
    obtain ⟨f1, rfl⟩ := Nat.exists_eq_succ_of_ne_zero (Nat.pos_iff_ne_zero.1 hf1)
    have hs : s = [] := List.eq_nil_of_length_eq_zero (by omega)
    subst hs
    rfl
  | succ n ih =>
    intro fuel fuel1 s hn hf hf1
    obtain ⟨f, rfl⟩ := Nat.exists_eq_succ_of_ne_zero (Nat.pos_iff_ne_zero.1 (by omega : 0 < fuel))
    obtain ⟨f1, rfl⟩ :=
      Nat.exists_eq_succ_of_ne_zero (Nat.pos_iff_ne_zero.1 (by omega : 0 < fuel1))
    cases s with
    | nil => rfl
    | cons c t =>
      simp only [List.length_cons] at hn
      have ht := ih f f1 t (by omega) (by omega) (by omega)
      have hq : ∀ a : Regex, parsePattern f (applyQuant a t).2 =
          parsePattern f1 (applyQuant a t).2 := fun a =>
        ih f f1 _ (Nat.le_trans (applyQuant_length a t) (by omega)) (by omega) (by omega)
      simp only [parsePattern]
      rw [ht, hq, hq]
      cases t with
      | nil => rfl
      | cons e t1 =>
        simp only [List.length_cons] at hn
        have ht1 := ih f f1 t1 (by omega) (by omega) (by omega)
        have hq1 : ∀ a : Regex, parsePattern f (applyQuant a t1).2 =
            parsePattern f1 (applyQuant a t1).2 := fun a =>
          ih f f1 _ (Nat.le_trans (applyQuant_length a t1) (by omega)) (by omega) (by omega)
        simp only [ht1, hq1]


/-! ## Auxiliary facts -/

theorem mapOpt_eq_some_replicate {α β : Type} (f : α → Option (Option β)) :
    ∀ ks : List α, (∀ k ∈ ks, f k = some none) →
      mapOpt f ks = some (List.replicate ks.length none)
  | [], _ => rfl
  | k :: ks, h => by
    have hk : f k = some none := h k (List.mem_cons_self _ _)
    have ih := mapOpt_eq_some_replicate f ks fun a ha => h a (List.mem_cons_of_mem _ ha)
    simp [mapOpt, hk, ih, List.replicate_succ]

theorem filterMap_id_replicate_none {β : Type} (n : Nat) :
    (List.replicate n (none : Option β)).filterMap id = [] := by
  induction n with
  | zero => rfl
  | succ n ih => simp [List.replicate_succ]

/-- When the pattern of no alias key matches the path, `resolveAlias` returns
the path as it is. -/
theorem resolveAlias_of_no_match (aliasMapping : Obj Str) (path : Str)
    (h : ∀ k ∈ aliasMapping.keys,
      ∃ re, RegExp.compile ('^' :: k) = some re ∧ re.test path = false) :
    resolveAlias aliasMapping path = some path := by
  unfold resolveAlias
  rw [mapOpt_eq_some_replicate]
  · simp [filterMap_id_replicate_none]
  · intro k hk
    obtain ⟨re, hre, ht⟩ := h k hk
    simp [hre, ht]


/-! ## Objects -/

theorem Obj.set_keys_of_mem {V : Type} (o : Obj V) (k : Str) (v : V)
    (hk : k ≠ protoKey) (hmem : k ∈ o.map Prod.fst) :
    (o.set k v).map Prod.fst = o.map Prod.fst := by
  have hany : (o.any fun p => decide (p.1 = k)) = true := by
    simp only [List.any_eq_true, decide_eq_true_eq]
    obtain ⟨p, hp, rfl⟩ := List.mem_map.1 hmem
    exact ⟨p, hp, rfl⟩
  simp only [Obj.set, hk, if_false, hany, if_true, List.map_map]
  apply List.map_congr_left
  intro p _
  by_cases h : p.1 = k <;> simp [h]

theorem Obj.set_of_not_mem {V : Type} (o : Obj V) (k : Str) (v : V)
    (hk : k ≠ protoKey) (hmem : k ∉ o.map Prod.fst) :
    o.set k v = o ++ [(k, v)] := by
  have hany : (o.any fun p => decide (p.1 = k)) = false := by
    rw [Bool.eq_false_iff]
    intro h
    simp only [List.any_eq_true, decide_eq_true_eq] at h
    obtain ⟨p, hp, rfl⟩ := h
    exact hmem (List.mem_map.2 ⟨p, hp, rfl⟩)
  simp [Obj.set, hk, hany]

theorem Obj.set_proto {V : Type} (o : Obj V) (v : V) : o.set protoKey v = o := by
  simp [Obj.set]

/-- Membership of keys after an assignment with a key other than `__proto__`. -/
theorem Obj.mem_keys_set {V : Type} (o : Obj V) (k : Str) (v : V)
    (hk : k ≠ protoKey) (x : Str) :
    x ∈ (o.set k v).map Prod.fst ↔ x ∈ o.map Prod.fst ∨ x = k := by
  by_cases hmem : k ∈ o.map Prod.fst
  · rw [Obj.set_keys_of_mem o k v hk hmem]
    constructor
    · exact Or.inl
    · rintro (h | rfl)
      · exact h
      · exact hmem
  · rw [Obj.set_of_not_mem o k v hk hmem]
    simp only [List.map_append, List.mem_append, List.map_cons, List.map_nil,
      List.mem_singleton]

/-- An assignment keeps the keys free of duplicates. -/
theorem Obj.nodup_keys_set {V : Type} (o : Obj V) (k : Str) (v : V)
    (h : (o.map Prod.fst).Nodup) : ((o.set k v).map Prod.fst).Nodup := by
  by_cases hk : k = protoKey
  · subst hk
    rw [Obj.set_proto]
    exact h
  · by_cases hmem : k ∈ o.map Prod.fst
    · rw [Obj.set_keys_of_mem o k v hk hmem]
      exact h
    · rw [Obj.set_of_not_mem o k v hk hmem]
      simp only [List.map_append, List.map_cons, List.map_nil]
      exact List.Nodup.append h (List.nodup_singleton _) (List.disjoint_singleton.2 hmem)

/-- An assignment keeps a property that holds of the assigned entry and of
every entry already there. -/
theorem Obj.forall_set {V : Type} (P : Str × V → Prop) (o : Obj V) (k : Str) (v : V)
    (h : ∀ e ∈ o, P e) (hkv : P (k, v)) : ∀ e ∈ o.set k v, P e := by
  intro e he
  unfold Obj.set at he
  split_ifs at he with h1 h2
  · exact h e he
  · obtain ⟨p, hp, rfl⟩ := List.mem_map.1 he
    by_cases hpk : p.1 = k
    · simpa [hpk] using hkv
    · simpa [hpk] using h p hp
  · rcases List.mem_append.1 he with he | he
    · exact h e he
    · simp only [List.mem_singleton] at he
      exact he ▸ hkv

theorem insertIndexed_perm {V : Type} (i : Nat) (e : Str × V) :
    ∀ l : List (Nat × (Str × V)), (insertIndexed i e l).Perm ((i, e) :: l)
  | [] => by simp [insertIndexed]
  | (j, f) :: rest => by
    unfold insertIndexed
    split_ifs
    · exact List.Perm.refl _
    · exact ((insertIndexed_perm i e rest).cons _).trans (List.Perm.swap _ _ _)

theorem indexedEntries_perm {V : Type} :
    ∀ o : Obj V, ((indexedEntries o).map Prod.snd).Perm
      (o.filter fun e => (arrayIndex e.1).isSome)
  | [] => by simp [indexedEntries]
  | e :: rest => by
    have ih := indexedEntries_perm rest
    unfold indexedEntries
    cases h : arrayIndex e.1 with
    | none => simpa [List.filter_cons, h] using ih
    | some i =>
      simp only [List.filter_cons, h, Option.isSome_some, if_true]
      exact ((insertIndexed_perm i e _).map Prod.snd).trans (by simpa using ih)

/-- The enumeration order of an object is a rearrangement of its entries. -/
theorem Obj.ordered_perm {V : Type} (o : Obj V) : o.ordered.Perm o := by
  unfold Obj.ordered
  refine ((indexedEntries_perm o).append_right _).trans ?_
  have h := List.filter_append_perm (fun e : Str × V => (arrayIndex e.1).isSome) o
  refine List.Perm.trans ?_ h
  apply List.Perm.append_left
  apply List.Perm.of_eq
  apply List.filter_congr
  intro e _
  cases arrayIndex e.1 <;> rfl


/-! ## Patterns built from text without syntax characters -/

theorem not_syntax_cases {c : Char} (h : isSyntaxChar c = false) :
    c ≠ '^' ∧ c ≠ '$' ∧ c ≠ '\\' ∧ c ≠ '.' ∧ c ≠ '*' ∧ c ≠ '+' ∧ c ≠ '?' := by
  simp only [isSyntaxChar, Bool.or_eq_false_iff, decide_eq_false_iff_not] at h
  tauto

theorem applyQuant_of_plain (a : Regex) (t : Str) (h : ∀ c ∈ t, isSyntaxChar c = false) :
    applyQuant a t = (a, t) := by
  match t, h with
  | [], _ => rfl
  | c :: t, h =>
    obtain ⟨-, -, -, -, h1, h2, h3⟩ := not_syntax_cases (h c (List.mem_cons_self _ _))
    simp [applyQuant, h1, h2, h3]

theorem Regex.lit_cons (c : Char) (t : Str) :
    Regex.lit (c :: t) = .seq (.chr c) (Regex.lit t) := rfl

/-- A source text without syntax characters compiles to the pattern that
matches it literally. -/
theorem parsePattern_plain :
    ∀ (s : Str) (fuel : Nat), (∀ c ∈ s, isSyntaxChar c = false) → s.length < fuel →
      parsePattern fuel s = some (Regex.lit s)
  | [], fuel + 1, _, _ => rfl
  | c :: t, fuel + 1, h, hlen => by
    have hc := h c (List.mem_cons_self _ _)
    have ht : ∀ d ∈ t, isSyntaxChar d = false := fun d hd => h d (List.mem_cons_of_mem _ hd)
    have ih := parsePattern_plain t fuel ht (by simpa using hlen)
    obtain ⟨h1, h2, h3, h4, -, -, -⟩ := not_syntax_cases hc
    simp [parsePattern, h1, h2, h3, h4, hc, applyQuant_of_plain _ t ht, ih, Regex.lit_cons]

/-- `new RegExp(source)` for a source without syntax characters. -/
theorem RegExp.compile_plain (s : Str) (h : ∀ c ∈ s, isSyntaxChar c = false) :
    RegExp.compile s = some { re := Regex.lit s } := by
  simp [RegExp.compile, parsePattern_plain s _ h (Nat.lt_succ_self _)]


/-! ## Matching literal patterns -/

theorem stepChar_cons (p : Char → Bool) (prev : Str) (c : Char) (t : Str)
    (caps : List (Nat × Str)) (k : Cont) :
    stepChar p ⟨prev, c :: t, caps⟩ k = if p c then k ⟨c :: prev, t, caps⟩ else none := rfl

theorem stepChar_nil (p : Char → Bool) (prev : Str) (caps : List (Nat × Str)) (k : Cont) :
    stepChar p ⟨prev, [], caps⟩ k = none := rfl

/-- A literal pattern consumes the text it spells when the input starts with
it. -/
theorem lit_matcher_pfx (ml : Bool) :
    ∀ (s prev post : Str) (caps : List (Nat × Str)) (k : Cont),
      (Regex.lit s).matcher false ml ⟨prev, s ++ post, caps⟩ k =
        k ⟨s.reverse ++ prev, post, caps⟩
  | [], _, _, _, _ => rfl
  | c :: t, prev, post, caps, k => by
    rw [Regex.lit_cons]
    simp only [Regex.matcher, List.cons_append, stepChar_cons, canonicalize, if_false,
      decide_True, if_true]
    rw [lit_matcher_pfx ml t (c :: prev) post caps k]
    simp

/-- A literal pattern fails when the input does not start with the text it
spells. -/
theorem lit_matcher_not_pfx (ml : Bool) :
    ∀ (s prev rest : Str) (caps : List (Nat × Str)) (k : Cont), ¬ s <+: rest →
      (Regex.lit s).matcher false ml ⟨prev, rest, caps⟩ k = none
  | [], _, rest, _, _, h => absurd List.nil_prefix h
  | c :: t, prev, [], caps, k, _ => by
    rw [Regex.lit_cons]
    simp only [Regex.matcher, stepChar_nil]
  | c :: t, prev, d :: rest, caps, k, h => by
    rw [Regex.lit_cons]
    simp only [Regex.matcher, stepChar_cons, canonicalize, if_false]
    by_cases hdc : d = c
    · subst hdc
      simp only [decide_True, if_true]
      apply lit_matcher_not_pfx ml t
      intro hp
      exact h ((List.prefix_cons_inj d).2 hp)
    · simp [hdc]

/-- The literal regular expression of a text, without flags. -/
theorem RegExp.matchAt_lit_pfx (s prev post : Str) :
    RegExp.matchAt { re := Regex.lit s } prev (s ++ post) =
      some ⟨s.reverse ++ prev, post, []⟩ := by
  simp [RegExp.matchAt, lit_matcher_pfx]

theorem RegExp.matchAt_lit_not_pfx (s prev rest : Str) (h : ¬ s <+: rest) :
    RegExp.matchAt { re := Regex.lit s } prev rest = none := by
  simp [RegExp.matchAt, lit_matcher_not_pfx _ s prev rest [] _ h]

/-- The search stops at the current position when the pattern matches
there. -/
theorem RegExp.search_of_matchAt (r : RegExp) (prev rest : Str) (st : MState)
    (h : r.matchAt prev rest = some st) : r.search prev rest = some (prev, st) := by
  cases rest with
  | nil => simp [RegExp.search, h]
  | cons c t => simp [RegExp.search, h]

/-- The search moves on by one character when the pattern does not match at
the current position. -/
theorem RegExp.search_cons_of_matchAt_none (r : RegExp) (prev : Str) (c : Char) (t : Str)
    (h : r.matchAt prev (c :: t) = none) : r.search prev (c :: t) = r.search (c :: prev) t := by
  simp [RegExp.search, h]

/-- A literal pattern is found in a text exactly when the text contains
it. -/
theorem RegExp.search_lit_isSome (s : Str) :
    ∀ prev rest : Str,
      (RegExp.search { re := Regex.lit s } prev rest).isSome = true ↔ s <:+: rest
  | prev, [] => by
    by_cases hs : s <+: []
    · have := RegExp.matchAt_lit_pfx s prev []
      have hs' : s = [] := List.prefix_nil.1 hs
      subst hs'
      simp [RegExp.search, RegExp.matchAt, Regex.lit, Regex.seqs, Regex.matcher]
    · have hn : s ≠ [] := fun h => hs (h ▸ List.nil_prefix)
      simp [RegExp.search, RegExp.matchAt_lit_not_pfx s prev [] hs, hn]
  | prev, c :: t => by
    by_cases hs : s <+: c :: t
    · obtain ⟨post, hpost⟩ := hs
      have hm := RegExp.matchAt_lit_pfx s prev post
      rw [hpost] at hm
      rw [RegExp.search_of_matchAt _ _ _ _ hm]
      simp only [Option.isSome_some, true_iff]
      exact ⟨[], post, by simpa using hpost⟩
    · rw [RegExp.search_cons_of_matchAt_none _ _ _ _
        (RegExp.matchAt_lit_not_pfx s prev (c :: t) hs),
        RegExp.search_lit_isSome s (c :: prev) t, List.infix_cons_iff]
      simp [hs]

/-- `test` of the literal regular expression of a text: does the input
contain the text? -/
theorem RegExp.test_lit (s x : Str) :
    RegExp.test { re := Regex.lit s } x = true ↔ s <:+: x := by
  simp only [RegExp.test, RegExp.exec, Option.isSome_map']
  exact RegExp.search_lit_isSome s [] x

theorem matchedText_append (s prev post : Str) (caps : List (Nat × Str)) :
    matchedText prev ⟨s.reverse ++ prev, post, caps⟩ = s := by
  simp [matchedText]

/-- `exec` of a literal regular expression on an input that starts with the
text. -/
theorem RegExp.exec_lit_pfx (s post : Str) :
    RegExp.exec { re := Regex.lit s } (s ++ post) =
      some { pre := [], matched := s, post := post, caps := [] } := by
  have hm := RegExp.search_of_matchAt _ _ _ _ (RegExp.matchAt_lit_pfx s [] post)
  simp only [RegExp.exec, hm, Option.map_some', List.reverse_nil, matchedText_append]

/-- Replacing a literal pattern by the empty string removes a leading
occurrence. -/
theorem RegExp.replace_lit_pfx (s post : Str) :
    RegExp.replace { re := Regex.lit s } (s ++ post) [] = post := by
  simp [RegExp.replace, RegExp.replaceFirst, RegExp.exec_lit_pfx, getSubstitution]

/-- Replacing leaves a text without occurrence of the pattern as it is. -/
theorem RegExp.replace_lit_of_absent (s x repl : Str) (h : ¬ s <:+: x) :
    RegExp.replace { re := Regex.lit s } x repl = x := by
  have ht : RegExp.test { re := Regex.lit s } x = false := by
    rw [Bool.eq_false_iff]
    exact fun hc => h ((RegExp.test_lit s x).1 hc)
  have hn : RegExp.exec { re := Regex.lit s } x = none := by
    cases he : RegExp.exec { re := Regex.lit s } x with
    | none => rfl
    | some m => simp [RegExp.test, he] at ht
  simp [RegExp.replace, RegExp.replaceFirst, hn]


/-! ## Splitting and joining -/

theorem splitOn_ne_nil (sep : Char) : ∀ s : Str, splitOn sep s ≠ []
  | [] => by simp [splitOn]
  | c :: t => by
    unfold splitOn
    split_ifs
    · simp
    · split <;> simp

theorem splitOn_of_not_mem (sep : Char) : ∀ s : Str, sep ∉ s → splitOn sep s = [s]
  | [], _ => rfl
  | c :: t, h => by
    have hc : c ≠ sep := fun e => h (e ▸ List.mem_cons_self _ _)
    have ht : sep ∉ t := fun e => h (List.mem_cons_of_mem _ e)
    simp [splitOn, hc, splitOn_of_not_mem sep t ht]

theorem splitOn_sep_cons (sep : Char) (t : Str) :
    splitOn sep (sep :: t) = [] :: splitOn sep t := by
  simp [splitOn]

theorem splitOn_append_sep (sep : Char) :
    ∀ a b : Str, sep ∉ a → splitOn sep (a ++ sep :: b) = a :: splitOn sep b
  | [], b, _ => by simp [splitOn]
  | c :: a, b, h => by
    have hc : c ≠ sep := fun e => h (e ▸ List.mem_cons_self _ _)
    have ha : sep ∉ a := fun e => h (List.mem_cons_of_mem _ e)
    simp [splitOn, hc, splitOn_append_sep sep a b ha]

theorem joinWith_cons_cons (sep a b : Str) (rest : List Str) :
    joinWith sep (a :: b :: rest) = a ++ sep ++ joinWith sep (b :: rest) := rfl

theorem joinWith_append (sep : Str) :
    ∀ (xs ys : List Str), xs ≠ [] → ys ≠ [] →
      joinWith sep (xs ++ ys) = joinWith sep xs ++ sep ++ joinWith sep ys
  | [a], y :: ys, _, _ => by simp [joinWith]
  | a :: b :: xs, ys, _, hy => by
    have ih := joinWith_append sep (b :: xs) ys (by simp) hy
    simp only [List.cons_append] at ih ⊢
    rw [joinWith_cons_cons, ih, joinWith_cons_cons]
    simp [List.append_assoc]

/-- The characters of a plain segment. -/
theorem isPlainSegment_iff (seg : Str) :
    isPlainSegment seg = true ↔
      seg ≠ [] ∧ ∀ c ∈ seg, isSyntaxChar c = false ∧ c ≠ '/' := by
  cases seg <;> simp [isPlainSegment]

theorem splitOn_joinWith :
    ∀ segs : List Str, segs ≠ [] → (∀ seg ∈ segs, isPlainSegment seg = true) →
      splitOn '/' (joinWith ['/'] segs) = segs
  | [a], _, h => by
    have ha := ((isPlainSegment_iff a).1 (h a (List.mem_singleton_self _))).2
    exact splitOn_of_not_mem '/' a fun hm => (ha _ hm).2 rfl
  | a :: b :: rest, _, h => by
    have ha := ((isPlainSegment_iff a).1 (h a (List.mem_cons_self _ _))).2
    have ih := splitOn_joinWith (b :: rest) (by simp)
      fun seg hseg => h seg (List.mem_cons_of_mem _ hseg)
    rw [joinWith_cons_cons, List.append_assoc, List.singleton_append,
      splitOn_append_sep '/' a _ (fun hm => (ha _ hm).2 rfl), ih]

/-- The segments of `rootPath segments` followed by more text. -/
theorem splitOn_rootPath_append (segs : List Str) (hne : segs ≠ [])
    (h : ∀ seg ∈ segs, isPlainSegment seg = true) (tail : Str) :
    splitOn '/' (rootPath segs ++ '/' :: tail) = ([] :: segs) ++ splitOn '/' tail := by
  have key : ∀ (xs : List Str), xs ≠ [] → (∀ seg ∈ xs, isPlainSegment seg = true) →
      splitOn '/' (joinWith ['/'] xs ++ '/' :: tail) = xs ++ splitOn '/' tail := by
    intro xs
    induction xs with
    | nil => intro h; exact absurd rfl h
    | cons a rest ih =>
      intro _ hx
      have ha := ((isPlainSegment_iff a).1 (hx a (List.mem_cons_self _ _))).2
      have hslash : '/' ∉ a := fun hm => (ha _ hm).2 rfl
      cases rest with
      | nil => simpa [joinWith] using splitOn_append_sep '/' a tail hslash
      | cons b rest =>
        have ih' := ih (by simp) fun seg hseg => hx seg (List.mem_cons_of_mem _ hseg)
        rw [joinWith_cons_cons, List.append_assoc, List.append_assoc, List.singleton_append,
          splitOn_append_sep '/' a _ hslash, ih']
        rfl
  unfold rootPath
  rw [List.cons_append, splitOn_sep_cons, key segs hne h]
  rfl


/-! ## Paths below a well-formed root -/

theorem plain_ne_dots {seg : Str} (h : isPlainSegment seg = true) :
    seg ≠ [] ∧ seg ≠ ['.'] ∧ seg ≠ ['.', '.'] := by
  obtain ⟨hne, hc⟩ := (isPlainSegment_iff seg).1 h
  refine ⟨hne, ?_, ?_⟩
  · rintro rfl
    have := (hc '.' (List.mem_singleton_self _)).1
    revert this
    decide
  · rintro rfl
    have := (hc '.' (List.mem_cons_self _ _)).1
    revert this
    decide

theorem Path.normalizeSegs_plain (b : Bool) :
    ∀ (segs acc more : List Str), (∀ seg ∈ segs, isPlainSegment seg = true) →
      Path.normalizeSegs b acc (segs ++ more) = Path.normalizeSegs b (segs.reverse ++ acc) more
  | [], _, _, _ => rfl
  | seg :: segs, acc, more, h => by
    obtain ⟨h1, h2, h3⟩ := plain_ne_dots (h seg (List.mem_cons_self _ _))
    have ih := Path.normalizeSegs_plain b segs (seg :: acc) more
      fun s hs => h s (List.mem_cons_of_mem _ hs)
    simp only [List.cons_append, Path.normalizeSegs, h1, h2, h3, or_self, if_false,
      List.append_eq]
    rw [ih]
    simp

theorem Path.normalizeSegs_no_dotdot (b : Bool) :
    ∀ (more acc : List Str), ['.', '.'] ∉ more →
      Path.normalizeSegs b acc more = acc.reverse ++ Path.normalizeSegs b [] more
  | [], acc, _ => by simp [Path.normalizeSegs]
  | seg :: more, acc, h => by
    have hseg : seg ≠ ['.', '.'] := fun e => h (e ▸ List.mem_cons_self _ _)
    have hmore : ['.', '.'] ∉ more := fun e => h (List.mem_cons_of_mem _ e)
    have ih1 := Path.normalizeSegs_no_dotdot b more acc hmore
    have ih2 := Path.normalizeSegs_no_dotdot b more (seg :: acc) hmore
    have ih3 := Path.normalizeSegs_no_dotdot b more [seg] hmore
    by_cases hdrop : seg = [] ∨ seg = ['.']
    · simp only [Path.normalizeSegs, hdrop, if_true]
      exact ih1
    · simp only [Path.normalizeSegs, hdrop, hseg, if_false]
      rw [ih2, ih3]
      simp

theorem rootPath_ne_nil (segs : List Str) : rootPath segs ≠ [] := by
  simp [rootPath]

theorem joinWith_ne_nil (sep : Str) (a : Str) (rest : List Str) (ha : a ≠ []) :
    joinWith sep (a :: rest) ≠ [] := by
  cases rest with
  | nil => simpa [joinWith] using ha
  | cons b rest => simp [joinWith, ha]

/-- `path.normalize` of a path below a well-formed root: the root is kept,
the rest is normalized on its own. -/
theorem Path.normalize_rootPath_append (segs : List Str) (hne : segs ≠ [])
    (h : ∀ seg ∈ segs, isPlainSegment seg = true) (tail : Str)
    (hdd : ['.', '.'] ∉ splitOn '/' tail)
    (hres : Path.normalizeSegs false [] (splitOn '/' tail) ≠ [])
    (htrail : ('/' :: tail).getLast? ≠ some '/') :
    Path.normalize (rootPath segs ++ '/' :: tail) =
      rootPath segs ++ '/' :: joinWith ['/'] (Path.normalizeSegs false [] (splitOn '/' tail)) := by
  have hp : rootPath segs ++ '/' :: tail ≠ [] := by simp [rootPath]
  have hhead : (rootPath segs ++ '/' :: tail).head? = some '/' := by simp [rootPath]
  have hlast : (rootPath segs ++ '/' :: tail).getLast? = ('/' :: tail).getLast? := by
    rw [List.getLast?_append]
    cases hl : ('/' :: tail).getLast? with
    | none => simp at hl
    | some c => rfl
  have hsegs : Path.normalizeSegs false [] (splitOn '/' (rootPath segs ++ '/' :: tail)) =
      segs ++ Path.normalizeSegs false [] (splitOn '/' tail) := by
    rw [splitOn_rootPath_append segs hne h]
    simp only [List.cons_append, Path.normalizeSegs, true_or, if_true, List.append_eq]
    rw [Path.normalizeSegs_plain false segs [] _ h, Path.normalizeSegs_no_dotdot false _ _ hdd]
    simp
  obtain ⟨a, rest, rfl⟩ := List.exists_cons_of_ne_nil hne
  have ha : a ≠ [] := (plain_ne_dots (h a (List.mem_cons_self _ _))).1
  have hjoin : joinWith ['/'] (a :: rest ++ Path.normalizeSegs false [] (splitOn '/' tail)) ≠ [] :=
    joinWith_ne_nil _ _ _ ha
  unfold Path.normalize
  simp only [hp, if_false, hhead, hlast, htrail, hsegs, Bool.not_true, decide_True]
  rw [if_neg hjoin, joinWith_append _ _ _ (by simp) hres]
  simp [rootPath]

theorem Path.dirnameScan_false :
    ∀ (l r : Str), '/' ∉ l → Path.dirnameScan false (l ++ '/' :: r) = some (r.length + 1)
  | [], r, _ => by simp [Path.dirnameScan]
  | c :: l, r, h => by
    have hc : c ≠ '/' := fun e => h (e ▸ List.mem_cons_self _ _)
    have hl : '/' ∉ l := fun e => h (List.mem_cons_of_mem _ e)
    simp [Path.dirnameScan, hc, Path.dirnameScan_false l r hl]

/-- `path.dirname` of a directory path followed by a file name. -/
theorem Path.dirname_append (p name : Str) (hp : 2 ≤ p.length) (hname : name ≠ [])
    (hslash : '/' ∉ name) : Path.dirname (p ++ '/' :: name) = p := by
  obtain ⟨c, p1, rfl⟩ := List.exists_cons_of_ne_nil (l := p) (by rintro rfl; simp at hp)
  obtain ⟨d, name1, rfl⟩ := List.exists_cons_of_ne_nil hname
  have hd : d ≠ '/' := fun e => hslash (e ▸ List.mem_cons_self _ _)
  obtain ⟨n0, nrest, hn⟩ := List.exists_cons_of_ne_nil (l := (d :: name1).reverse) (by simp)
  have hmem : ∀ x ∈ n0 :: nrest, x ≠ '/' := by
    intro x hx e
    rw [← hn] at hx
    exact hslash (e ▸ List.mem_reverse.1 hx)
  have hscan : Path.dirnameScan true ((c :: p1 ++ '/' :: d :: name1).tail.reverse) =
      some (p1.length + 1) := by
    have : (c :: p1 ++ '/' :: d :: name1).tail.reverse =
        (n0 :: nrest) ++ '/' :: p1.reverse := by
      simp only [List.cons_append, List.tail_cons, List.reverse_append, ← hn]
      simp
    rw [this]
    have hn0' : n0 ≠ '/' := hmem n0 (List.mem_cons_self _ _)
    have hrest : '/' ∉ nrest := fun e => hmem _ (List.mem_cons_of_mem _ e) rfl
    simp only [List.cons_append, Path.dirnameScan, hn0', if_false, List.append_eq]
    rw [Path.dirnameScan_false nrest _ hrest]
    simp
  unfold Path.dirname
  have hlen : p1.length + 1 ≠ 1 := by
    simp only [List.length_cons] at hp
    omega
  simp only [hscan]
  simp [hlen]


/-! ## Suffix patterns and single characters -/

theorem Regex.matcher_seqs_append (ic ml : Bool) :
    ∀ (a b : List Regex) (st : MState) (k : Cont),
      (Regex.seqs (a ++ b)).matcher ic ml st k =
        (Regex.seqs a).matcher ic ml st fun s1 => (Regex.seqs b).matcher ic ml s1 k
  | [], _, _, _ => rfl
  | r :: a, b, st, k => by
    simp only [List.cons_append, Regex.seqs, Regex.matcher]
    congr
    funext s1
    exact Regex.matcher_seqs_append ic ml a b s1 k

theorem litAtEnd_matchAt_self (s prev : Str) :
    (litAtEnd s).matchAt prev s = some ⟨s.reverse ++ prev, [], []⟩ := by
  have h := lit_matcher_pfx false s prev [] []
  simp only [List.append_nil] at h
  simp only [litAtEnd, RegExp.matchAt, Regex.matcher_seqs_append]
  rw [show Regex.seqs (s.map Regex.chr) = Regex.lit s from rfl, h]
  simp [Regex.seqs, Regex.matcher]

theorem litAtEnd_matchAt_ne (s prev rest : Str) (h : rest ≠ s) :
    (litAtEnd s).matchAt prev rest = none := by
  simp only [litAtEnd, RegExp.matchAt, Regex.matcher_seqs_append]
  rw [show Regex.seqs (s.map Regex.chr) = Regex.lit s from rfl]
  by_cases hp : s <+: rest
  · obtain ⟨post, rfl⟩ := hp
    rw [lit_matcher_pfx]
    have hpost : post ≠ [] := by
      rintro rfl
      exact h (by simp)
    cases post with
    | nil => exact absurd rfl hpost
    | cons c t => simp [Regex.seqs, Regex.matcher]
  · exact lit_matcher_not_pfx _ s prev rest [] _ hp

theorem litAtEnd_search_append (s : Str) :
    ∀ (x prev : Str), (litAtEnd s).search prev (x ++ s) =
      some (x.reverse ++ prev, ⟨s.reverse ++ (x.reverse ++ prev), [], []⟩)
  | [], prev => by
    simpa using RegExp.search_of_matchAt _ _ _ _ (litAtEnd_matchAt_self s prev)
  | c :: x, prev => by
    have hne : c :: x ++ s ≠ s := by
      intro e
      have := congrArg List.length e
      simp at this
      omega
    rw [List.cons_append, RegExp.search_cons_of_matchAt_none _ _ _ _
      (litAtEnd_matchAt_ne s prev _ (by simpa using hne)), litAtEnd_search_append s x (c :: prev)]
    simp

theorem litAtEnd_search_none (s : Str) :
    ∀ (rest prev : Str), ¬ s <:+ rest → (litAtEnd s).search prev rest = none
  | [], prev, h => by
    have hs : ([] : Str) ≠ s := fun e => h (e ▸ List.suffix_refl _)
    simp [RegExp.search, litAtEnd_matchAt_ne s prev [] hs]
  | c :: t, prev, h => by
    have hs : c :: t ≠ s := fun e => h (e ▸ List.suffix_refl _)
    have ht : ¬ s <:+ t := fun e => h (e.trans (List.suffix_cons c t))
    rw [RegExp.search_cons_of_matchAt_none _ _ _ _ (litAtEnd_matchAt_ne s prev _ hs),
      litAtEnd_search_none s t (c :: prev) ht]

/-- Replacing `text$` by the empty string removes the text at the end. -/
theorem litAtEnd_replace_append (s x : Str) : (litAtEnd s).replace (x ++ s) [] = x := by
  have h := litAtEnd_search_append s x []
  simp only [List.append_nil] at h
  simp [RegExp.replace, litAtEnd, RegExp.replaceFirst, RegExp.exec, getSubstitution] at h ⊢
  simp [h, matchedText]

/-- Replacing `text$` leaves an input that does not end with the text as it
is. -/
theorem litAtEnd_replace_of_not_suffix (s x repl : Str) (h : ¬ s <:+ x) :
    (litAtEnd s).replace x repl = x := by
  have hs := litAtEnd_search_none s x [] h
  simp [RegExp.replace, litAtEnd, RegExp.replaceFirst, RegExp.exec] at hs ⊢
  simp [hs]

theorem tsSuffixRegex_eq : tsSuffixRegex = litAtEnd ".ts".toList := rfl

theorem chr_search_none (c : Char) (g ml : Bool) :
    ∀ (rest prev : Str), c ∉ rest →
      RegExp.search { re := .chr c, global := g, multiline := ml } prev rest = none
  | [], prev, _ => by
    simp [RegExp.search, RegExp.matchAt, Regex.matcher, stepChar]
  | d :: t, prev, h => by
    have hd : d ≠ c := fun e => h (e ▸ List.mem_cons_self _ _)
    have ht : c ∉ t := fun e => h (List.mem_cons_of_mem _ e)
    have hm : RegExp.matchAt { re := .chr c, global := g, multiline := ml } prev (d :: t) =
        none := by
      simp [RegExp.matchAt, Regex.matcher, stepChar, canonicalize, hd]
    rw [RegExp.search_cons_of_matchAt_none _ _ _ _ hm, chr_search_none c g ml t (d :: prev) ht]

/-- Replacing backslashes leaves a text without backslash as it is. -/
theorem backslashRegex_replace_of_not_mem (x repl : Str) (h : '\\' ∉ x) :
    backslashRegex.replace x repl = x := by
  have hs := chr_search_none '\\' true false x [] h
  simp only [RegExp.replace, backslashRegex, if_true, RegExp.replaceAllFrom, hs]

/-! ## Walking a file system -/

theorem FS.walk_no_dotdot :
    ∀ (more : List Str) (cur : Dirent) (anc anc1 : List Dirent), ['.', '.'] ∉ more →
      FS.walk cur anc more = FS.walk cur anc1 more
  | [], _, _, _, _ => rfl
  | seg :: more, cur, anc, anc1, h => by
    have hseg : seg ≠ ['.', '.'] := fun e => h (e ▸ List.mem_cons_self _ _)
    have hmore : ['.', '.'] ∉ more := fun e => h (List.mem_cons_of_mem _ e)
    cases cur with
    | file n c => rfl
    | other n => rfl
    | dir n children =>
      simp only [FS.walk, hseg, if_false]
      split_ifs
      · exact FS.walk_no_dotdot more _ anc anc1 hmore
      · cases children.find? fun d => decide (d.name = seg) with
        | none => rfl
        | some d => exact FS.walk_no_dotdot more d _ _ hmore

theorem FS.walk_dir_name_irrelevant (n n1 : Str) (entries anc anc1 : List Dirent)
    (seg : Str) (more : List Str) (h1 : seg ≠ []) (h2 : seg ≠ ['.']) (h3 : seg ≠ ['.', '.'])
    (hdd : ['.', '.'] ∉ more) :
    FS.walk (.dir n entries) anc (seg :: more) = FS.walk (.dir n1 entries) anc1 (seg :: more) := by
  simp only [FS.walk, h1, h2, h3, or_self, if_false]
  cases entries.find? fun d => decide (d.name = seg) with
  | none => rfl
  | some d => exact FS.walk_no_dotdot more d _ _ hdd

theorem FS.walk_dir_empty_segment (n : Str) (children anc : List Dirent) (rest : List Str) :
    FS.walk (.dir n children) anc ([] :: rest) = FS.walk (.dir n children) anc rest := by
  simp [FS.walk]

theorem FS.walk_nestIn :
    ∀ (segs : List Str) (n : Str) (anc entries : List Dirent) (more : List Str),
      (∀ seg ∈ segs, isPlainSegment seg = true) →
      ∃ n1 anc1, FS.walk (.dir n (nestIn segs entries)) anc (segs ++ more) =
        FS.walk (.dir n1 entries) anc1 more
  | [], n, anc, _, _, _ => ⟨n, anc, rfl⟩
  | seg :: segs, n, anc, entries, more, h => by
    obtain ⟨h1, h2, h3⟩ := plain_ne_dots (h seg (List.mem_cons_self _ _))
    obtain ⟨n1, anc1, ih⟩ := FS.walk_nestIn segs seg
      (.dir n (nestIn (seg :: segs) entries) :: anc) entries more
      fun s hs => h s (List.mem_cons_of_mem _ hs)
    refine ⟨n1, anc1, ?_⟩
    rw [← ih]
    simp [FS.walk, nestIn, h1, h2, h3, Dirent.name]

/-- Looking up a path below the root directory of a file system whose
entries are nested in the root's segments. -/
theorem FS.find_below_root (segs : List Str) (h : ∀ seg ∈ segs, isPlainSegment seg = true)
    (hne : segs ≠ []) (entries : List Dirent) (cwd tail seg : Str) (more : List Str)
    (hsplit : splitOn '/' tail = seg :: more)
    (h1 : seg ≠ []) (h2 : seg ≠ ['.']) (h3 : seg ≠ ['.', '.']) (hdd : ['.', '.'] ∉ more) :
    FS.find { root := nestIn segs entries, cwd := cwd } (rootPath segs ++ '/' :: tail) =
      FS.walk (.dir [] entries) [] (seg :: more) := by
  have hp : rootPath segs ++ '/' :: tail ≠ [] := by simp [rootPath]
  have hhead : (rootPath segs ++ '/' :: tail).head? = some '/' := by simp [rootPath]
  obtain ⟨n1, anc1, hw⟩ := FS.walk_nestIn segs [] [] entries (seg :: more) h
  unfold FS.find
  rw [if_neg hp, if_pos hhead, splitOn_rootPath_append segs hne h, hsplit, List.cons_append,
    FS.walk_dir_empty_segment, hw]
  exact FS.walk_dir_name_irrelevant _ _ _ _ _ _ _ h1 h2 h3 hdd


/-! ## Alias resolution with keys free of syntax characters -/

/-- The pattern `^key` for a key without syntax characters. -/
theorem RegExp.compile_caret_plain (k : Str) (h : ∀ c ∈ k, isSyntaxChar c = false) :
    RegExp.compile ('^' :: k) = some { re := .seq .bol (Regex.lit k) } := by
  have hq : startsWithQuant k = false := by
    cases k with
    | nil => rfl
    | cons c t =>
      obtain ⟨-, -, -, -, h1, h2, h3⟩ := not_syntax_cases (h c (List.mem_cons_self _ _))
      simp [startsWithQuant, h1, h2, h3]
  simp [RegExp.compile, parsePattern, hq, parsePattern_plain k _ h (Nat.lt_succ_self _)]

theorem caret_matchAt_start_pfx (k post : Str) :
    RegExp.matchAt { re := .seq .bol (Regex.lit k) } [] (k ++ post) =
      some ⟨k.reverse, post, []⟩ := by
  simp [RegExp.matchAt, Regex.matcher, lit_matcher_pfx]

theorem caret_matchAt_start_not_pfx (k rest : Str) (h : ¬ k <+: rest) :
    RegExp.matchAt { re := .seq .bol (Regex.lit k) } [] rest = none := by
  simp [RegExp.matchAt, Regex.matcher, lit_matcher_not_pfx _ k [] rest [] _ h]

theorem caret_matchAt_later (k : Str) (c : Char) (prev rest : Str) :
    RegExp.matchAt { re := .seq .bol (Regex.lit k) } (c :: prev) rest = none := by
  simp [RegExp.matchAt, Regex.matcher]

theorem caret_search_later (k : Str) :
    ∀ (rest : Str) (c : Char) (prev : Str),
      RegExp.search { re := .seq .bol (Regex.lit k) } (c :: prev) rest = none
  | [], c, prev => by simp [RegExp.search, caret_matchAt_later]
  | d :: t, c, prev => by
    rw [RegExp.search_cons_of_matchAt_none _ _ _ _ (caret_matchAt_later k c prev _)]
    exact caret_search_later k t d (c :: prev)

theorem caret_exec_pfx (k post : Str) :
    RegExp.exec { re := .seq .bol (Regex.lit k) } (k ++ post) =
      some { pre := [], matched := k, post := post, caps := [] } := by
  have hm := RegExp.search_of_matchAt _ _ _ _ (caret_matchAt_start_pfx k post)
  simp only [RegExp.exec, hm, Option.map_some', List.reverse_nil]
  have := matchedText_append k [] post []
  simp only [List.append_nil] at this
  rw [this]

theorem caret_exec_not_pfx (k x : Str) (h : ¬ k <+: x) :
    RegExp.exec { re := .seq .bol (Regex.lit k) } x = none := by
  have hm := caret_matchAt_start_not_pfx k x h
  cases x with
  | nil => simp [RegExp.exec, RegExp.search, hm]
  | cons c t =>
    simp [RegExp.exec, RegExp.search_cons_of_matchAt_none _ _ _ _ hm, caret_search_later]

/-- `test` of the pattern `^key`: is the key a prefix of the input? -/
theorem caret_test (k x : Str) :
    RegExp.test { re := .seq .bol (Regex.lit k) } x = decide (k <+: x) := by
  by_cases h : k <+: x
  · obtain ⟨post, rfl⟩ := h
    simp [RegExp.test, caret_exec_pfx]
  · simp [RegExp.test, caret_exec_not_pfx k x h, h]

theorem getSubstitution_of_no_dollar (matched pre post : Str) :
    ∀ repl : Str, '$' ∉ repl → getSubstitution matched pre post repl = repl
  | [], _ => rfl
  | [c], _ => rfl
  | c :: d :: t, h => by
    have hc : c ≠ '$' := fun e => h (e ▸ List.mem_cons_self _ _)
    have ih := getSubstitution_of_no_dollar matched pre post (d :: t)
      fun e => h (List.mem_cons_of_mem _ e)
    simp [getSubstitution, hc, ih]

/-- Replacing `^key` in an input that starts with the key, by a replacement
without `$`: the replacement followed by the rest of the input. -/
theorem caret_replace_pfx (k post repl : Str) (h : '$' ∉ repl) :
    RegExp.replace { re := .seq .bol (Regex.lit k) } (k ++ post) repl = repl ++ post := by
  simp [RegExp.replace, RegExp.replaceFirst, caret_exec_pfx,
    getSubstitution_of_no_dollar _ _ _ repl h]

theorem mapOpt_eq_some_map {α β : Type} (f : α → Option β) (g : α → β) :
    ∀ ks : List α, (∀ k ∈ ks, f k = some (g k)) → mapOpt f ks = some (ks.map g)
  | [], _ => rfl
  | k :: ks, h => by
    have hk := h k (List.mem_cons_self _ _)
    have ih := mapOpt_eq_some_map f g ks fun a ha => h a (List.mem_cons_of_mem _ ha)
    simp [mapOpt, hk, ih]

/-- The first match of `resolveAlias` over keys without syntax characters. -/
theorem resolveAlias_first_match (value : Str → Str) (path : Str) :
    ∀ ks : List Str, (∀ k ∈ ks, '$' ∉ value k) →
      (match (ks.map fun k =>
          if RegExp.test { re := .seq .bol (Regex.lit k) } path
          then some (({ re := .seq .bol (Regex.lit k) } : RegExp), value k)
          else none).filterMap id with
        | [] => path
        | (regex, replacement) :: _ => regex.replace path replacement) =
      match ks.find? fun k => decide (k <+: path) with
      | none => path
      | some k => value k ++ path.drop k.length
  | [], _ => rfl
  | k :: ks, h => by
    have ih := resolveAlias_first_match value path ks fun a ha => h a (List.mem_cons_of_mem _ ha)
    by_cases hp : k <+: path
    · obtain ⟨post, rfl⟩ := hp
      have ht : RegExp.test { re := .seq .bol (Regex.lit k) } (k ++ post) = true := by
        rw [caret_test]
        simp
      have hfm : ∀ (x : RegExp × Str) (l : List (Option (RegExp × Str))),
          (some x :: l).filterMap id = x :: l.filterMap id := fun _ _ => rfl
      simp only [List.map_cons, ht, if_true, hfm]
      rw [caret_replace_pfx k post _ (h k (List.mem_cons_self _ _))]
      simp
    · have ht : RegExp.test { re := .seq .bol (Regex.lit k) } path = false := by
        rw [caret_test]
        simp [hp]
      have hfm : ∀ (l : List (Option (RegExp × Str))),
          (none :: l).filterMap id = l.filterMap id := fun _ => rfl
      simp only [List.map_cons, ht, Bool.false_eq_true, if_false, List.find?_cons, hp,
        decide_False, hfm]
      exact ih

/-- What `resolveAlias` does on alias mappings whose keys hold no syntax
character of regular expressions and whose replacements hold no `$`: the
first key in `Object.keys` order that is a prefix of the specifier is replaced
by its replacement, the rest of the specifier is kept; without such a key
the specifier is returned as it is. -/
theorem resolveAlias_plain (aliasMapping : Obj Str) (path : Str)
    (hk : ∀ k ∈ aliasMapping.keys, ∀ c ∈ k, isSyntaxChar c = false)
    (hv : ∀ k ∈ aliasMapping.keys, '$' ∉ (aliasMapping.get k).getD []) :
    resolveAlias aliasMapping path =
      some (match aliasMapping.keys.find? fun k => decide (k <+: path) with
        | none => path
        | some k => (aliasMapping.get k).getD [] ++ path.drop k.length) := by
  unfold resolveAlias
  rw [mapOpt_eq_some_map _ (fun k =>
    if RegExp.test { re := .seq .bol (Regex.lit k) } path
    then some (({ re := .seq .bol (Regex.lit k) } : RegExp), (aliasMapping.get k).getD [])
    else none)]
  · rw [Option.map_some']
    exact congrArg some
      (resolveAlias_first_match (fun k => (aliasMapping.get k).getD []) path _ hv)
  · intro k hmem
    rw [RegExp.compile_caret_plain k (hk k hmem)]
    rfl


/-! ## Graph-build filtering -/

/-- The `filter` step of `buildGraph` on a concatenation. -/
theorem buildGraph_append (re : RegExp) (a b : List Record) :
    buildGraph re (a ++ b) = buildGraph re a ++ buildGraph re b := by
  simp [buildGraph]

/-- C1, as stated, fails: with project root `/root`, the record whose importing
file `/elsewhere/lib.ts` lies outside `/root/src/` and whose target
`/root/src/a.ts` lies inside is kept, as the edge from `/elsewhere/lib` to
`a`. -/
theorem buildGraph_keeps_outside_importer :
    sourceDirectoryRegex "/root".toList = some { re := Regex.lit "/root/src/".toList } ∧
    filterFile { re := Regex.lit "/root/src/".toList } "/elsewhere/lib.ts".toList = false ∧
    filterFile { re := Regex.lit "/root/src/".toList } "/root/src/a.ts".toList = true ∧
    buildGraph { re := Regex.lit "/root/src/".toList }
        [{ to_ := "/elsewhere/lib.ts".toList, imports := ["x".toList],
           from_ := "/root/src/a.ts".toList }] =
      [{ to_ := "/elsewhere/lib".toList, imports := ["x".toList], from_ := "a".toList }] := by
  decide!

/-- C1, amended: a record whose import target (`from`), once its backslashes
are replaced by `/`, contains no match of the source-directory pattern is
absent from the final graph, whatever its importing file is: the graph is the
one built without the record. -/
theorem buildGraph_drops_unmatched_target (re : RegExp) (before after : List Record)
    (r : Record) (h : filterFile re (backslashRegex.replace r.from_ ['/']) = false) :
    buildGraph re (before ++ r :: after) = buildGraph re (before ++ after) := by
  have hr : buildGraph re [r] = [] := by simp [buildGraph, h]
  have hsplit : before ++ r :: after = before ++ ([r] ++ after) := by simp
  rw [hsplit, buildGraph_append, buildGraph_append, buildGraph_append, hr]
  simp

/-- Witness for C1 (`buildGraph_drops_unmatched_target`): the importing file
`/root/src/a.ts` lies inside the root, the target `lodash` does not match. -/
theorem buildGraph_drops_unmatched_target_witness :
    sourceDirectoryRegex "/root".toList = some { re := Regex.lit "/root/src/".toList } ∧
    filterFile { re := Regex.lit "/root/src/".toList } "/root/src/a.ts".toList = true ∧
    buildGraph { re := Regex.lit "/root/src/".toList }
        ([] ++ { to_ := "/root/src/a.ts".toList, imports := ["x".toList],
                 from_ := "lodash".toList } :: []) =
      buildGraph { re := Regex.lit "/root/src/".toList } ([] ++ []) :=
  ⟨by decide!, by decide!,
    buildGraph_drops_unmatched_target _ [] []
      { to_ := "/root/src/a.ts".toList, imports := ["x".toList], from_ := "lodash".toList }
      (by decide!)⟩

/-! ## Path normalization -/

/-- C2, as stated, fails: for `./x` imported from `/root/src/a/b.ts`, with no
alias and only `/root/src/a/x.ts` on disk, `normalizImportPath` returns
`/root/src/a/x`, without the `.ts` that was probed. -/
theorem normalizImportPath_probe_not_appended :
    normalizImportPath (fun p => p = "/root/src/a/x.ts".toList) "/root".toList []
        "./x".toList "/root/src/a/b.ts".toList = some "/root/src/a/x".toList ∧
    normalizImportPath (fun p => p = "/root/src/a/x.ts".toList) "/root".toList []
        "./x".toList "/root/src/a/b.ts".toList ≠ some "/root/src/a/x.ts".toList := by
  decide!

/-- C2, amended: when the pattern of no alias key matches the specifier and
the candidate joined from the importing file's directory exists with `.ts`
appended, `normalizImportPath` returns the candidate itself, without the
suffix. -/
theorem normalizImportPath_probe_ts (existsSync : Str → Bool) (sourceDirectory : Str)
    (aliasMapping : Obj Str) (path origin : Str)
    (hAlias : ∀ k ∈ aliasMapping.keys,
      ∃ re, RegExp.compile ('^' :: k) = some re ∧ re.test path = false)
    (hProbe : existsSync
      (Path.normalize (Path.dirname origin ++ '/' :: path) ++ ".ts".toList) = true) :
    normalizImportPath existsSync sourceDirectory aliasMapping path origin =
      some (Path.normalize (Path.dirname origin ++ '/' :: path)) := by
  have hRes := resolveAlias_of_no_match aliasMapping path hAlias
  simp only [String.toList] at hProbe
  simp [normalizImportPath, hRes, hProbe]

/-- Witness for C2 (`normalizImportPath_probe_ts`): `./x` from `/root/src/a/b.ts`
with the alias `@app/` and only `/root/src/a/x.ts` on disk. -/
theorem normalizImportPath_probe_ts_witness :
    normalizImportPath (fun p => p = "/root/src/a/x.ts".toList) "/root".toList
        [("@app/".toList, "src/app/".toList)] "./x".toList "/root/src/a/b.ts".toList =
      some (Path.normalize (Path.dirname "/root/src/a/b.ts".toList ++ '/' :: "./x".toList)) ∧
    Path.normalize (Path.dirname "/root/src/a/b.ts".toList ++ '/' :: "./x".toList) =
      "/root/src/a/x".toList :=
  ⟨normalizImportPath_probe_ts _ _ _ _ _ (by decide!) (by decide!), by decide!⟩

/-- C3: when the pattern of no alias key matches the specifier and neither the
candidate joined from the importing file's directory nor the candidate with
`.ts` appended exists, `normalizImportPath` returns the specifier unchanged. -/
theorem normalizImportPath_unresolved (existsSync : Str → Bool) (sourceDirectory : Str)
    (aliasMapping : Obj Str) (path origin : Str)
    (hAlias : ∀ k ∈ aliasMapping.keys,
      ∃ re, RegExp.compile ('^' :: k) = some re ∧ re.test path = false)
    (hPlain : existsSync (Path.normalize (Path.dirname origin ++ '/' :: path)) = false)
    (hProbe : existsSync
      (Path.normalize (Path.dirname origin ++ '/' :: path) ++ ".ts".toList) = false) :
    normalizImportPath existsSync sourceDirectory aliasMapping path origin = some path := by
  have hRes := resolveAlias_of_no_match aliasMapping path hAlias
  simp only [String.toList] at hProbe
  simp [normalizImportPath, hRes, hPlain, hProbe]

/-- Witness for C3 (`normalizImportPath_unresolved`): `some-npm-package` imported
from `/root/src/a/b.ts`, with the alias `@app/` and a disk holding only
`/root/src/a/x.ts`. -/
theorem normalizImportPath_unresolved_witness :
    normalizImportPath (fun p => p = "/root/src/a/x.ts".toList) "/root".toList
        [("@app/".toList, "src/app/".toList)] "some-npm-package".toList
        "/root/src/a/b.ts".toList = some "some-npm-package".toList :=
  normalizImportPath_unresolved _ _ _ _ _ (by decide!) (by decide!) (by decide!)


/-! ## Alias resolution -/

/-- C4, at its failing input: the alias key `$lib/` is a literal prefix of the
specifier `$lib/utils`, yet `resolveAlias` returns the specifier unchanged
instead of `src/lib/utils`: the key is read as the pattern `^$lib/`, in which
`$` is the end-of-input assertion. -/
theorem resolveAlias_dollar_key_never_matches :
    "$lib/".toList <+: "$lib/utils".toList ∧
    resolveAlias [("$lib/".toList, "src/lib/".toList)] "$lib/utils".toList =
      some "$lib/utils".toList := by
  refine ⟨⟨"utils".toList, by decide!⟩, by decide!⟩

/-- C5, at its failing input: no key of the mapping is a literal prefix of the
specifier `@org-ui/button`, yet `resolveAlias` rewrites it to
`libs/ui/button`: the key `@org.ui/` is read as the pattern `^@org.ui/`, in
which `.` matches any character. -/
theorem resolveAlias_dot_key_matches_other_text :
    ¬ ("@org.ui/".toList <+: "@org-ui/button".toList) ∧
    resolveAlias [("@org.ui/".toList, "libs/ui/".toList)] "@org-ui/button".toList =
      some "libs/ui/button".toList := by
  refine ⟨?_, by decide!⟩
  rintro ⟨t, ht⟩
  revert ht
  simp

/-! ## Extraction and parsing -/

/-- C7, at its failing input: the extractor, which ignores case, returns the
statement `IMPORT { A } FROM './a';`; the pattern of `parseImport`, which is
case sensitive, does not match it (it matches the same statement in lower
case), so `parseImport` throws on it, whatever the file system, the source
directory, the alias mapping and the importing file are. -/
theorem parseImport_fails_on_extracted_upper_case (existsSync : Str → Bool)
    (sourceDirectory : Str) (aliasMapping : Obj Str) (path : Str) :
    getImportsOfText "IMPORT { A } FROM './a';".toList = ["IMPORT { A } FROM './a';".toList] ∧
    parseImportRegex.exec "IMPORT { A } FROM './a';".toList = none ∧
    (parseImportRegex.exec "import { A } from './a';".toList).isSome = true ∧
    parseImport existsSync sourceDirectory aliasMapping
      "IMPORT { A } FROM './a';".toList path = none := by
  have h : parseImportRegex.exec "IMPORT { A } FROM './a';".toList = none := by decide!
  refine ⟨by decide!, h, by decide!, ?_⟩
  simp only [parseImport, h]

/-! ## Edges -/

/-- C9: `createEdges` returns one edge per record, in the order of the
records: the lists have the same length and the edge at every position has
the `to` and the `from` of the record at that position and its imports joined
by newlines as label.  Two records with the same endpoints give two edges. -/
theorem createEdges_pointwise (g : List Record) :
    (createEdges g).length = g.length ∧
    (∀ i : Nat, ((createEdges g)[i]?).map (fun e => (e.to_, e.from_, e.label)) =
      (g[i]?).map fun r => (r.to_, r.from_, joinWith ['\n'] r.imports)) ∧
    ∀ (importer target : Str) (names1 names2 : List Str),
      (createEdges (g ++ [⟨importer, names1, target⟩, ⟨importer, names2, target⟩])).length =
        (createEdges g).length + 2 := by
  refine ⟨by simp [createEdges], ?_, by simp [createEdges]⟩
  intro i
  simp only [createEdges, List.getElem?_map, Option.map_map]
  rfl


/-! ## File collection -/

theorem perm_swap_front {α : Type} (a x d : List α) :
    (a ++ (x ++ d)).Perm (x ++ (a ++ d)) := by
  rw [← List.append_assoc, ← List.append_assoc]
  exact List.Perm.append_right d List.perm_append_comm

theorem getSourceFiles_cons_file (inc exc : RegExp) (path name content : Str)
    (rest : List Dirent) :
    getSourceFiles inc exc path (.file name content :: rest) =
      (if inc.test name && !exc.test name then [Path.normalize (path ++ '/' :: name)] else []) ++
        getSourceFiles inc exc path rest := by
  by_cases h1 : inc.test name = true <;> by_cases h2 : exc.test name = true <;>
    simp [getSourceFiles, List.filter_cons, Dirent.isFile, Dirent.name, h1, h2]

theorem getSourceFiles_cons_dir (inc exc : RegExp) (path name : Str)
    (children rest : List Dirent) :
    getSourceFiles inc exc path (.dir name children :: rest) =
      getSourceFiles inc exc path rest := by
  simp [getSourceFiles, List.filter_cons, Dirent.isFile]

theorem getSourceFiles_cons_other (inc exc : RegExp) (path name : Str) (rest : List Dirent) :
    getSourceFiles inc exc path (.other name :: rest) = getSourceFiles inc exc path rest := by
  simp [getSourceFiles, List.filter_cons, Dirent.isFile]

theorem getSubDirFiles_cons_file (inc exc : RegExp) (path name content : Str)
    (rest : List Dirent) :
    getSubDirFiles inc exc path (.file name content :: rest) =
      getSubDirFiles inc exc path rest := by
  simp [getSubDirFiles, getDirentFiles]

theorem getSubDirFiles_cons_dir (inc exc : RegExp) (path name : Str)
    (children rest : List Dirent) :
    getSubDirFiles inc exc path (.dir name children :: rest) =
      getFileList inc exc (path ++ '/' :: name) children ++
        getSubDirFiles inc exc path rest := by
  simp [getSubDirFiles, getDirentFiles, getFileList]

theorem getSubDirFiles_cons_other (inc exc : RegExp) (path name : Str) (rest : List Dirent) :
    getSubDirFiles inc exc path (.other name :: rest) = getSubDirFiles inc exc path rest := by
  simp [getSubDirFiles, getDirentFiles]

theorem collectSpec_cons_file (inc exc : RegExp) (path name content : Str)
    (rest : List Dirent) :
    collectSpec inc exc path (.file name content :: rest) =
      (if inc.test name && !exc.test name then [Path.normalize (path ++ '/' :: name)] else []) ++
        collectSpec inc exc path rest := by
  by_cases h : (inc.test name && !exc.test name) = true <;>
    simp [collectSpec, regularFiles, regularFilesOf, List.filter_cons, h]

theorem collectSpec_cons_dir (inc exc : RegExp) (path name : Str)
    (children rest : List Dirent) :
    collectSpec inc exc path (.dir name children :: rest) =
      collectSpec inc exc (path ++ '/' :: name) children ++ collectSpec inc exc path rest := by
  simp [collectSpec, regularFiles, regularFilesOf]

theorem collectSpec_cons_other (inc exc : RegExp) (path name : Str) (rest : List Dirent) :
    collectSpec inc exc path (.other name :: rest) = collectSpec inc exc path rest := by
  simp [collectSpec, regularFiles, regularFilesOf]

/-- C6: on every directory tree and for every pair of patterns, `getFileList`
returns, up to order and with multiplicity, the regular files of the tree at
any depth whose name matches the inclusion pattern and not the exclusion
pattern; directories are descended whatever their name. -/
theorem getFileList_perm_collectSpec (inc exc : RegExp) :
    ∀ (path : Str) (files : List Dirent),
      (getFileList inc exc path files).Perm (collectSpec inc exc path files)
  | _, [] => by simp [getFileList, getSourceFiles, getSubDirFiles, collectSpec, regularFiles]
  | path, .file name content :: rest => by
    have ih := getFileList_perm_collectSpec inc exc path rest
    unfold getFileList at ih ⊢
    rw [getSourceFiles_cons_file, collectSpec_cons_file, getSubDirFiles_cons_file,
      List.append_assoc]
    exact ih.append_left _
  | path, .dir name children :: rest => by
    have ih1 := getFileList_perm_collectSpec inc exc (path ++ '/' :: name) children
    have ih2 := getFileList_perm_collectSpec inc exc path rest
    rw [collectSpec_cons_dir]
    refine List.Perm.trans ?_ (ih1.append ih2)
    unfold getFileList
    rw [getSourceFiles_cons_dir, getSubDirFiles_cons_dir]
    unfold getFileList
    have h := perm_swap_front (getSourceFiles inc exc path rest)
      (getSourceFiles inc exc (path ++ '/' :: name) children ++
        getSubDirFiles inc exc (path ++ '/' :: name) children)
      (getSubDirFiles inc exc path rest)
    simpa [List.append_assoc] using h
  | path, .other name :: rest => by
    have ih := getFileList_perm_collectSpec inc exc path rest
    unfold getFileList at ih ⊢
    rw [getSourceFiles_cons_other, collectSpec_cons_other, getSubDirFiles_cons_other]
    exact ih


/-! ## Nodes -/

/-- Membership of keys after an assignment. -/
theorem Obj.mem_keys_set_iff {V : Type} (o : Obj V) (k : Str) (v : V) (x : Str) :
    x ∈ (o.set k v).map Prod.fst ↔ x ∈ o.map Prod.fst ∨ (x = k ∧ k ≠ protoKey) := by
  by_cases hk : k = protoKey
  · subst hk
    rw [Obj.set_proto]
    constructor
    · exact Or.inl
    · rintro (h | ⟨_, h⟩)
      · exact h
      · exact absurd rfl h
  · rw [Obj.mem_keys_set o k v hk]
    simp only [hk, ne_eq, not_false_eq_true, and_true]

theorem nodeTable_eq_foldl (g : List Record) : nodeTable g = g.foldl nodeStep [] := rfl

/-- The invariant of the table that `createNodes` fills. -/
theorem foldl_nodeStep_invariant :
    ∀ (g : List Record) (t : Obj Node),
      (t.map Prod.fst).Nodup → (∀ e ∈ t, e.2 = mkNode e.1) →
      ((g.foldl nodeStep t).map Prod.fst).Nodup ∧
      (∀ e ∈ g.foldl nodeStep t, e.2 = mkNode e.1) ∧
      ∀ x, x ∈ (g.foldl nodeStep t).map Prod.fst ↔
        x ∈ t.map Prod.fst ∨ (x ≠ protoKey ∧ ∃ r ∈ g, r.to_ = x ∨ r.from_ = x)
  | [], t, hnd, hval => by
    refine ⟨hnd, hval, fun x => ?_⟩
    simp only [List.foldl_nil, List.not_mem_nil, false_and, exists_false, and_false, or_false]
  | r :: g, t, hnd, hval => by
    have hnd1 : ((nodeStep t r).map Prod.fst).Nodup :=
      Obj.nodup_keys_set _ _ _ (Obj.nodup_keys_set _ _ _ hnd)
    have hval1 : ∀ e ∈ nodeStep t r, e.2 = mkNode e.1 :=
      Obj.forall_set (fun e => e.2 = mkNode e.1) _ _ _
        (Obj.forall_set (fun e => e.2 = mkNode e.1) _ _ _ hval rfl) rfl
    obtain ⟨h1, h2, h3⟩ := foldl_nodeStep_invariant g (nodeStep t r) hnd1 hval1
    refine ⟨h1, h2, fun x => ?_⟩
    rw [List.foldl_cons, h3 x]
    unfold nodeStep
    rw [Obj.mem_keys_set_iff, Obj.mem_keys_set_iff]
    constructor
    · rintro (((h | ⟨rfl, hp⟩) | ⟨rfl, hp⟩) | ⟨hp, r', hr', he⟩)
      · exact Or.inl h
      · exact Or.inr ⟨hp, r, List.mem_cons_self _ _, Or.inl rfl⟩
      · exact Or.inr ⟨hp, r, List.mem_cons_self _ _, Or.inr rfl⟩
      · exact Or.inr ⟨hp, r', List.mem_cons_of_mem _ hr', he⟩
    · rintro (h | ⟨hp, r', hr', he⟩)
      · exact Or.inl (Or.inl (Or.inl h))
      · rcases List.mem_cons.1 hr' with rfl | hr'
        · rcases he with rfl | rfl
          · exact Or.inl (Or.inl (Or.inr ⟨rfl, hp⟩))
          · exact Or.inl (Or.inr ⟨rfl, hp⟩)
        · exact Or.inr ⟨hp, r', hr', he⟩

/-- The identifiers of the nodes `createNodes` returns are the keys of the
table, in enumeration order. -/
theorem createNodes_ids (g : List Record) :
    (createNodes g).map Node.id = (nodeTable g).ordered.map Prod.fst := by
  have hval := (foldl_nodeStep_invariant g [] List.nodup_nil (by simp)).2.1
  rw [← nodeTable_eq_foldl] at hval
  unfold createNodes Obj.values
  rw [List.map_map]
  apply List.map_congr_left
  intro e he
  have := hval e ((Obj.ordered_perm _).mem_iff.1 he)
  simp [this, mkNode]

/-- What `createNodes` guarantees on every edge list: no two nodes share an
id, every node's id is an endpoint of some edge, every endpoint other than
`__proto__` is the id of a node, and every node is the node object built from
its id alone. -/
theorem createNodes_dedup (g : List Record) :
    ((createNodes g).map Node.id).Nodup ∧
    (∀ id ∈ (createNodes g).map Node.id, ∃ r ∈ g, r.to_ = id ∨ r.from_ = id) ∧
    (∀ r ∈ g, ∀ id, (r.to_ = id ∨ r.from_ = id) → id ≠ protoKey →
      id ∈ (createNodes g).map Node.id) ∧
    ∀ n ∈ createNodes g, n = mkNode n.id := by
  obtain ⟨hnd, hval, hmem⟩ := foldl_nodeStep_invariant g [] List.nodup_nil (by simp)
  rw [← nodeTable_eq_foldl] at hnd hval hmem
  have hperm : ((nodeTable g).ordered.map Prod.fst).Perm ((nodeTable g).map Prod.fst) :=
    (Obj.ordered_perm _).map _
  refine ⟨?_, ?_, ?_, ?_⟩
  · rw [createNodes_ids]
    exact hperm.nodup_iff.2 hnd
  · intro id hid
    rw [createNodes_ids] at hid
    have := (hmem id).1 (hperm.mem_iff.1 hid)
    simpa using this.resolve_left (by simp) |>.2
  · intro r hr id he hp
    rw [createNodes_ids]
    exact hperm.mem_iff.2 ((hmem id).2 (Or.inr ⟨hp, r, hr, he⟩))
  · intro n hn
    unfold createNodes Obj.values at hn
    obtain ⟨e, he, rfl⟩ := List.mem_map.1 hn
    have := hval e ((Obj.ordered_perm _).mem_iff.1 he)
    rw [this]
    rfl

/-- C8, at its failing input: for the edge from `__proto__` to `a` (the file
`src/__proto__.ts` importing `./a`), `createNodes` returns the node `a` only;
the endpoint `__proto__` is the id of no returned node. -/
theorem createNodes_loses_proto_endpoint :
    (createNodes [{ to_ := "__proto__".toList, imports := ["x".toList],
                    from_ := "a".toList }]).map Node.id = ["a".toList] := by
  decide!


/-! ## The scenario below any well-formed root -/

theorem joinWith_plain_chars :
    ∀ segs : List Str, (∀ seg ∈ segs, isPlainSegment seg = true) →
      ∀ c ∈ joinWith ['/'] segs, isSyntaxChar c = false
  | [], _, c, hc => by simp [joinWith] at hc
  | [a], h, c, hc => by
    have ha := ((isPlainSegment_iff a).1 (h a (List.mem_singleton_self _))).2
    exact (ha c (by simpa [joinWith] using hc)).1
  | a :: b :: rest, h, c, hc => by
    have ha := ((isPlainSegment_iff a).1 (h a (List.mem_cons_self _ _))).2
    have ih := joinWith_plain_chars (b :: rest) fun s hs => h s (List.mem_cons_of_mem _ hs)
    rw [joinWith_cons_cons] at hc
    rcases List.mem_append.1 hc with hc | hc
    · rcases List.mem_append.1 hc with hc | hc
      · exact (ha c hc).1
      · rw [List.mem_singleton.1 hc]
        decide
    · exact ih c hc

/-- No character of a well-formed root path is a syntax character. -/
theorem rootPath_plain_chars (segs : List Str) (h : ∀ seg ∈ segs, isPlainSegment seg = true) :
    ∀ c ∈ rootPath segs, isSyntaxChar c = false := by
  intro c hc
  rcases List.mem_cons.1 hc with rfl | hc
  · decide
  · exact joinWith_plain_chars segs h c hc

theorem rootPath_no_backslash (segs : List Str) (h : ∀ seg ∈ segs, isPlainSegment seg = true) :
    '\\' ∉ rootPath segs := by
  intro hc
  have := rootPath_plain_chars segs h _ hc
  revert this
  decide

/-- The source-directory pattern of a well-formed root is the literal
pattern of `<root>/src/`. -/
theorem sourceDirectoryRegex_rootPath (segs : List Str)
    (h : ∀ seg ∈ segs, isPlainSegment seg = true) :
    sourceDirectoryRegex (rootPath segs) =
      some { re := Regex.lit (rootPath segs ++ "/src/".toList) } := by
  apply RegExp.compile_plain
  intro c hc
  rcases List.mem_append.1 hc with hc | hc
  · exact rootPath_plain_chars segs h c hc
  · have hsrc : ∀ d ∈ "/src/".toList, isSyntaxChar d = false := by decide
    exact hsrc c hc

/-- The constants the script computes in the scenario. -/
theorem Env.make_scenario (segs : List Str) (h : ∀ seg ∈ segs, isPlainSegment seg = true) :
    Env.make (rootPath segs) ".ts$".toList ".spec.ts$".toList [] = some (scenarioEnv segs) := by
  have h1 : RegExp.compile ".ts$".toList = some defaultIncludePattern := by decide!
  have h2 : RegExp.compile ".spec.ts$".toList = some defaultExcludePattern := by
    decide!
  simp only [Env.make, sourceDirectoryRegex_rootPath segs h, h1, h2]
  rfl


section Scenario

variable (segs : List Str) (hne : segs ≠ []) (h : ∀ seg ∈ segs, isPlainSegment seg = true)
include hne h

theorem scenario_find (tail seg : Str) (more : List Str)
    (hsplit : splitOn '/' tail = seg :: more)
    (h1 : seg ≠ []) (h2 : seg ≠ ['.']) (h3 : seg ≠ ['.', '.']) (hdd : ['.', '.'] ∉ more) :
    (scenarioFS segs).find (rootPath segs ++ '/' :: tail) =
      FS.walk (.dir [] [.dir "src".toList scenarioSrc]) [] (seg :: more) :=
  FS.find_below_root segs h hne _ _ tail seg more hsplit h1 h2 h3 hdd

theorem scenario_readdir :
    (scenarioFS segs).readdirSync (rootPath segs ++ "/src".toList) = some scenarioSrc := by
  have hf := scenario_find segs hne h "src".toList "src".toList [] (by decide!) (by decide)
    (by decide) (by decide) (by simp)
  show FS.readdirSync _ (rootPath segs ++ '/' :: "src".toList) = _
  unfold FS.readdirSync
  rw [hf]
  rfl

theorem scenario_read_module :
    (scenarioFS segs).readFileSync (rootPath segs ++ "/src/app.module.ts".toList) =
      some scenarioStatement := by
  have hf := scenario_find segs hne h "src/app.module.ts".toList "src".toList
    ["app.module.ts".toList] (by decide!) (by decide) (by decide) (by decide) (by decide)
  show FS.readFileSync _ (rootPath segs ++ '/' :: "src/app.module.ts".toList) = _
  unfold FS.readFileSync
  rw [hf]
  decide!

theorem scenario_read_service :
    (scenarioFS segs).readFileSync (rootPath segs ++ "/src/app.service.ts".toList) =
      some [] := by
  have hf := scenario_find segs hne h "src/app.service.ts".toList "src".toList
    ["app.service.ts".toList] (by decide!) (by decide) (by decide) (by decide) (by decide)
  show FS.readFileSync _ (rootPath segs ++ '/' :: "src/app.service.ts".toList) = _
  unfold FS.readFileSync
  rw [hf]
  decide!

theorem scenario_exists_service_ts :
    (scenarioFS segs).existsSync (rootPath segs ++ "/src/app.service.ts".toList) = true := by
  have hf := scenario_find segs hne h "src/app.service.ts".toList "src".toList
    ["app.service.ts".toList] (by decide!) (by decide) (by decide) (by decide) (by decide)
  show FS.existsSync _ (rootPath segs ++ '/' :: "src/app.service.ts".toList) = _
  unfold FS.existsSync
  rw [hf]
  decide!

theorem scenario_not_exists_service :
    (scenarioFS segs).existsSync (rootPath segs ++ "/src/app.service".toList) = false := by
  have hf := scenario_find segs hne h "src/app.service".toList "src".toList
    ["app.service".toList] (by decide!) (by decide) (by decide) (by decide) (by decide)
  show FS.existsSync _ (rootPath segs ++ '/' :: "src/app.service".toList) = _
  unfold FS.existsSync
  rw [hf]
  decide!

end Scenario


section Scenario

variable (segs : List Str) (hne : segs ≠ []) (h : ∀ seg ∈ segs, isPlainSegment seg = true)
include hne h

theorem scenario_normalize_module :
    Path.normalize ((rootPath segs ++ "/src".toList) ++ '/' :: "app.module.ts".toList) =
      rootPath segs ++ "/src/app.module.ts".toList := by
  have e : (rootPath segs ++ "/src".toList) ++ '/' :: "app.module.ts".toList =
      rootPath segs ++ '/' :: "src/app.module.ts".toList := by
    rw [List.append_assoc]
    rfl
  rw [e, Path.normalize_rootPath_append segs hne h _ (by decide!) (by decide!) (by decide!)]
  have e2 : joinWith ['/'] (Path.normalizeSegs false []
      (splitOn '/' "src/app.module.ts".toList)) = "src/app.module.ts".toList := by decide!
  rw [e2]
  rfl

theorem scenario_normalize_service_ts :
    Path.normalize ((rootPath segs ++ "/src".toList) ++ '/' :: "app.service.ts".toList) =
      rootPath segs ++ "/src/app.service.ts".toList := by
  have e : (rootPath segs ++ "/src".toList) ++ '/' :: "app.service.ts".toList =
      rootPath segs ++ '/' :: "src/app.service.ts".toList := by
    rw [List.append_assoc]
    rfl
  rw [e, Path.normalize_rootPath_append segs hne h _ (by decide!) (by decide!) (by decide!)]
  have e2 : joinWith ['/'] (Path.normalizeSegs false []
      (splitOn '/' "src/app.service.ts".toList)) = "src/app.service.ts".toList := by decide!
  rw [e2]
  rfl

theorem scenario_normalize_module_self :
    Path.normalize (rootPath segs ++ "/src/app.module.ts".toList) =
      rootPath segs ++ "/src/app.module.ts".toList := by
  show Path.normalize (rootPath segs ++ '/' :: "src/app.module.ts".toList) = _
  rw [Path.normalize_rootPath_append segs hne h _ (by decide!) (by decide!) (by decide!)]
  have e2 : joinWith ['/'] (Path.normalizeSegs false []
      (splitOn '/' "src/app.module.ts".toList)) = "src/app.module.ts".toList := by decide!
  rw [e2]
  rfl

theorem scenario_normalize_import :
    Path.normalize ((rootPath segs ++ "/src".toList) ++ '/' :: "./app.service".toList) =
      rootPath segs ++ "/src/app.service".toList := by
  have e : (rootPath segs ++ "/src".toList) ++ '/' :: "./app.service".toList =
      rootPath segs ++ '/' :: "src/./app.service".toList := by
    rw [List.append_assoc]
    rfl
  rw [e, Path.normalize_rootPath_append segs hne h _ (by decide!) (by decide!) (by decide!)]
  have e2 : joinWith ['/'] (Path.normalizeSegs false []
      (splitOn '/' "src/./app.service".toList)) = "src/app.service".toList := by decide!
  rw [e2]
  rfl

omit hne h in
theorem scenario_dirname_module :
    Path.dirname (rootPath segs ++ "/src/app.module.ts".toList) =
      rootPath segs ++ "/src".toList := by
  have e : rootPath segs ++ "/src/app.module.ts".toList =
      (rootPath segs ++ "/src".toList) ++ '/' :: "app.module.ts".toList := by
    rw [List.append_assoc]
    rfl
  rw [e]
  apply Path.dirname_append
  · simp [rootPath]
  · decide
  · decide

theorem scenario_getFileList :
    getFileList defaultIncludePattern defaultExcludePattern (rootPath segs ++ "/src".toList)
        scenarioSrc =
      [rootPath segs ++ "/src/app.module.ts".toList,
       rootPath segs ++ "/src/app.service.ts".toList] := by
  have hfilter : ((scenarioSrc.filter fun file => file.isFile).filter
      fun file => defaultIncludePattern.test file.name).filter
      (fun file => !defaultExcludePattern.test file.name) = scenarioSrc := by
    have hlen : (((scenarioSrc.filter fun file => file.isFile).filter
        fun file => defaultIncludePattern.test file.name).filter
        (fun file => !defaultExcludePattern.test file.name)).length = scenarioSrc.length := by
      decide!
    exact List.Sublist.eq_of_length
      (((List.filter_sublist _).trans (List.filter_sublist _)).trans (List.filter_sublist _)) hlen
  have hsub : getSubDirFiles defaultIncludePattern defaultExcludePattern
      (rootPath segs ++ "/src".toList) scenarioSrc = [] := rfl
  unfold getFileList getSourceFiles
  rw [hfilter, hsub, List.append_nil]
  show [Path.normalize ((rootPath segs ++ "/src".toList) ++ '/' :: "app.module.ts".toList),
    Path.normalize ((rootPath segs ++ "/src".toList) ++ '/' :: "app.service.ts".toList)] = _
  rw [scenario_normalize_module segs hne h, scenario_normalize_service_ts segs hne h]

theorem scenario_getImports_module :
    getImports (scenarioFS segs) (rootPath segs ++ "/src/app.module.ts".toList) =
      some [scenarioStatement] := by
  have ht : getImportsOfText scenarioStatement = [scenarioStatement] := by decide!
  rw [getImports, scenario_read_module segs hne h, Option.map_some', ht]

theorem scenario_getImports_service :
    getImports (scenarioFS segs) (rootPath segs ++ "/src/app.service.ts".toList) = some [] := by
  have ht : getImportsOfText [] = [] := by decide!
  rw [getImports, scenario_read_service segs hne h, Option.map_some', ht]

theorem scenario_normalizImportPath :
    normalizImportPath (scenarioFS segs).existsSync (rootPath segs) [] "./app.service".toList
        (rootPath segs ++ "/src/app.module.ts".toList) =
      some (rootPath segs ++ "/src/app.service".toList) := by
  have hres : resolveAlias [] "./app.service".toList = some "./app.service".toList := rfl
  unfold normalizImportPath
  rw [hres, Option.map_some', scenario_dirname_module segs]
  simp only [ne_eq, not_true_eq_false, if_false]
  rw [scenario_normalize_import segs hne h, scenario_not_exists_service segs hne h]
  have e : (rootPath segs ++ "/src/app.service".toList) ++ ".ts".toList =
      rootPath segs ++ "/src/app.service.ts".toList := by
    rw [List.append_assoc]
    rfl
  rw [e, scenario_exists_service_ts segs hne h]
  rfl

theorem scenario_parseImport :
    parseImport (scenarioFS segs).existsSync (rootPath segs) [] scenarioStatement
        (rootPath segs ++ "/src/app.module.ts".toList) =
      some { to_ := rootPath segs ++ "/src/app.module.ts".toList,
             imports := ["Foo".toList],
             from_ := rootPath segs ++ "/src/app.service".toList } := by
  have hexec : parseImportRegex.exec scenarioStatement =
      some { pre := [], matched := scenarioStatement, post := [],
             caps := [(2, "./app.service".toList), (1, " { Foo } ".toList)] } := by decide!
  have hnames : parseBoundNames " { Foo } ".toList = ["Foo".toList] := by decide!
  unfold parseImport
  rw [hexec]
  show (normalizImportPath _ _ _ "./app.service".toList _).map _ = _
  rw [scenario_normalizImportPath segs hne h, Option.map_some',
    scenario_normalize_module_self segs hne h]
  show some (Record.mk _ (parseBoundNames " { Foo } ".toList) _) = _
  rw [hnames]

end Scenario


section Scenario

variable (segs : List Str) (hne : segs ≠ []) (h : ∀ seg ∈ segs, isPlainSegment seg = true)
include hne h

theorem scenario_rawRecords :
    rawRecords (scenarioFS segs) (scenarioEnv segs)
        [rootPath segs ++ "/src/app.module.ts".toList,
         rootPath segs ++ "/src/app.service.ts".toList] =
      some [{ to_ := rootPath segs ++ "/src/app.module.ts".toList,
              imports := ["Foo".toList],
              from_ := rootPath segs ++ "/src/app.service".toList }] := by
  have hp := scenario_parseImport segs hne h
  simp only [rawRecords, mapOpt, scenarioEnv, scenario_getImports_module segs hne h,
    scenario_getImports_service segs hne h, Option.some_bind, hp, Option.map_some']
  rfl

omit hne in
theorem scenario_clear_module :
    clearPath { re := Regex.lit (rootPath segs ++ "/src/".toList) }
        (backslashRegex.replace (rootPath segs ++ "/src/app.module.ts".toList) ['/']) =
      "app.module".toList := by
  have hb : '\\' ∉ rootPath segs ++ "/src/app.module.ts".toList := by
    intro hc
    rcases List.mem_append.1 hc with hc | hc
    · exact rootPath_no_backslash segs h hc
    · revert hc
      decide
  have e1 : rootPath segs ++ "/src/app.module.ts".toList =
      (rootPath segs ++ "/src/app.module".toList) ++ ".ts".toList := by
    rw [List.append_assoc]
    rfl
  have e2 : rootPath segs ++ "/src/app.module".toList =
      (rootPath segs ++ "/src/".toList) ++ "app.module".toList := by
    rw [List.append_assoc]
    rfl
  rw [backslashRegex_replace_of_not_mem _ _ hb, clearPath, tsSuffixRegex_eq, e1,
    litAtEnd_replace_append, e2, RegExp.replace_lit_pfx]

omit hne in
theorem scenario_backslash_service :
    backslashRegex.replace (rootPath segs ++ "/src/app.service".toList) ['/'] =
      rootPath segs ++ "/src/app.service".toList := by
  apply backslashRegex_replace_of_not_mem
  intro hc
  rcases List.mem_append.1 hc with hc | hc
  · exact rootPath_no_backslash segs h hc
  · revert hc
    decide

omit hne h in
theorem scenario_clear_service :
    clearPath { re := Regex.lit (rootPath segs ++ "/src/".toList) }
        (rootPath segs ++ "/src/app.service".toList) = "app.service".toList := by
  have hsuf : ¬ ".ts".toList <:+ rootPath segs ++ "/src/app.service".toList := by
    intro hs
    have := List.suffix_of_suffix_length_le hs
      (List.suffix_append (rootPath segs) "/src/app.service".toList) (by decide)
    revert this
    decide
  have e2 : rootPath segs ++ "/src/app.service".toList =
      (rootPath segs ++ "/src/".toList) ++ "app.service".toList := by
    rw [List.append_assoc]
    rfl
  rw [clearPath, tsSuffixRegex_eq, litAtEnd_replace_of_not_suffix _ _ _ hsuf, e2,
    RegExp.replace_lit_pfx]

omit hne h in
theorem scenario_filter_service :
    filterFile { re := Regex.lit (rootPath segs ++ "/src/".toList) }
        (rootPath segs ++ "/src/app.service".toList) = true := by
  rw [filterFile, RegExp.test_lit]
  refine ⟨[], "app.service".toList, ?_⟩
  rw [List.nil_append, List.append_assoc]
  rfl

omit hne in
theorem scenario_buildGraph :
    buildGraph { re := Regex.lit (rootPath segs ++ "/src/".toList) }
        [{ to_ := rootPath segs ++ "/src/app.module.ts".toList,
           imports := ["Foo".toList],
           from_ := rootPath segs ++ "/src/app.service".toList }] =
      [{ to_ := "app.module".toList, imports := ["Foo".toList],
         from_ := "app.service".toList }] := by
  simp only [buildGraph, List.map_cons, List.map_nil, scenario_backslash_service segs h,
    List.filter_cons, scenario_filter_service segs, if_true, List.filter_nil,
    scenario_clear_module segs h, scenario_clear_service segs]

/-- The graph of the scenario below any well-formed project root. -/
theorem scenarioGraph_eq :
    scenarioGraph segs =
      some [{ to_ := "app.module".toList, imports := ["Foo".toList],
              from_ := "app.service".toList }] := by
  unfold scenarioGraph
  rw [Env.make_scenario segs h, Option.some_bind, graph]
  show ((scenarioFS segs).readdirSync (rootPath segs ++ "/src".toList)).bind _ = _
  rw [scenario_readdir segs hne h, Option.some_bind]
  show (rawRecords _ _ (getFileList defaultIncludePattern defaultExcludePattern
    (rootPath segs ++ "/src".toList) scenarioSrc)).map _ = _
  rw [scenario_getFileList segs hne h, scenario_rawRecords segs hne h, Option.map_some']
  show some (buildGraph { re := Regex.lit (rootPath segs ++ "/src/".toList) } _) = _
  rw [scenario_buildGraph segs h]

end Scenario


/-! ## End to end -/

/-- C10: in the scenario, below every project root whose segments are not
empty and hold neither a separator nor a syntax character of regular
expressions, the pipeline yields exactly the nodes `app.module` (module color
`#ffcfcf`) and `app.service` (service color `#ffcfff`) and exactly one edge,
whose importing endpoint is `app.module`, whose target endpoint is
`app.service` and whose label is `Foo`. -/
theorem scenario_graph (rootSegments : List Str) (hne : rootSegments ≠ [])
    (hplain : ∀ seg ∈ rootSegments, isPlainSegment seg = true) :
    ∃ g, scenarioGraph rootSegments = some g ∧
      (createNodes g).map (fun n => (n.id, n.color)) =
        [("app.module".toList, some "#ffcfcf".toList),
         ("app.service".toList, some "#ffcfff".toList)] ∧
      (createEdges g).map (fun e => (e.to_, e.from_, e.label)) =
        [("app.module".toList, "app.service".toList, "Foo".toList)] :=
  ⟨_, scenarioGraph_eq rootSegments hne hplain, by decide!, by decide!⟩

/-- Witness for C10 (`scenario_graph`): the project root `/home/dev/shop`. -/
theorem scenario_graph_witness :
    rootPath ["home".toList, "dev".toList, "shop".toList] = "/home/dev/shop".toList ∧
    ∃ g, scenarioGraph ["home".toList, "dev".toList, "shop".toList] = some g ∧
      (createNodes g).map (fun n => (n.id, n.color)) =
        [("app.module".toList, some "#ffcfcf".toList),
         ("app.service".toList, some "#ffcfff".toList)] ∧
      (createEdges g).map (fun e => (e.to_, e.from_, e.label)) =
        [("app.module".toList, "app.service".toList, "Foo".toList)] :=
  ⟨by decide!, scenario_graph _ (by decide) (by decide!)⟩


/-! ## Soundness of the matcher for match derivations -/

theorem stepChar_some (p : Char → Bool) (s : MState) (k : Cont) (z : MState)
    (h : stepChar p s k = some z) :
    ∃ c t, s.rest = c :: t ∧ p c = true ∧ k ⟨c :: s.prev, t, s.caps⟩ = some z := by
  obtain ⟨prev, rest, caps⟩ := s
  cases rest with
  | nil => simp [stepChar] at h
  | cons c t =>
    simp only [stepChar] at h
    split_ifs at h with hp
    exact ⟨c, t, rfl, hp, h⟩

theorem starCont_apply (m : Matcher) (inner : List Nat) (g : Bool) (fuel : Nat) (x : MState)
    (c : Cont) (y : MState) :
    starCont m inner g fuel x c y =
      if y.rest.length = x.rest.length then none else repeatMatcher m inner g fuel 0 none y c := by
  simp [starCont]

theorem repeatMatcher_star_succ (m : Matcher) (inner : List Nat) (g : Bool) (fuel : Nat)
    (x : MState) (c : Cont) :
    repeatMatcher m inner g (fuel + 1) 0 none x c =
      if g then (m (x.clear inner) (starCont m inner g fuel x c)).orElse fun _ => c x
      else (c x).orElse fun _ => m (x.clear inner) (starCont m inner g fuel x c) := by
  cases g with
  | true =>
    show (match m (x.clear inner) (starCont m inner true fuel x c) with
      | some z => some z
      | none => c x) = _
    cases m (x.clear inner) (starCont m inner true fuel x c) <;> rfl
  | false =>
    show (match c x with
      | some z => some z
      | none => m (x.clear inner) (starCont m inner false fuel x c)) = _
    cases c x <;> rfl

theorem repeatMatcher_star_sound (ic ml g : Bool) (r : Regex)
    (hr : ∀ (s : MState) (k : Cont) (z : MState), r.matcher ic ml s k = some z →
      ∃ s1, Run ic ml r s s1 ∧ k s1 = some z) :
    ∀ (fuel : Nat) (x : MState) (c : Cont) (z : MState),
      repeatMatcher (r.matcher ic ml) r.groups g fuel 0 none x c = some z →
      ∃ s1, Run ic ml (.star g r) x s1 ∧ c s1 = some z
  | 0, _, _, _, h => by simp [repeatMatcher] at h
  | fuel + 1, x, c, z, h => by
    have step : ∀ z1, r.matcher ic ml (x.clear r.groups)
        (starCont (r.matcher ic ml) r.groups g fuel x c) = some z1 →
        ∃ s1, Run ic ml (.star g r) x s1 ∧ c s1 = some z1 := by
      intro z1 h1
      obtain ⟨y, hy, hk⟩ := hr _ _ _ h1
      by_cases hlen : y.rest.length = x.rest.length
      · simp [starCont_apply, hlen] at hk
      · simp only [starCont_apply, hlen, if_false] at hk
        obtain ⟨s1, hs1, hc⟩ := repeatMatcher_star_sound ic ml g r hr fuel y c z1 hk
        exact ⟨s1, Run.starStep g r x y s1 hy hlen hs1, hc⟩
    rw [repeatMatcher_star_succ] at h
    cases g with
    | true =>
      simp only [if_true] at h
      cases h1 : r.matcher ic ml (x.clear r.groups)
          (starCont (r.matcher ic ml) r.groups true fuel x c) with
      | some z1 =>
        rw [h1] at h
        cases h
        exact step _ h1
      | none =>
        rw [h1] at h
        exact ⟨x, Run.starDone _ r x, h⟩
    | false =>
      simp only [Bool.false_eq_true, if_false] at h
      cases h1 : c x with
      | some z1 =>
        rw [h1] at h
        cases h
        exact ⟨x, Run.starDone _ r x, h1⟩
      | none =>
        rw [h1] at h
        exact step _ h

theorem repeatMatcher_plus_sound (ic ml g : Bool) (r : Regex)
    (hr : ∀ (s : MState) (k : Cont) (z : MState), r.matcher ic ml s k = some z →
      ∃ s1, Run ic ml r s s1 ∧ k s1 = some z) :
    ∀ (fuel : Nat) (x : MState) (c : Cont) (z : MState),
      repeatMatcher (r.matcher ic ml) r.groups g fuel 1 none x c = some z →
      ∃ s1, Run ic ml (.plus g r) x s1 ∧ c s1 = some z
  | 0, _, _, _, h => by simp [repeatMatcher] at h
  | fuel + 1, x, c, z, h => by
    have h1 : r.matcher ic ml (x.clear r.groups)
        (fun y => repeatMatcher (r.matcher ic ml) r.groups g fuel 0 none y c) = some z := by
      have e : (fun y : MState => repeatMatcher (r.matcher ic ml) r.groups g fuel 0 none y c) =
          fun y : MState => if 1 = 0 ∧ y.rest.length = x.rest.length then none
            else repeatMatcher (r.matcher ic ml) r.groups g fuel (1 - 1)
              (Option.map (· - 1) none) y c := by
        funext y
        simp
      rw [e]
      exact h
    obtain ⟨y, hy, hk⟩ := hr _ _ _ h1
    obtain ⟨s1, hs1, hc⟩ := repeatMatcher_star_sound ic ml g r hr fuel y c z hk
    exact ⟨s1, Run.plus g r x y s1 hy hs1, hc⟩

theorem repeatMatcher_zero_max (m : Matcher) (inner : List Nat) (g : Bool) (fuel min : Nat)
    (x : MState) (c : Cont) (z : MState)
    (h : repeatMatcher m inner g fuel min (some 0) x c = some z) : c x = some z := by
  cases fuel with
  | zero => simp [repeatMatcher] at h
  | succ fuel => simpa [repeatMatcher] using h

theorem optCont_apply (m : Matcher) (inner : List Nat) (g : Bool) (fuel : Nat) (x : MState)
    (c : Cont) (y : MState) :
    optCont m inner g fuel x c y =
      if y.rest.length = x.rest.length then none
      else repeatMatcher m inner g fuel 0 (some 0) y c := by
  simp [optCont]

theorem repeatMatcher_opt_succ (m : Matcher) (inner : List Nat) (g : Bool) (fuel : Nat)
    (x : MState) (c : Cont) :
    repeatMatcher m inner g (fuel + 1) 0 (some 1) x c =
      if g then (m (x.clear inner) (optCont m inner g fuel x c)).orElse fun _ => c x
      else (c x).orElse fun _ => m (x.clear inner) (optCont m inner g fuel x c) := by
  cases g with
  | true =>
    show (match m (x.clear inner) (optCont m inner true fuel x c) with
      | some z => some z
      | none => c x) = _
    cases m (x.clear inner) (optCont m inner true fuel x c) <;> rfl
  | false =>
    show (match c x with
      | some z => some z
      | none => m (x.clear inner) (optCont m inner false fuel x c)) = _
    cases c x <;> rfl

theorem repeatMatcher_opt_sound (ic ml g : Bool) (r : Regex)
    (hr : ∀ (s : MState) (k : Cont) (z : MState), r.matcher ic ml s k = some z →
      ∃ s1, Run ic ml r s s1 ∧ k s1 = some z) :
    ∀ (fuel : Nat) (x : MState) (c : Cont) (z : MState),
      repeatMatcher (r.matcher ic ml) r.groups g fuel 0 (some 1) x c = some z →
      ∃ s1, Run ic ml (.opt g r) x s1 ∧ c s1 = some z
  | 0, _, _, _, h => by simp [repeatMatcher] at h
  | fuel + 1, x, c, z, h => by
    have step : ∀ z1, r.matcher ic ml (x.clear r.groups)
        (optCont (r.matcher ic ml) r.groups g fuel x c) = some z1 →
        ∃ s1, Run ic ml (.opt g r) x s1 ∧ c s1 = some z1 := by
      intro z1 h1
      obtain ⟨y, hy, hk⟩ := hr _ _ _ h1
      by_cases hlen : y.rest.length = x.rest.length
      · simp [optCont_apply, hlen] at hk
      · simp only [optCont_apply, hlen, if_false] at hk
        exact ⟨y, Run.optTake g r x y hy hlen, repeatMatcher_zero_max _ _ _ _ _ _ _ _ hk⟩
    rw [repeatMatcher_opt_succ] at h
    cases g with
    | true =>
      simp only [if_true] at h
      cases h1 : r.matcher ic ml (x.clear r.groups)
          (optCont (r.matcher ic ml) r.groups true fuel x c) with
      | some z1 =>
        rw [h1] at h
        cases h
        exact step _ h1
      | none =>
        rw [h1] at h
        exact ⟨x, Run.optSkip _ r x, h⟩
    | false =>
      simp only [Bool.false_eq_true, if_false] at h
      cases h1 : c x with
      | some z1 =>
        rw [h1] at h
        cases h
        exact ⟨x, Run.optSkip _ r x, h1⟩
      | none =>
        rw [h1] at h
        exact step _ h

/-- Soundness of the matcher: a successful match hands the end state of a
match derivation to its continuation, and returns what the continuation
returns there. -/
theorem Regex.matcher_sound (ic ml : Bool) :
    ∀ (r : Regex) (s : MState) (k : Cont) (z : MState), r.matcher ic ml s k = some z →
      ∃ s1, Run ic ml r s s1 ∧ k s1 = some z
  | .empty, s, k, z, h => ⟨s, Run.empty s, h⟩
  | .chr a, s, k, z, h => by
    obtain ⟨c, t, hrest, hp, hk⟩ := stepChar_some _ s k z h
    obtain ⟨prev, rest, caps⟩ := s
    cases hrest
    exact ⟨_, Run.chr a c prev t caps (by simpa using hp), hk⟩
  | .any, s, k, z, h => by
    obtain ⟨c, t, hrest, hp, hk⟩ := stepChar_some _ s k z h
    obtain ⟨prev, rest, caps⟩ := s
    cases hrest
    exact ⟨_, Run.any c prev t caps (by simpa using hp), hk⟩
  | .cls neg items, s, k, z, h => by
    obtain ⟨c, t, hrest, hp, hk⟩ := stepChar_some _ s k z h
    obtain ⟨prev, rest, caps⟩ := s
    cases hrest
    exact ⟨_, Run.cls neg items c prev t caps hp, hk⟩
  | .bol, s, k, z, h => by
    simp only [Regex.matcher] at h
    split_ifs at h with hc
    exact ⟨s, Run.bol s hc, h⟩
  | .eol, s, k, z, h => by
    simp only [Regex.matcher] at h
    split_ifs at h with hc
    exact ⟨s, Run.eol s hc, h⟩
  | .wordB, s, k, z, h => by
    simp only [Regex.matcher] at h
    split_ifs at h with hc
    exact ⟨s, Run.wordB s hc, h⟩
  | .notWordB, s, k, z, h => by
    simp only [Regex.matcher] at h
    split_ifs at h with hc
    exact ⟨s, Run.notWordB s hc, h⟩
  | .seq a b, s, k, z, h => by
    simp only [Regex.matcher] at h
    obtain ⟨s1, h1, hk1⟩ := Regex.matcher_sound ic ml a s _ z h
    obtain ⟨s2, h2, hk2⟩ := Regex.matcher_sound ic ml b s1 k z hk1
    exact ⟨s2, Run.seq a b s s1 s2 h1 h2, hk2⟩
  | .alt a b, s, k, z, h => by
    simp only [Regex.matcher] at h
    cases h1 : Regex.matcher ic ml a s k with
    | some z1 =>
      rw [h1] at h
      cases h
      obtain ⟨s1, hs1, hk1⟩ := Regex.matcher_sound ic ml a s k _ h1
      exact ⟨s1, Run.altL a b s s1 hs1, hk1⟩
    | none =>
      rw [h1] at h
      obtain ⟨s1, hs1, hk1⟩ := Regex.matcher_sound ic ml b s k _ h
      exact ⟨s1, Run.altR a b s s1 hs1, hk1⟩
  | .star g r, s, k, z, h =>
    repeatMatcher_star_sound ic ml g r (Regex.matcher_sound ic ml r) _ s k z h
  | .plus g r, s, k, z, h =>
    repeatMatcher_plus_sound ic ml g r (Regex.matcher_sound ic ml r) _ s k z h
  | .opt g r, s, k, z, h =>
    repeatMatcher_opt_sound ic ml g r (Regex.matcher_sound ic ml r) _ s k z h
  | .group i r, s, k, z, h => by
    simp only [Regex.matcher] at h
    obtain ⟨s1, h1, hk1⟩ := Regex.matcher_sound ic ml r s _ z h
    exact ⟨_, Run.group i r s s1 h1, hk1⟩


/-! ## Completeness of the matcher for match derivations -/

/-- A match derivation consumes a piece of the input ahead: the end state
has that piece, reversed, in front of what was consumed before. -/
theorem Run.zipper {ic ml : Bool} {r : Regex} {s s1 : MState} (h : Run ic ml r s s1) :
    ∃ w : Str, s.rest = w ++ s1.rest ∧ s1.prev = w.reverse ++ s.prev := by
  induction h with
  | empty s => exact ⟨[], rfl, rfl⟩
  | chr a c prev t caps h => exact ⟨[c], rfl, rfl⟩
  | any c prev t caps h => exact ⟨[c], rfl, rfl⟩
  | cls neg items c prev t caps h => exact ⟨[c], rfl, rfl⟩
  | bol s h => exact ⟨[], rfl, rfl⟩
  | eol s h => exact ⟨[], rfl, rfl⟩
  | wordB s h => exact ⟨[], rfl, rfl⟩
  | notWordB s h => exact ⟨[], rfl, rfl⟩
  | seq a b s s1 s2 _ _ iha ihb =>
    obtain ⟨w1, h1, h2⟩ := iha
    obtain ⟨w2, h3, h4⟩ := ihb
    exact ⟨w1 ++ w2, by rw [h1, h3, List.append_assoc],
      by rw [h4, h2, List.reverse_append, List.append_assoc]⟩
  | altL a b s s1 _ ih => exact ih
  | altR a b s s1 _ ih => exact ih
  | starDone g r s => exact ⟨[], rfl, rfl⟩
  | starStep g r s s1 s2 _ _ _ ihr ihs =>
    obtain ⟨w1, h1, h2⟩ := ihr
    obtain ⟨w2, h3, h4⟩ := ihs
    have h1a : s.rest = w1 ++ s1.rest := h1
    have h2a : s1.prev = w1.reverse ++ s.prev := h2
    exact ⟨w1 ++ w2, by rw [List.append_assoc, ← h3]; exact h1a,
      by rw [h4, h2a, List.reverse_append, List.append_assoc]⟩
  | plus g r s s1 s2 _ _ ihr ihs =>
    obtain ⟨w1, h1, h2⟩ := ihr
    obtain ⟨w2, h3, h4⟩ := ihs
    have h1a : s.rest = w1 ++ s1.rest := h1
    have h2a : s1.prev = w1.reverse ++ s.prev := h2
    exact ⟨w1 ++ w2, by rw [List.append_assoc, ← h3]; exact h1a,
      by rw [h4, h2a, List.reverse_append, List.append_assoc]⟩
  | optSkip g r s => exact ⟨[], rfl, rfl⟩
  | optTake g r s s1 _ _ ih => exact ih
  | group i r s s1 _ ih => exact ih

theorem Run.rest_length_le {ic ml : Bool} {r : Regex} {s s1 : MState} (h : Run ic ml r s s1) :
    s1.rest.length ≤ s.rest.length := by
  obtain ⟨w, h1, _⟩ := h.zipper
  rw [h1, List.length_append]
  omega

/-- Completeness of the matcher: when the continuation accepts the end state
of some match derivation, the match succeeds. -/
theorem Regex.matcher_complete {ic ml : Bool} {r : Regex} {s s1 : MState}
    (h : Run ic ml r s s1) :
    ∀ k : Cont, (k s1).isSome = true → (r.matcher ic ml s k).isSome = true := by
  induction h with
  | empty s => exact fun k hk => hk
  | chr a c prev t caps h =>
    intro k hk
    simpa [Regex.matcher, stepChar, h] using hk
  | any c prev t caps h =>
    intro k hk
    simpa [Regex.matcher, stepChar, h] using hk
  | cls neg items c prev t caps h =>
    intro k hk
    simpa [Regex.matcher, stepChar, h] using hk
  | bol s h =>
    intro k hk
    simp only [Regex.matcher, h, if_true]
    exact hk
  | eol s h =>
    intro k hk
    simp only [Regex.matcher, h, if_true]
    exact hk
  | wordB s h =>
    intro k hk
    simp only [Regex.matcher, h, if_true]
    exact hk
  | notWordB s h =>
    intro k hk
    simp only [Regex.matcher, h, if_true]
    exact hk
  | seq a b s s1 s2 _ _ iha ihb =>
    intro k hk
    simp only [Regex.matcher]
    exact iha _ (ihb k hk)
  | altL a b s s1 _ ih =>
    intro k hk
    simp only [Regex.matcher]
    have := ih k hk
    cases h1 : Regex.matcher ic ml a s k with
    | some z => rfl
    | none => simp [h1] at this
  | altR a b s s1 _ ih =>
    intro k hk
    simp only [Regex.matcher]
    cases h1 : Regex.matcher ic ml a s k with
    | some z => rfl
    | none => exact ih k hk
  | starDone g r s =>
    intro k hk
    rw [Regex.matcher_star_fuel ic ml g r s k (s.rest.length + 1) (by omega),
      repeatMatcher_star_succ]
    cases g with
    | true =>
      simp only [if_true]
      cases Regex.matcher ic ml r _ _ with
      | some z => rfl
      | none => exact hk
    | false =>
      simp only [Bool.false_eq_true, if_false]
      cases h1 : k s with
      | some z => rfl
      | none => simp [h1] at hk
  | starStep g r s s1 s2 hr hp hs ihr ihs =>
    intro k hk
    have hle : s1.rest.length ≤ s.rest.length := hr.rest_length_le
    have hlt : s1.rest.length < s.rest.length := lt_of_le_of_ne hle hp
    have hin : (Regex.matcher ic ml r (s.clear r.groups)
        (starCont (Regex.matcher ic ml r) r.groups g s.rest.length s k)).isSome = true := by
      apply ihr
      rw [starCont_apply, if_neg hp, ← Regex.matcher_star_fuel ic ml g r s1 k _ hlt]
      exact ihs k hk
    rw [Regex.matcher_star_fuel ic ml g r s k (s.rest.length + 1) (by omega),
      repeatMatcher_star_succ]
    cases g with
    | true =>
      simp only [if_true]
      cases h1 : Regex.matcher ic ml r (s.clear r.groups)
          (starCont (Regex.matcher ic ml r) r.groups true s.rest.length s k) with
      | some z => rfl
      | none => simp [h1] at hin
    | false =>
      simp only [Bool.false_eq_true, if_false]
      cases h1 : k s with
      | some z => rfl
      | none => exact hin
  | plus g r s s1 s2 hr hs ihr ihs =>
    intro k hk
    have hle : s1.rest.length ≤ s.rest.length := hr.rest_length_le
    have e : (fun y : MState => if 1 = 0 ∧ y.rest.length = s.rest.length then none
          else repeatMatcher (r.matcher ic ml) r.groups g (s.rest.length + 1) (1 - 1)
            (Option.map (· - 1) none) y k) =
        fun y : MState =>
          repeatMatcher (r.matcher ic ml) r.groups g (s.rest.length + 1) 0 none y k := by
      funext y
      simp
    have hin : (Regex.matcher ic ml r (s.clear r.groups) fun y =>
        repeatMatcher (r.matcher ic ml) r.groups g (s.rest.length + 1) 0 none y k).isSome =
        true := by
      apply ihr
      rw [← Regex.matcher_star_fuel ic ml g r s1 k _ (Nat.lt_succ_of_le hle)]
      exact ihs k hk
    rw [← e] at hin
    exact hin
  | optSkip g r s =>
    intro k hk
    rw [Regex.matcher_opt_fuel ic ml g r s k (s.rest.length + 1) (by omega),
      repeatMatcher_opt_succ]
    cases g with
    | true =>
      simp only [if_true]
      cases Regex.matcher ic ml r _ _ with
      | some z => rfl
      | none => exact hk
    | false =>
      simp only [Bool.false_eq_true, if_false]
      cases h1 : k s with
      | some z => rfl
      | none => simp [h1] at hk
  | optTake g r s s1 hr hp ihr =>
    intro k hk
    have hle : s1.rest.length ≤ s.rest.length := hr.rest_length_le
    have hlt : s1.rest.length < s.rest.length := lt_of_le_of_ne hle hp
    have hin : (Regex.matcher ic ml r (s.clear r.groups)
        (optCont (Regex.matcher ic ml r) r.groups g s.rest.length s k)).isSome = true := by
      apply ihr
      rw [optCont_apply, if_neg hp]
      obtain ⟨n, hn⟩ : ∃ n, s.rest.length = n + 1 := ⟨s.rest.length - 1, by omega⟩
      rw [hn]
      simpa [repeatMatcher] using hk
    rw [Regex.matcher_opt_fuel ic ml g r s k (s.rest.length + 1) (by omega),
      repeatMatcher_opt_succ]
    cases g with
    | true =>
      simp only [if_true]
      cases h1 : Regex.matcher ic ml r (s.clear r.groups)
          (optCont (Regex.matcher ic ml r) r.groups true s.rest.length s k) with
      | some z => rfl
      | none => simp [h1] at hin
    | false =>
      simp only [Bool.false_eq_true, if_false]
      cases h1 : k s with
      | some z => rfl
      | none => exact hin
  | group i r s s1 _ ih =>
    intro k hk
    simp only [Regex.matcher]
    exact ih _ hk


/-! ## Inversion of match derivations -/

theorem Run.empty_iff {ic ml : Bool} {s s1 : MState} : Run ic ml .empty s s1 ↔ s1 = s := by
  constructor
  · intro h
    cases h
    rfl
  · rintro rfl
    exact Run.empty _

theorem Run.chr_iff {ic ml : Bool} {a : Char} {s s1 : MState} :
    Run ic ml (.chr a) s s1 ↔
      ∃ c t, s.rest = c :: t ∧ canonicalize ic c = canonicalize ic a ∧
        s1 = ⟨c :: s.prev, t, s.caps⟩ := by
  constructor
  · intro h
    cases h with
    | chr _ c prev t caps h => exact ⟨c, t, rfl, h, rfl⟩
  · rintro ⟨c, t, h1, h2, rfl⟩
    obtain ⟨prev, rest, caps⟩ := s
    cases h1
    exact Run.chr a c prev t caps h2

theorem Run.any_iff {ic ml : Bool} {s s1 : MState} :
    Run ic ml .any s s1 ↔
      ∃ c t, s.rest = c :: t ∧ isLineTerminator c = false ∧ s1 = ⟨c :: s.prev, t, s.caps⟩ := by
  constructor
  · intro h
    cases h with
    | any c prev t caps h => exact ⟨c, t, rfl, h, rfl⟩
  · rintro ⟨c, t, h1, h2, rfl⟩
    obtain ⟨prev, rest, caps⟩ := s
    cases h1
    exact Run.any c prev t caps h2

theorem Run.cls_iff {ic ml neg : Bool} {items : List ClassItem} {s s1 : MState} :
    Run ic ml (.cls neg items) s s1 ↔
      ∃ c t, s.rest = c :: t ∧ classTest ic neg items c = true ∧
        s1 = ⟨c :: s.prev, t, s.caps⟩ := by
  constructor
  · intro h
    cases h with
    | cls _ _ c prev t caps h => exact ⟨c, t, rfl, h, rfl⟩
  · rintro ⟨c, t, h1, h2, rfl⟩
    obtain ⟨prev, rest, caps⟩ := s
    cases h1
    exact Run.cls neg items c prev t caps h2

theorem Run.eol_iff {ic ml : Bool} {s s1 : MState} :
    Run ic ml .eol s s1 ↔
      s1 = s ∧ (s.rest.isEmpty || (ml && headIsLineTerminator s.rest)) = true := by
  constructor
  · intro h
    cases h with
    | eol _ h => exact ⟨rfl, h⟩
  · rintro ⟨rfl, h⟩
    exact Run.eol _ h

theorem Run.wordB_iff {ic ml : Bool} {s s1 : MState} :
    Run ic ml .wordB s s1 ↔ s1 = s ∧ (headIsWord s.prev != headIsWord s.rest) = true := by
  constructor
  · intro h
    cases h with
    | wordB _ h => exact ⟨rfl, h⟩
  · rintro ⟨rfl, h⟩
    exact Run.wordB _ h

theorem Run.seq_iff {ic ml : Bool} {a b : Regex} {s s2 : MState} :
    Run ic ml (.seq a b) s s2 ↔ ∃ s1, Run ic ml a s s1 ∧ Run ic ml b s1 s2 := by
  constructor
  · intro h
    cases h with
    | seq _ _ _ s1 _ ha hb => exact ⟨s1, ha, hb⟩
  · rintro ⟨s1, ha, hb⟩
    exact Run.seq a b s s1 s2 ha hb

theorem Run.alt_iff {ic ml : Bool} {a b : Regex} {s s1 : MState} :
    Run ic ml (.alt a b) s s1 ↔ Run ic ml a s s1 ∨ Run ic ml b s s1 := by
  constructor
  · intro h
    cases h with
    | altL _ _ _ _ ha => exact Or.inl ha
    | altR _ _ _ _ hb => exact Or.inr hb
  · rintro (h | h)
    · exact Run.altL a b s s1 h
    · exact Run.altR a b s s1 h

theorem Run.star_iff {ic ml g : Bool} {r : Regex} {s s2 : MState} :
    Run ic ml (.star g r) s s2 ↔
      s2 = s ∨ ∃ s1, Run ic ml r (s.clear r.groups) s1 ∧ s1.rest.length ≠ s.rest.length ∧
        Run ic ml (.star g r) s1 s2 := by
  constructor
  · intro h
    cases h with
    | starDone => exact Or.inl rfl
    | starStep _ _ _ s1 _ hr hp hs => exact Or.inr ⟨s1, hr, hp, hs⟩
  · rintro (rfl | ⟨s1, hr, hp, hs⟩)
    · exact Run.starDone g r _
    · exact Run.starStep g r s s1 s2 hr hp hs

theorem Run.plus_iff {ic ml g : Bool} {r : Regex} {s s2 : MState} :
    Run ic ml (.plus g r) s s2 ↔
      ∃ s1, Run ic ml r (s.clear r.groups) s1 ∧ Run ic ml (.star g r) s1 s2 := by
  constructor
  · intro h
    cases h with
    | plus _ _ _ s1 _ hr hs => exact ⟨s1, hr, hs⟩
  · rintro ⟨s1, hr, hs⟩
    exact Run.plus g r s s1 s2 hr hs

theorem Run.opt_iff {ic ml g : Bool} {r : Regex} {s s1 : MState} :
    Run ic ml (.opt g r) s s1 ↔
      s1 = s ∨ (Run ic ml r (s.clear r.groups) s1 ∧ s1.rest.length ≠ s.rest.length) := by
  constructor
  · intro h
    cases h with
    | optSkip => exact Or.inl rfl
    | optTake _ _ _ _ hr hp => exact Or.inr ⟨hr, hp⟩
  · rintro (rfl | ⟨hr, hp⟩)
    · exact Run.optSkip g r _
    · exact Run.optTake g r s s1 hr hp

theorem Run.group_iff {ic ml : Bool} {i : Nat} {r : Regex} {s s2 : MState} :
    Run ic ml (.group i r) s s2 ↔
      ∃ s1, Run ic ml r s s1 ∧
        s2 = { s1 with caps := (i, s.rest.take (s.rest.length - s1.rest.length)) :: s1.caps } := by
  constructor
  · intro h
    cases h with
    | group _ _ _ s1 hr => exact ⟨s1, hr, rfl⟩
  · rintro ⟨s1, hr, rfl⟩
    exact Run.group i r s s1 hr

theorem Regex.lit_nil : Regex.lit [] = .empty := rfl

/-- A literal matches exactly the texts that agree with it up to the case
folding of the flags, and it records no capture. -/
theorem Run.lit_iff {ic ml : Bool} :
    ∀ {w : Str} {s s1 : MState}, Run ic ml (.lit w) s s1 ↔
      ∃ v : Str, v.map (canonicalize ic) = w.map (canonicalize ic) ∧
        s.rest = v ++ s1.rest ∧ s1 = ⟨v.reverse ++ s.prev, s1.rest, s.caps⟩
  | [], s, s1 => by
    rw [Regex.lit_nil, Run.empty_iff]
    constructor
    · rintro rfl
      exact ⟨[], rfl, rfl, rfl⟩
    · rintro ⟨v, hv, h1, h2⟩
      have : v = [] := by simpa using hv
      subst this
      rw [h2]
      obtain ⟨prev, rest, caps⟩ := s
      simp only [List.nil_append] at h1
      simp [h1]
  | c :: w, s, s1 => by
    rw [Regex.lit_cons, Run.seq_iff]
    constructor
    · rintro ⟨s0, h0, h1⟩
      obtain ⟨d, t, hd1, hd2, rfl⟩ := Run.chr_iff.1 h0
      obtain ⟨v, hv, hv1, hv2⟩ := Run.lit_iff.1 h1
      refine ⟨d :: v, by simp [hd2, hv], ?_, ?_⟩
      · rw [hd1]
        simp only at hv1
        rw [hv1]
        rfl
      · rw [hv2]
        simp
    · rintro ⟨v, hv, h1, h2⟩
      cases v with
      | nil => simp at hv
      | cons d v =>
        simp only [List.map_cons, List.cons.injEq] at hv
        refine ⟨⟨d :: s.prev, v ++ s1.rest, s.caps⟩, Run.chr_iff.2 ⟨d, _, h1, hv.1, rfl⟩, ?_⟩
        refine Run.lit_iff.2 ⟨v, hv.2, rfl, ?_⟩
        rw [h2]
        simp

theorem canonicalize_false (c : Char) : canonicalize false c = c := rfl

theorem map_canonicalize_false (w : Str) : w.map (canonicalize false) = w := by
  induction w with
  | nil => rfl
  | cons c w ih => simp [canonicalize_false, ih]

/-! ## Searching and match derivations -/

/-- A successful search found its match at some position of the input. -/
theorem RegExp.search_spec (r : RegExp) :
    ∀ (rest prev p : Str) (st : MState), r.search prev rest = some (p, st) →
      ∃ pre post : Str, rest = pre ++ post ∧ p = pre.reverse ++ prev ∧
        r.matchAt p post = some st
  | [], prev, p, st, h => by
    simp only [RegExp.search] at h
    cases hm : r.matchAt prev [] with
    | none => simp [hm] at h
    | some s1 =>
      simp only [hm, Option.map_some', Option.some.injEq, Prod.mk.injEq] at h
      obtain ⟨rfl, rfl⟩ := h
      exact ⟨[], [], rfl, rfl, hm⟩
  | c :: t, prev, p, st, h => by
    simp only [RegExp.search] at h
    cases hm : r.matchAt prev (c :: t) with
    | some s1 =>
      simp only [hm, Option.some.injEq, Prod.mk.injEq] at h
      obtain ⟨rfl, rfl⟩ := h
      exact ⟨[], c :: t, rfl, rfl, hm⟩
    | none =>
      simp only [hm] at h
      obtain ⟨pre, post, h1, h2, h3⟩ := RegExp.search_spec r t (c :: prev) p st h
      exact ⟨c :: pre, post, by rw [h1]; rfl, by rw [h2]; simp, h3⟩

/-- A match at some position of the input makes the search succeed. -/
theorem RegExp.search_isSome_of_matchAt (r : RegExp) :
    ∀ (pre post prev : Str), (r.matchAt (pre.reverse ++ prev) post).isSome = true →
      (r.search prev (pre ++ post)).isSome = true
  | [], post, prev, h => by
    simp only [List.reverse_nil, List.nil_append] at h ⊢
    cases post with
    | nil => simpa [RegExp.search] using h
    | cons c t =>
      simp only [RegExp.search]
      cases hm : r.matchAt prev (c :: t) with
      | some s1 => rfl
      | none => simp [hm] at h
  | c :: pre, post, prev, h => by
    simp only [List.cons_append, RegExp.search]
    cases hm : r.matchAt prev (c :: (pre ++ post)) with
    | some s1 => rfl
    | none =>
      apply RegExp.search_isSome_of_matchAt r pre post (c :: prev)
      simpa using h

/-- A pattern is found in a text exactly when it has a match derivation from
some position of the text. -/
theorem RegExp.test_iff_run (r : RegExp) (x : Str) :
    r.test x = true ↔
      ∃ (pre post : Str) (s1 : MState), x = pre ++ post ∧
        Run r.ignoreCase r.multiline r.re ⟨pre.reverse, post, []⟩ s1 := by
  constructor
  · intro h
    simp only [RegExp.test, RegExp.exec, Option.isSome_map'] at h
    cases hs : r.search [] x with
    | none => simp [hs] at h
    | some q =>
      obtain ⟨p, st⟩ := q
      obtain ⟨pre, post, h1, h2, h3⟩ := RegExp.search_spec r x [] p st hs
      obtain ⟨s1, hrun, _⟩ := Regex.matcher_sound _ _ _ _ _ _ h3
      rw [h2, List.append_nil] at hrun
      exact ⟨pre, post, s1, h1, hrun⟩
  · rintro ⟨pre, post, s1, rfl, hrun⟩
    simp only [RegExp.test, RegExp.exec, Option.isSome_map']
    apply RegExp.search_isSome_of_matchAt r pre post []
    rw [List.append_nil]
    exact Regex.matcher_complete hrun some rfl


/-! ## Case mapping of characters -/

theorem toUpper_eq_or_upper (c : Char) : c.toUpper = c ∨ c.toUpper ∈ upperLetters := by
  unfold Char.toUpper
  by_cases h : c.toNat ≥ 97 ∧ c.toNat ≤ 122
  · right
    simp only [h, and_self, if_true]
    obtain ⟨h1, h2⟩ := h
    interval_cases c.toNat <;> decide
  · left
    simp only [h, if_false]

theorem toLower_eq_or_lower (c : Char) : c.toLower = c ∨ c.toLower ∈ lowerLetters := by
  unfold Char.toLower
  by_cases h : c.toNat ≥ 65 ∧ c.toNat ≤ 90
  · right
    simp only [h, and_self, if_true]
    obtain ⟨h1, h2⟩ := h
    interval_cases c.toNat <;> decide
  · left
    simp only [h, if_false]

theorem letters_not_whiteSpace :
    ∀ c ∈ upperLetters ++ lowerLetters, isWhiteSpace c = false ∧ isLineTerminator c = false := by
  decide

theorem letters_ne (d : Char) (hd : d ∉ upperLetters ++ lowerLetters) :
    ∀ c ∈ upperLetters ++ lowerLetters, c ≠ d := by
  rintro c hc rfl
  exact hd hc

/-- The case mappings never make a whitespace character out of another
character. -/
theorem isWhiteSpace_of_toUpper (c : Char) (h : isWhiteSpace c.toUpper = true) :
    isWhiteSpace c = true := by
  rcases toUpper_eq_or_upper c with h1 | h1
  · rwa [h1] at h
  · have := (letters_not_whiteSpace _ (List.mem_append_left _ h1)).1
    rw [this] at h
    cases h

theorem isWhiteSpace_of_toLower (c : Char) (h : isWhiteSpace c.toLower = true) :
    isWhiteSpace c = true := by
  rcases toLower_eq_or_lower c with h1 | h1
  · rwa [h1] at h
  · have := (letters_not_whiteSpace _ (List.mem_append_right _ h1)).1
    rw [this] at h
    cases h

/-- A character that is no letter is matched, also under the `i` flag, by
itself alone. -/
theorem eq_of_toUpper_eq (c d : Char) (hd : d ∉ upperLetters ++ lowerLetters)
    (h : c.toUpper = d) : c = d := by
  rcases toUpper_eq_or_upper c with h1 | h1
  · rw [← h1, h]
  · rw [h] at h1
    exact absurd (List.mem_append_left _ h1) hd

theorem eq_of_toLower_eq (c d : Char) (hd : d ∉ upperLetters ++ lowerLetters)
    (h : c.toLower = d) : c = d := by
  rcases toLower_eq_or_lower c with h1 | h1
  · rw [← h1, h]
  · rw [h] at h1
    exact absurd (List.mem_append_right _ h1) hd

/-- The class `\s` under the `i` flag matches the whitespace characters. -/
theorem classTest_space (ic : Bool) (c : Char) :
    classTest ic false [.space] c = isWhiteSpace c := by
  cases ic with
  | false => simp [classTest, ClassItem.test]
  | true =>
    simp only [classTest, List.any_cons, List.any_nil, ClassItem.test, Bool.true_and,
      Bool.or_false, Bool.false_eq_true, if_false]
    cases h : isWhiteSpace c with
    | true => rfl
    | false =>
      cases h1 : isWhiteSpace c.toUpper with
      | true => rw [isWhiteSpace_of_toUpper c h1] at h; cases h
      | false =>
        cases h2 : isWhiteSpace c.toLower with
        | true => rw [isWhiteSpace_of_toLower c h2] at h; cases h
        | false => rfl


/-! ## Global replacement of a character class -/

theorem cls_matchAt_cons (ic ml g neg : Bool) (items : List ClassItem) (prev : Str) (c : Char)
    (t : Str) :
    RegExp.matchAt { re := .cls neg items, global := g, ignoreCase := ic, multiline := ml } prev
        (c :: t) =
      if classTest ic neg items c then some ⟨c :: prev, t, []⟩ else none := by
  simp [RegExp.matchAt, Regex.matcher, stepChar]

theorem cls_matchAt_nil (ic ml g neg : Bool) (items : List ClassItem) (prev : Str) :
    RegExp.matchAt { re := .cls neg items, global := g, ignoreCase := ic, multiline := ml } prev
        [] = none := by
  simp [RegExp.matchAt, Regex.matcher, stepChar]

/-- The global replacement copies a character at which the pattern does not
match and goes on behind it. -/
theorem RegExp.replaceAllFrom_cons_of_matchAt_none (r : RegExp) (repl : Str) (fuel : Nat)
    (prev : Str) (c : Char) (t : Str) (h : r.matchAt prev (c :: t) = none) :
    r.replaceAllFrom repl (fuel + 1) prev (c :: t) =
      c :: r.replaceAllFrom repl (fuel + 1) (c :: prev) t := by
  simp only [RegExp.replaceAllFrom, RegExp.search_cons_of_matchAt_none r prev c t h]
  cases hs : r.search (c :: prev) t with
  | none => rfl
  | some res =>
    obtain ⟨p, st⟩ := res
    have hl := (RegExp.search_lengths r t (c :: prev) p st hs).1
    simp only [List.length_cons] at hl
    have e : p.length - prev.length = (p.length - (prev.length + 1)) + 1 := by omega
    simp only [List.length_cons, e, List.take_succ_cons, List.cons_append]
    split_ifs
    · cases st.rest <;> rfl
    · rfl

/-- Replacing every character of a class by a fixed text. -/
theorem cls_replaceAllFrom (ic ml neg : Bool) (items : List ClassItem) (repl : Str)
    (hrepl : '$' ∉ repl) :
    ∀ (rest prev : Str) (fuel : Nat), rest.length < fuel →
      RegExp.replaceAllFrom
          { re := .cls neg items, global := true, ignoreCase := ic, multiline := ml } repl fuel
          prev rest =
        rest.flatMap fun c => if classTest ic neg items c then repl else [c]
  | [], prev, fuel, hf => by
    obtain ⟨f, rfl⟩ := Nat.exists_eq_succ_of_ne_zero (Nat.pos_iff_ne_zero.1 hf)
    simp [RegExp.replaceAllFrom, RegExp.search, cls_matchAt_nil]
  | c :: t, prev, fuel, hf => by
    obtain ⟨f, rfl⟩ := Nat.exists_eq_succ_of_ne_zero
      (Nat.pos_iff_ne_zero.1 (Nat.lt_of_le_of_lt (Nat.zero_le _) hf))
    simp only [List.length_cons, Nat.succ_eq_add_one, Nat.add_lt_add_iff_right] at hf
    by_cases hc : classTest ic neg items c = true
    · have hm := cls_matchAt_cons ic ml true neg items prev c t
      rw [if_pos hc] at hm
      have hs := RegExp.search_of_matchAt _ _ _ _ hm
      have hmt : matchedText prev ⟨c :: prev, t, []⟩ = [c] :=
        matchedText_append [c] prev t []
      simp only [RegExp.replaceAllFrom, hs, hmt, List.isEmpty_cons, Bool.false_eq_true, if_false,
        getSubstitution_of_no_dollar _ _ _ repl hrepl, Nat.sub_self, List.take_zero,
        List.nil_append, List.flatMap_cons, hc, if_true]
      rw [cls_replaceAllFrom ic ml neg items repl hrepl t (c :: prev) f hf]
    · have hm := cls_matchAt_cons ic ml true neg items prev c t
      rw [if_neg hc] at hm
      rw [RegExp.replaceAllFrom_cons_of_matchAt_none _ _ _ _ _ _ hm,
        cls_replaceAllFrom ic ml neg items repl hrepl t (c :: prev) (f + 1) (by omega)]
      simp [hc]

/-- The line-break pattern under the `i` flag matches CR and LF only. -/
theorem classTest_lineBreak (c : Char) :
    classTest true false [.chr '\r', .chr '\n'] c = (c = '\r' || c = '\n') := by
  have hr : '\r' ∉ upperLetters ++ lowerLetters := by decide
  have hn : '\n' ∉ upperLetters ++ lowerLetters := by decide
  by_cases h1 : c = '\r'
  · subst h1
    decide
  by_cases h2 : c = '\n'
  · subst h2
    decide
  have u1 : c.toUpper ≠ '\r' := fun e => h1 (eq_of_toUpper_eq c _ hr e)
  have u2 : c.toUpper ≠ '\n' := fun e => h2 (eq_of_toUpper_eq c _ hn e)
  have l1 : c.toLower ≠ '\r' := fun e => h1 (eq_of_toLower_eq c _ hr e)
  have l2 : c.toLower ≠ '\n' := fun e => h2 (eq_of_toLower_eq c _ hn e)
  simp [classTest, ClassItem.test, h1, h2, Ne.symm h1, Ne.symm h2, Ne.symm u1, Ne.symm u2,
    Ne.symm l1, Ne.symm l2]

/-- `text.replace(/[\r\n]/gi, " ")` puts a space for every CR and LF. -/
theorem lineBreakRegex_replace (text : Str) :
    lineBreakRegex.replace text [' '] = text.map spaceForLineBreak := by
  have h := cls_replaceAllFrom true false false [.chr '\r', .chr '\n'] [' '] (by decide) text []
    (text.length + 1) (Nat.lt_succ_self _)
  simp only [RegExp.replace, lineBreakRegex, if_true]
  rw [h]
  clear h
  induction text with
  | nil => rfl
  | cons c t ih =>
    rw [List.flatMap_cons, ih, List.map_cons, classTest_lineBreak]
    unfold spaceForLineBreak
    by_cases h1 : c = '\r'
    · simp [h1]
    · by_cases h2 : c = '\n'
      · simp [h2]
      · simp [h1, h2]

/-- `clause.replace(/[\{\}]/g, "")` removes every brace. -/
theorem braceRegex_replace (clause : Str) :
    braceRegex.replace clause [] = clause.filter fun c => !(c = '{' || c = '}') := by
  have h := cls_replaceAllFrom false false false [.chr '{', .chr '}'] [] (by decide) clause []
    (clause.length + 1) (Nat.lt_succ_self _)
  simp only [RegExp.replace, braceRegex, if_true]
  rw [h]
  clear h
  induction clause with
  | nil => rfl
  | cons c t ih =>
    rw [List.flatMap_cons, ih, List.filter_cons]
    by_cases h1 : c = '{'
    · simp [h1, classTest, ClassItem.test]
    · by_cases h2 : c = '}'
      · simp [h2, classTest, ClassItem.test]
      · simp [h1, h2, classTest, ClassItem.test, Ne.symm h1, Ne.symm h2]


/-! ## Alias-rooted resolution -/

/-- C13: when alias rewriting changes the specifier and a file exists at the
normalized join of the source directory and the rewritten specifier, as it is
or with `.ts` appended, `normalizImportPath` returns that normalized join; the
importing file plays no part in the result. -/
theorem normalizImportPath_alias_rooted (existsSync : Str → Bool) (sourceDirectory : Str)
    (aliasMapping : Obj Str) (path origin resolved : Str)
    (hres : resolveAlias aliasMapping path = some resolved) (hne : path ≠ resolved)
    (hex : existsSync (Path.normalize (sourceDirectory ++ '/' :: resolved)) = true ∨
      existsSync (Path.normalize (sourceDirectory ++ '/' :: resolved) ++ ".ts".toList) = true) :
    normalizImportPath existsSync sourceDirectory aliasMapping path origin =
        some (Path.normalize (sourceDirectory ++ '/' :: resolved)) ∧
    ∀ origin1 : Str,
      normalizImportPath existsSync sourceDirectory aliasMapping path origin1 =
        normalizImportPath existsSync sourceDirectory aliasMapping path origin := by
  constructor
  · simp only [String.toList] at hex
    rcases hex with hex | hex <;> simp [normalizImportPath, hres, hne, hex]
  · intro origin1
    simp [normalizImportPath, hres, hne]

/-- Witness for C13 (`normalizImportPath_alias_rooted`): the alias `@app/`
for `src/app/`, the specifier `@app/x` and a disk that holds only
`/root/src/app/x.ts`. -/
theorem normalizImportPath_alias_rooted_witness :
    resolveAlias [("@app/".toList, "src/app/".toList)] "@app/x".toList =
        some "src/app/x".toList ∧
    Path.normalize ("/root".toList ++ '/' :: "src/app/x".toList) = "/root/src/app/x".toList ∧
    (normalizImportPath (fun p => p = "/root/src/app/x.ts".toList) "/root".toList
        [("@app/".toList, "src/app/".toList)] "@app/x".toList "/root/src/a/b.ts".toList =
      some (Path.normalize ("/root".toList ++ '/' :: "src/app/x".toList)) ∧
     ∀ origin1 : Str,
      normalizImportPath (fun p => p = "/root/src/app/x.ts".toList) "/root".toList
          [("@app/".toList, "src/app/".toList)] "@app/x".toList origin1 =
        normalizImportPath (fun p => p = "/root/src/app/x.ts".toList) "/root".toList
          [("@app/".toList, "src/app/".toList)] "@app/x".toList "/root/src/a/b.ts".toList) :=
  ⟨by decide!, by decide!,
    normalizImportPath_alias_rooted _ _ _ _ _ "src/app/x".toList (by decide!) (by decide)
      (Or.inr (by decide!))⟩


/-! ## Canonical identifiers -/

theorem ts_not_suffix_src_append (R p : Str) (hp : ¬ ".ts".toList <:+ p) :
    ¬ ".ts".toList <:+ (R ++ "/src/".toList) ++ p := by
  intro hs
  rw [List.append_assoc] at hs
  have hs2 : ".ts".toList <:+ "/src/".toList ++ p :=
    List.suffix_of_suffix_length_le hs (List.suffix_append R _) (by simp)
  by_cases hlen : 3 ≤ p.length
  · exact hp (List.suffix_of_suffix_length_le hs2 (List.suffix_append _ p) (by simpa using hlen))
  · obtain ⟨t, ht⟩ := hs2
    have hl := congrArg List.length ht
    simp only [List.length_append, String.toList, String.length] at hl
    match p, hlen, ht, hl with
    | [], _, ht, hl =>
      match t, hl, ht with
      | [a, b], _, ht => simp at ht
    | [x], _, ht, hl =>
      match t, hl, ht with
      | [a, b, c], _, ht => simp at ht
    | [x, y], _, ht, hl =>
      match t, hl, ht with
      | [a, b, c, d], _, ht => simp at ht
    | x :: y :: z :: rest, hlen, _, _ => simp at hlen

/-- C19: for a project root without syntax characters of regular expressions
and a relative path that does not end in `.ts`, `clearPath` maps both
`<root>/src/<path>.ts` and `<root>/src/<path>` to the path itself. -/
theorem clearPath_canonical (root p : Str) (hroot : ∀ c ∈ root, isSyntaxChar c = false)
    (hp : ¬ ".ts".toList <:+ p) :
    ∃ re, sourceDirectoryRegex root = some re ∧
      clearPath re (root ++ "/src/".toList ++ p ++ ".ts".toList) = p ∧
      clearPath re (root ++ "/src/".toList ++ p) = p := by
  have hplain : ∀ c ∈ root ++ "/src/".toList, isSyntaxChar c = false := by
    intro c hc
    rcases List.mem_append.1 hc with hc | hc
    · exact hroot c hc
    · have hsrc : ∀ d ∈ "/src/".toList, isSyntaxChar d = false := by decide
      exact hsrc c hc
  refine ⟨{ re := Regex.lit (root ++ "/src/".toList) }, RegExp.compile_plain _ hplain, ?_, ?_⟩
  · rw [clearPath, tsSuffixRegex_eq, litAtEnd_replace_append, RegExp.replace_lit_pfx]
  · rw [clearPath, tsSuffixRegex_eq,
      litAtEnd_replace_of_not_suffix _ _ _ (ts_not_suffix_src_append root p hp),
      RegExp.replace_lit_pfx]

/-- Witness for C19 (`clearPath_canonical`): the root `/home/dev/shop` and
the path `cart/cart.service`. -/
theorem clearPath_canonical_witness :
    ∃ re, sourceDirectoryRegex "/home/dev/shop".toList = some re ∧
      clearPath re ("/home/dev/shop".toList ++ "/src/".toList ++ "cart/cart.service".toList ++
        ".ts".toList) = "cart/cart.service".toList ∧
      clearPath re ("/home/dev/shop".toList ++ "/src/".toList ++ "cart/cart.service".toList) =
        "cart/cart.service".toList :=
  clearPath_canonical _ _ (by decide) (by decide)

/-! ## What the filter keeps -/

/-- C20: the final graph is made of the records whose import target, once its
backslashes are replaced by `/`, contains a match of the source-directory
pattern, in their original order and with both endpoints cleaned; replacing
the importing files by anything else changes neither which records survive
nor their targets and bound names. -/
theorem buildGraph_filter_on_target (re : RegExp) (raw : List Record) :
    buildGraph re raw =
      (raw.filter fun r => re.test (backslashRegex.replace r.from_ ['/'])).map
        (fun r => ({ to_ := clearPath re (backslashRegex.replace r.to_ ['/']),
                     imports := r.imports,
                     from_ := clearPath re (backslashRegex.replace r.from_ ['/']) } : Record)) ∧
    ∀ f : Str → Str,
      (buildGraph re (raw.map fun r => { r with to_ := f r.to_ })).map
          (fun r => (r.imports, r.from_)) =
        (buildGraph re raw).map fun r => (r.imports, r.from_) := by
  have h1 : ∀ l : List Record, buildGraph re l =
      (l.filter fun r => re.test (backslashRegex.replace r.from_ ['/'])).map
        (fun r => ({ to_ := clearPath re (backslashRegex.replace r.to_ ['/']),
                     imports := r.imports,
                     from_ := clearPath re (backslashRegex.replace r.from_ ['/']) } : Record)) := by
    intro l
    simp only [buildGraph, List.filter_map, List.map_map, filterFile]
    rfl
  refine ⟨h1 raw, fun f => ?_⟩
  rw [h1, h1, List.filter_map, List.map_map, List.map_map, List.map_map]
  rfl


/-! ## Unresolved imports -/

/-- C12, as stated, fails: in the project whose file `src/main.ts` imports
`lodash`, the specifier falls back to itself and the final graph is empty: it
holds no node `lodash` and no edge to it. -/
theorem unresolved_import_is_filtered_out :
    unresolvedFS.readFileSync "/home/dev/shop/src/main.ts".toList =
        some "import _ from 'lodash';".toList ∧
    normalizImportPath unresolvedFS.existsSync "/home/dev/shop".toList [] "lodash".toList
        "/home/dev/shop/src/main.ts".toList = some "lodash".toList ∧
    unresolvedGraph = some [] ∧
    createNodes [] = [] ∧ createEdges [] = [] := by
  decide!

/-- C12, amended: an import statement whose specifier falls back to itself
and, once its backslashes are replaced by `/`, contains no match of the
source-directory pattern contributes nothing to the final graph: neither a
node nor an edge. -/
theorem unresolved_import_contributes_nothing (existsSync : Str → Bool)
    (sourceDirectory : Str) (aliasMapping : Obj Str) (re : RegExp) (imp file : Str)
    (data : MatchResult) (hexec : parseImportRegex.exec imp = some data)
    (hfall : normalizImportPath existsSync sourceDirectory aliasMapping
      ((data.cap 2).getD []) file = some ((data.cap 2).getD []))
    (hout : filterFile re (backslashRegex.replace ((data.cap 2).getD []) ['/']) = false) :
    (parseImport existsSync sourceDirectory aliasMapping imp file).map
        (fun r => (createNodes (buildGraph re [r]), createEdges (buildGraph re [r]))) =
      some ([], []) := by
  simp only [parseImport, hexec, hfall, Option.map_some', buildGraph, List.map_cons,
    List.map_nil, List.filter_cons, hout, List.filter_nil]
  rfl

/-- Witness for C12 (`unresolved_import_contributes_nothing`): the statement
`import _ from 'lodash';` in `/home/dev/shop/src/main.ts`. -/
theorem unresolved_import_contributes_nothing_witness :
    (parseImport unresolvedFS.existsSync "/home/dev/shop".toList []
        "import _ from 'lodash';".toList "/home/dev/shop/src/main.ts".toList).map
        (fun r => (createNodes (buildGraph { re := Regex.lit "/home/dev/shop/src/".toList } [r]),
          createEdges (buildGraph { re := Regex.lit "/home/dev/shop/src/".toList } [r]))) =
      some ([], []) :=
  unresolved_import_contributes_nothing _ _ _ _ _ _
    { pre := [], matched := "import _ from 'lodash';".toList, post := [],
      caps := [(2, "lodash".toList), (1, " _ ".toList)] }
    (by decide!) (by decide!) (by decide!)


/-! ## Node order -/

theorem indexedEntries_of_no_index {V : Type} :
    ∀ o : Obj V, (∀ e ∈ o, arrayIndex e.1 = none) → indexedEntries o = []
  | [], _ => rfl
  | e :: rest, h => by
    have he := h e (List.mem_cons_self _ _)
    have ih := indexedEntries_of_no_index rest fun x hx => h x (List.mem_cons_of_mem _ hx)
    simp only [indexedEntries, he, ih]

/-- An object without array-index keys is enumerated in creation order. -/
theorem Obj.ordered_of_no_index {V : Type} (o : Obj V) (h : ∀ e ∈ o, arrayIndex e.1 = none) :
    o.ordered = o := by
  unfold Obj.ordered
  rw [indexedEntries_of_no_index o h, List.map_nil, List.nil_append]
  apply List.filter_eq_self.2
  intro e he
  rw [h e he]
  rfl

theorem Obj.keys_set {V : Type} (o : Obj V) (k : Str) (v : V) (hk : k ≠ protoKey) :
    (o.set k v).map Prod.fst = noteFirst (o.map Prod.fst) k := by
  unfold noteFirst
  by_cases hmem : k ∈ o.map Prod.fst
  · rw [Obj.set_keys_of_mem o k v hk hmem, if_pos hmem]
  · rw [Obj.set_of_not_mem o k v hk hmem, if_neg hmem]
    simp only [List.map_append, List.map_cons, List.map_nil]

theorem foldl_nodeStep_keys :
    ∀ (g : List Record) (t : Obj Node), (∀ k ∈ endpoints g, k ≠ protoKey) →
      (g.foldl nodeStep t).map Prod.fst = (endpoints g).foldl noteFirst (t.map Prod.fst)
  | [], _, _ => rfl
  | r :: g, t, h => by
    have h1 : r.to_ ≠ protoKey := h _ (by simp [endpoints])
    have h2 : r.from_ ≠ protoKey := h _ (by simp [endpoints])
    have ih := foldl_nodeStep_keys g (nodeStep t r) fun k hk =>
      h k (by
        simp only [endpoints, List.flatMap_cons, List.mem_append] at hk ⊢
        exact Or.inr hk)
    rw [List.foldl_cons, ih]
    simp only [endpoints, List.flatMap_cons, List.cons_append, List.nil_append, List.foldl_cons,
      nodeStep, Obj.keys_set _ _ _ h1, Obj.keys_set _ _ _ h2]

theorem mem_of_mem_foldl_noteFirst :
    ∀ (ids seen : List Str) (x : Str), x ∈ ids.foldl noteFirst seen → x ∈ seen ∨ x ∈ ids
  | [], _, _, h => Or.inl h
  | k :: ids, seen, x, h => by
    rcases mem_of_mem_foldl_noteFirst ids (noteFirst seen k) x h with h1 | h1
    · unfold noteFirst at h1
      split_ifs at h1
      · exact Or.inl h1
      · rcases List.mem_append.1 h1 with h2 | h2
        · exact Or.inl h2
        · exact Or.inr (by simp [List.mem_singleton.1 h2])
    · exact Or.inr (List.mem_cons_of_mem _ h1)

/-- What `createNodes` guarantees about order: when no endpoint is an array
index or `__proto__`, the nodes come in the order in which their ids first
appear, the importing file of each edge before its target. -/
theorem createNodes_order_without_index (g : List Record)
    (h : ∀ k ∈ endpoints g, arrayIndex k = none ∧ k ≠ protoKey) :
    (createNodes g).map Node.id = firstAppearance (endpoints g) := by
  have hkeys : (nodeTable g).map Prod.fst = firstAppearance (endpoints g) := by
    have := foldl_nodeStep_keys g [] fun k hk => (h k hk).2
    simpa [nodeTable, firstAppearance] using this
  have hno : ∀ e ∈ nodeTable g, arrayIndex e.1 = none := by
    intro e he
    have hmem : e.1 ∈ firstAppearance (endpoints g) := by
      rw [← hkeys]
      exact List.mem_map.2 ⟨e, he, rfl⟩
    rcases mem_of_mem_foldl_noteFirst _ _ _ hmem with h0 | h0
    · cases h0
    · exact (h _ h0).1
  rw [createNodes_ids, Obj.ordered_of_no_index _ hno, hkeys]

/-- C16, at its failing input: for the edges from `main` to `2` and from
`main` to `1` (the file `src/main.ts` importing `./2` and `./1`),
`createNodes` returns the nodes `1`, `2`, `main`, while the order of first
appearance is `main`, `2`, `1`. -/
theorem createNodes_reorders_index_ids :
    (createNodes [{ to_ := "main".toList, imports := ["a".toList], from_ := "2".toList },
                  { to_ := "main".toList, imports := ["b".toList], from_ := "1".toList }]).map
        Node.id = ["1".toList, "2".toList, "main".toList] ∧
    firstAppearance
        (endpoints [{ to_ := "main".toList, imports := ["a".toList], from_ := "2".toList },
                    { to_ := "main".toList, imports := ["b".toList], from_ := "1".toList }]) =
      ["main".toList, "2".toList, "1".toList] := by
  decide!


/-! ## The alias table -/

theorem trailingStarRegex_eq : trailingStarRegex = litAtEnd ['*'] := rfl

/-- Replacing `/\*$/` by the empty string removes one trailing `*`. -/
theorem trailingStarRegex_replace (s : Str) :
    trailingStarRegex.replace s [] = dropTrailingStar s := by
  rw [trailingStarRegex_eq]
  unfold dropTrailingStar
  by_cases h : s.getLast? = some '*'
  · rw [if_pos h]
    have hs : s = s.dropLast ++ ['*'] := by
      have hne : s ≠ [] := by
        rintro rfl
        simp at h
      have h1 := List.dropLast_append_getLast hne
      rw [List.getLast?_eq_getLast _ hne, Option.some.injEq] at h
      rw [h] at h1
      exact h1.symm
    conv_lhs => rw [hs]
    exact litAtEnd_replace_append ['*'] s.dropLast
  · rw [if_neg h]
    apply litAtEnd_replace_of_not_suffix
    rintro ⟨t, rfl⟩
    simp at h

theorem Obj.get_of_mem {V : Type} :
    ∀ (o : Obj V) (e : Str × V), (o.map Prod.fst).Nodup → e ∈ o → o.get e.1 = some e.2
  | [], _, _, h => by cases h
  | p :: o, e, hnd, h => by
    rw [List.map_cons, List.nodup_cons] at hnd
    rcases List.mem_cons.1 h with rfl | h1
    · simp [Obj.get]
    · have hne : p.1 ≠ e.1 := by
        intro heq
        exact hnd.1 (heq ▸ List.mem_map.2 ⟨e, h1, rfl⟩)
      have ih := Obj.get_of_mem o e hnd.2 h1
      simp only [Obj.get] at ih ⊢
      rw [List.find?_cons_of_neg _ (by simpa using hne)]
      exact ih

theorem foldl_aliasStep (paths : Obj (List Str)) :
    ∀ (l : List (Str × List Str)) (m : Obj Str),
      (∀ e ∈ l, paths.get e.1 = some e.2 ∧ e.2 ≠ [] ∧ dropTrailingStar e.1 ≠ protoKey) →
      (m.map Prod.fst ++ l.map fun e => dropTrailingStar e.1).Nodup →
      (l.map Prod.fst).foldl (aliasStep paths) (some m) =
        some (m ++ l.map fun e => (dropTrailingStar e.1, dropTrailingStar (e.2.headD [])))
  | [], m, _, _ => by simp
  | e :: l, m, h, hnd => by
    obtain ⟨hget, hne, hproto⟩ := h e (List.mem_cons_self _ _)
    obtain ⟨r0, rs, hr⟩ := List.exists_cons_of_ne_nil hne
    have hnot : dropTrailingStar e.1 ∉ m.map Prod.fst := by
      intro hmem
      have := (List.nodup_append.1 hnd).2.2
      exact this hmem (by simp)
    have hstep : aliasStep paths (some m) e.1 =
        some (m ++ [(dropTrailingStar e.1, dropTrailingStar (e.2.headD []))]) := by
      simp only [aliasStep, Option.some_bind, hget, Option.getD_some, hr,
        trailingStarRegex_replace, List.headD_cons]
      rw [Obj.set_of_not_mem m _ _ hproto hnot]
    rw [List.map_cons, List.foldl_cons, hstep,
      foldl_aliasStep paths l _ (fun x hx => h x (List.mem_cons_of_mem _ hx))]
    · simp
    · simpa [List.append_assoc] using hnd

/-- C17, counterexample: the table with the entries `@app*` to `src/app*`
and `@app` to `src/index` satisfies the claim's condition, and both aliases
are `@app` once the trailing `*` is removed; the mapping returned holds
`src/index` under `@app`, not `src/app` as the claim requires for the first
entry. -/
theorem getTsConfigPaths_alias_collision :
    getTsConfigPaths (.loaded (some
        [("@app*".toList, ["src/app*".toList]), ("@app".toList, ["src/index".toList])])) =
      some [("@app".toList, "src/index".toList)] ∧
    dropTrailingStar "@app*".toList = "@app".toList ∧
    dropTrailingStar "src/app*".toList = "src/app".toList ∧
    (Obj.get [("@app".toList, "src/index".toList)] "@app".toList) ≠ some "src/app".toList := by
  decide!

/-- Without collision: for a `paths` table whose entries each have a
non-empty replacement list and whose aliases stay distinct, and other than
`__proto__`, once one trailing `*` is removed, `getTsConfigPaths` returns the
mapping that has, for each entry in `Object.keys` order, the alias with one
trailing `*` removed mapped to the first replacement with one trailing `*`
removed. -/
theorem getTsConfigPaths_of_distinct_aliases (paths : Obj (List Str))
    (hne : ∀ e ∈ paths, e.2 ≠ [])
    (hnd : (paths.map fun e => dropTrailingStar e.1).Nodup)
    (hproto : ∀ e ∈ paths, dropTrailingStar e.1 ≠ protoKey) :
    getTsConfigPaths (.loaded (some paths)) =
        some (paths.ordered.map fun e => (dropTrailingStar e.1, dropTrailingStar (e.2.headD []))) ∧
    (∀ m, getTsConfigPaths (.loaded (some paths)) = some m →
      (∀ e ∈ paths, m.get (dropTrailingStar e.1) = some (dropTrailingStar (e.2.headD []))) ∧
      (∀ k ∈ m.keys, ∃ e ∈ paths, k = dropTrailingStar e.1)) ∧
    getTsConfigPaths .failed = some [] ∧ getTsConfigPaths (.loaded none) = some [] := by
  have hperm := Obj.ordered_perm paths
  have hkeys : (paths.map Prod.fst).Nodup := by
    have : (paths.map fun e => dropTrailingStar e.1) = (paths.map Prod.fst).map dropTrailingStar := by
      simp
    rw [this] at hnd
    exact hnd.of_map _
  have hmain : getTsConfigPaths (.loaded (some paths)) =
      some (paths.ordered.map fun e =>
        (dropTrailingStar e.1, dropTrailingStar (e.2.headD []))) := by
    have h := foldl_aliasStep paths paths.ordered []
      (fun e he => ⟨Obj.get_of_mem paths e hkeys (hperm.mem_iff.1 he),
        hne e (hperm.mem_iff.1 he), hproto e (hperm.mem_iff.1 he)⟩)
      (by
        simp only [List.map_nil, List.nil_append]
        exact (hperm.map _).nodup_iff.2 hnd)
    simpa [getTsConfigPaths, Obj.keys] using h
  refine ⟨hmain, ?_, rfl, rfl⟩
  intro m hm
  rw [hmain, Option.some.injEq] at hm
  subst hm
  constructor
  · intro e he
    have hmem : (dropTrailingStar e.1, dropTrailingStar (e.2.headD [])) ∈
        paths.ordered.map fun e => (dropTrailingStar e.1, dropTrailingStar (e.2.headD [])) :=
      List.mem_map.2 ⟨e, hperm.mem_iff.2 he, rfl⟩
    refine Obj.get_of_mem _ _ ?_ hmem
    rw [List.map_map]
    exact (hperm.map _).nodup_iff.2 hnd
  · intro k hk
    have hk1 : k ∈ (paths.ordered.map fun e =>
        (dropTrailingStar e.1, dropTrailingStar (e.2.headD []))).map Prod.fst := by
      have hp := (Obj.ordered_perm (paths.ordered.map fun e =>
        (dropTrailingStar e.1, dropTrailingStar (e.2.headD [])))).map Prod.fst
      exact hp.mem_iff.1 hk
    rw [List.map_map] at hk1
    obtain ⟨e, he, rfl⟩ := List.mem_map.1 hk1
    exact ⟨e, hperm.mem_iff.1 he, rfl⟩


/-! ## The alias table when stripped aliases coincide -/

theorem Obj.get_set_self {V : Type} (o : Obj V) (k : Str) (v : V) (hk : k ≠ protoKey) :
    (o.set k v).get k = some v := by
  unfold Obj.set
  rw [if_neg hk]
  split_ifs with hany
  · simp only [List.any_eq_true, decide_eq_true_eq] at hany
    induction o with
    | nil =>
      obtain ⟨p, hp, _⟩ := hany
      cases hp
    | cons q o ih =>
      by_cases hq : q.1 = k
      · simp [Obj.get, hq]
      · have hrest : ∃ x ∈ o, x.1 = k := by
          obtain ⟨p, hp, hpk⟩ := hany
          rcases List.mem_cons.1 hp with rfl | hp1
          · exact absurd hpk hq
          · exact ⟨p, hp1, hpk⟩
        have := ih hrest
        simp only [Obj.get] at this ⊢
        rw [List.map_cons, if_neg hq, List.find?_cons_of_neg _ (by simpa using hq)]
        exact this
  · have hnone : o.find? (fun p => decide (p.1 = k)) = none := by
      rw [List.find?_eq_none]
      intro x hx hxk
      apply hany
      simp only [List.any_eq_true]
      exact ⟨x, hx, hxk⟩
    simp [Obj.get, List.find?_append, hnone]

theorem Obj.get_set_ne {V : Type} (o : Obj V) (k k1 : Str) (v : V) (hne : k ≠ k1) :
    (o.set k1 v).get k = o.get k := by
  unfold Obj.set
  split_ifs with hp hany
  · rfl
  · clear hany
    induction o with
    | nil => rfl
    | cons q o ih =>
      simp only [Obj.get] at ih ⊢
      by_cases hq : q.1 = k1
      · have hqk : ¬ q.1 = k := fun e => hne (e.symm.trans hq)
        rw [List.map_cons, if_pos hq, List.find?_cons_of_neg _ (by simpa using Ne.symm hne),
          List.find?_cons_of_neg _ (by simpa using hqk)]
        exact ih
      · rw [List.map_cons, if_neg hq]
        by_cases hqk : q.1 = k
        · simp [hqk]
        · rw [List.find?_cons_of_neg _ (by simpa using hqk),
            List.find?_cons_of_neg _ (by simpa using hqk)]
          exact ih
  · simp only [Obj.get, List.find?_append]
    cases o.find? (fun p => decide (p.1 = k)) with
    | some x => rfl
    | none => simp [Ne.symm hne]

theorem Obj.get_of_mem_keys {V : Type} :
    ∀ (o : Obj V) (a : Str), a ∈ o.map Prod.fst → ∃ v, o.get a = some v ∧ (a, v) ∈ o
  | [], _, h => by cases h
  | q :: o, a, h => by
    by_cases hq : q.1 = a
    · refine ⟨q.2, by simp [Obj.get, hq], ?_⟩
      rw [← hq]
      exact List.mem_cons_self _ _
    · have hmem : a ∈ o.map Prod.fst := by
        rcases List.mem_cons.1 h with h1 | h1
        · exact absurd h1.symm hq
        · exact h1
      obtain ⟨v, hv, hin⟩ := Obj.get_of_mem_keys o a hmem
      refine ⟨v, ?_, List.mem_cons_of_mem _ hin⟩
      simp only [Obj.get] at hv ⊢
      rw [List.find?_cons_of_neg _ (by simpa using hq)]
      exact hv

/-- The rounds of `getTsConfigPaths` never throw when every replacement list
read is non-empty: they are assignments to the mapping, one per alias. -/
theorem foldl_aliasStep_assign (paths : Obj (List Str)) :
    ∀ (l : List Str) (m : Obj Str), (∀ a ∈ l, (paths.get a).getD [] ≠ []) →
      l.foldl (aliasStep paths) (some m) =
        some (l.foldl (fun m a => m.set (dropTrailingStar a) (aliasTarget paths a)) m)
  | [], _, _ => rfl
  | a :: l, m, h => by
    have ha := h a (List.mem_cons_self _ _)
    obtain ⟨r0, rs, hr⟩ := List.exists_cons_of_ne_nil ha
    have hstep : aliasStep paths (some m) a =
        some (m.set (dropTrailingStar a) (aliasTarget paths a)) := by
      simp only [aliasStep, Option.some_bind, hr, trailingStarRegex_replace, aliasTarget,
        List.headD_cons]
    rw [List.foldl_cons, hstep, List.foldl_cons,
      foldl_aliasStep_assign paths l _ fun x hx => h x (List.mem_cons_of_mem _ hx)]

/-- After the assignments for the aliases of a list, the mapping has the
stripped aliases other than `__proto__` as its keys, and under each key the
value assigned for the last alias that strips to the key. -/
theorem foldl_assign_last (paths : Obj (List Str)) :
    ∀ (l l0 : List Str) (m : Obj Str),
      (∀ k, k ∈ m.map Prod.fst ↔ k ≠ protoKey ∧ ∃ a ∈ l0, dropTrailingStar a = k) →
      (∀ k, k ≠ protoKey → m.get k =
        ((l0.filter fun a => dropTrailingStar a = k).getLast?).map (aliasTarget paths)) →
      (∀ k, k ∈ (l.foldl (fun m a => m.set (dropTrailingStar a) (aliasTarget paths a)) m).map
          Prod.fst ↔ k ≠ protoKey ∧ ∃ a ∈ l0 ++ l, dropTrailingStar a = k) ∧
      (∀ k, k ≠ protoKey →
        (l.foldl (fun m a => m.set (dropTrailingStar a) (aliasTarget paths a)) m).get k =
          (((l0 ++ l).filter fun a => dropTrailingStar a = k).getLast?).map (aliasTarget paths))
  | [], l0, m, h1, h2 => by
    simp only [List.foldl_nil, List.append_nil]
    exact ⟨h1, h2⟩
  | a :: l, l0, m, h1, h2 => by
    have key := foldl_assign_last paths l (l0 ++ [a])
      (m.set (dropTrailingStar a) (aliasTarget paths a)) ?_ ?_
    · simpa only [List.foldl_cons, List.append_assoc, List.singleton_append] using key
    · intro k
      by_cases hp : dropTrailingStar a = protoKey
      · rw [hp, Obj.set_proto, h1 k]
        constructor
        · rintro ⟨hk, b, hb, hbk⟩
          exact ⟨hk, b, List.mem_append_left _ hb, hbk⟩
        · rintro ⟨hk, b, hb, hbk⟩
          refine ⟨hk, b, ?_, hbk⟩
          rcases List.mem_append.1 hb with hb | hb
          · exact hb
          · rw [List.mem_singleton.1 hb, hp] at hbk
            exact absurd hbk.symm hk
      · rw [Obj.mem_keys_set _ _ _ hp, h1 k]
        constructor
        · rintro (⟨hk, b, hb, hbk⟩ | rfl)
          · exact ⟨hk, b, List.mem_append_left _ hb, hbk⟩
          · exact ⟨hp, a, by simp, rfl⟩
        · rintro ⟨hk, b, hb, hbk⟩
          rcases List.mem_append.1 hb with hb | hb
          · exact Or.inl ⟨hk, b, hb, hbk⟩
          · rw [List.mem_singleton.1 hb] at hbk
            exact Or.inr hbk.symm
    · intro k hk
      by_cases hak : dropTrailingStar a = k
      · subst hak
        rw [Obj.get_set_self _ _ _ hk, List.filter_append]
        simp
      · have hp : (m.set (dropTrailingStar a) (aliasTarget paths a)).get k = m.get k := by
          by_cases hproto : dropTrailingStar a = protoKey
          · rw [hproto, Obj.set_proto]
          · exact Obj.get_set_ne _ _ _ _ (Ne.symm hak)
        rw [hp, h2 k hk, List.filter_append]
        simp [hak]


/-- C17, amended: for a `paths` table whose entries each have a non-empty
replacement list, `getTsConfigPaths` returns a mapping whose keys are the
aliases with one trailing `*` removed, `__proto__` left out, and no others;
under each key it holds the first replacement, with one trailing `*` removed,
of the last alias in `Object.keys` order that gives this key, so that of
several aliases that coincide once stripped the last one decides; the later
replacements play no part.  When the stripped aliases are pairwise distinct
and other than `__proto__`, every entry is found under its stripped alias.
When the configuration cannot be loaded, or holds no `paths` table, the
mapping is empty. -/
theorem getTsConfigPaths_last_alias_wins (paths : Obj (List Str))
    (hne : ∀ e ∈ paths, e.2 ≠ []) :
    ∃ m : Obj Str, getTsConfigPaths (.loaded (some paths)) = some m ∧
      (∀ k, k ∈ m.keys ↔ k ≠ protoKey ∧ ∃ a ∈ paths.keys, dropTrailingStar a = k) ∧
      (∀ k, k ≠ protoKey → m.get k =
        ((paths.keys.filter fun a => dropTrailingStar a = k).getLast?).map
          (aliasTarget paths)) ∧
      ((paths.map fun e => dropTrailingStar e.1).Nodup →
        (∀ e ∈ paths, dropTrailingStar e.1 ≠ protoKey) →
        ∀ e ∈ paths, m.get (dropTrailingStar e.1) = some (dropTrailingStar (e.2.headD []))) ∧
      getTsConfigPaths .failed = some [] ∧ getTsConfigPaths (.loaded none) = some [] := by
  have hread : ∀ a ∈ paths.keys, (paths.get a).getD [] ≠ [] := by
    intro a ha
    have hmem : a ∈ paths.map Prod.fst :=
      ((Obj.ordered_perm paths).map Prod.fst).mem_iff.1 ha
    obtain ⟨v, hv, hin⟩ := Obj.get_of_mem_keys paths a hmem
    rw [hv, Option.getD_some]
    exact hne _ hin
  have hrun : getTsConfigPaths (.loaded (some paths)) =
      some (paths.keys.foldl
        (fun (m : Obj Str) a => m.set (dropTrailingStar a) (aliasTarget paths a)) []) :=
    foldl_aliasStep_assign paths paths.keys [] hread
  obtain ⟨hk, hg⟩ := foldl_assign_last paths paths.keys [] [] (by simp) (by simp [Obj.get])
  rw [List.nil_append] at hk hg
  refine ⟨_, hrun, ?_, hg, ?_, rfl, rfl⟩
  · intro k
    rw [← hk k]
    exact ((Obj.ordered_perm _).map Prod.fst).mem_iff
  · intro hnd hproto e he
    have h := (getTsConfigPaths_of_distinct_aliases paths hne hnd hproto).2.1 _ hrun
    exact h.1 e he

theorem getTsConfigPaths_last_alias_wins_witness :
    ∃ m : Obj Str,
      getTsConfigPaths (.loaded (some
        [("@app*".toList, ["src/app*".toList]), ("@app".toList, ["src/index".toList])])) =
        some m ∧
      m.get "@app".toList = some "src/index".toList := by
  obtain ⟨m, hm, _, hget, _⟩ := getTsConfigPaths_last_alias_wins
    [("@app*".toList, ["src/app*".toList]), ("@app".toList, ["src/index".toList])] (by decide!)
  exact ⟨m, hm, (hget "@app".toList (by decide!)).trans (by decide!)⟩


/-! ## Node colours -/

theorem Run.lit_iff_consumed {ml : Bool} {w : Str} {s s1 : MState} :
    Run false ml (.lit w) s s1 ↔ Consumed w s s1 := by
  rw [Run.lit_iff]
  constructor
  · rintro ⟨v, hv, h1, h2⟩
    rw [map_canonicalize_false, map_canonicalize_false] at hv
    subst hv
    exact ⟨h1, h2⟩
  · rintro ⟨h1, h2⟩
    exact ⟨w, rfl, h1, h2⟩

theorem MState.clear_nil (s : MState) : s.clear [] = s := by
  obtain ⟨prev, rest, caps⟩ := s
  simp [MState.clear]

theorem Consumed.rest_length {w : Str} {s s1 : MState} (h : Consumed w s s1) :
    s.rest.length = w.length + s1.rest.length := by
  rw [h.1, List.length_append]

theorem Consumed.append {v w : Str} {s s1 s2 : MState} (h1 : Consumed v s s1)
    (h2 : Consumed w s1 s2) : Consumed (v ++ w) s s2 := by
  obtain ⟨a, b⟩ := h1
  obtain ⟨c, d⟩ := h2
  refine ⟨by rw [a, c, List.append_assoc], ?_⟩
  rw [d, b]
  simp

theorem Run.chr_iff_consumed {ml : Bool} {c : Char} {s s1 : MState} :
    Run false ml (.chr c) s s1 ↔ Consumed [c] s s1 := by
  have h := @Run.lit_iff_consumed ml [c] s s1
  rw [Regex.lit_cons, Regex.lit_nil, Run.seq_iff] at h
  rw [← h]
  constructor
  · intro h1
    exact ⟨s1, h1, Run.empty _⟩
  · rintro ⟨s0, h1, h2⟩
    rw [Run.empty_iff.1 h2]
    exact h1

/-- A word with an optional last letter consumes the word, or the word and
the letter. -/
theorem Run.lit_opt_iff {ml g : Bool} {w : Str} {c : Char} {s s2 : MState} :
    Run false ml (.seq (.lit w) (.opt g (.chr c))) s s2 ↔
      Consumed w s s2 ∨ Consumed (w ++ [c]) s s2 := by
  rw [Run.seq_iff]
  constructor
  · rintro ⟨s1, h1, h2⟩
    rw [Run.lit_iff_consumed] at h1
    rcases Run.opt_iff.1 h2 with rfl | ⟨h3, _⟩
    · exact Or.inl h1
    · have h4 : Run false ml (.chr c) s1 s2 := by
        have := h3
        simp only [Regex.groups, MState.clear_nil] at this
        exact this
      exact Or.inr (h1.append (Run.chr_iff_consumed.1 h4))
  · rintro (h | h)
    · exact ⟨s2, Run.lit_iff_consumed.2 h, Run.optSkip _ _ _⟩
    · obtain ⟨h1, h2⟩ := h
      refine ⟨⟨w.reverse ++ s.prev, c :: s2.rest, s.caps⟩, Run.lit_iff_consumed.2 ⟨?_, rfl⟩, ?_⟩
      · rw [h1]
        simp
      · apply Run.optTake
        · simp only [Regex.groups, MState.clear_nil]
          apply Run.chr_iff_consumed.2
          refine ⟨rfl, ?_⟩
          rw [h2]
          simp
        · simp

/-- A pattern `text$` without flags is found exactly in the strings that end
with the text. -/
theorem RegExp.test_lit_eol (w x : Str) :
    RegExp.test { re := .seq (.lit w) .eol } x = true ↔ w <:+ x := by
  rw [RegExp.test_iff_run]
  constructor
  · rintro ⟨pre, post, s2, rfl, h⟩
    obtain ⟨s1, h1, h2⟩ := Run.seq_iff.1 h
    obtain ⟨h3, _⟩ := Run.lit_iff_consumed.1 h1
    obtain ⟨rfl, h4⟩ := Run.eol_iff.1 h2
    simp only [Bool.false_and, Bool.or_false, List.isEmpty_iff] at h4
    simp only at h3
    rw [h3, h4, List.append_nil]
    exact List.suffix_append _ _
  · rintro ⟨pre, rfl⟩
    refine ⟨pre, w, ⟨w.reverse ++ pre.reverse, [], []⟩, rfl, ?_⟩
    refine Run.seq_iff.2 ⟨_, Run.lit_iff_consumed.2 ⟨by simp, rfl⟩, Run.eol _ rfl⟩

/-- The alternation of the state-layer rule consumes exactly one of the
listed words. -/
theorem Run.stateLayer_iff {ml : Bool} {s s1 : MState} :
    Run false ml
      (.alt (.seq (.lit "effect".toList) (.opt true (.chr 's')))
      (.alt (.seq (.lit "selector".toList) (.opt true (.chr 's')))
      (.alt (.seq (.lit "action".toList) (.opt true (.chr 's')))
      (.alt (.seq (.lit "reducer".toList) (.opt true (.chr 's')))
      (.alt (.lit "state".toList) (.lit "facade".toList)))))) s s1 ↔
      ∃ w ∈ stateLayerWords, Consumed w s s1 := by
  simp only [Run.alt_iff, Run.lit_opt_iff, Run.lit_iff_consumed, stateLayerWords,
    List.mem_cons, List.mem_singleton, exists_eq_or_imp, exists_eq_left, List.not_mem_nil,
    false_and, exists_false, or_false]
  have e1 : "effect".toList ++ ['s'] = "effects".toList := rfl
  have e2 : "selector".toList ++ ['s'] = "selectors".toList := rfl
  have e3 : "action".toList ++ ['s'] = "actions".toList := rfl
  have e4 : "reducer".toList ++ ['s'] = "reducers".toList := rfl
  rw [e1, e2, e3, e4]
  tauto

/-- The state-layer pattern is found exactly in the strings that end with
one of the listed words. -/
theorem stateLayerRegex_test (x : Str) :
    stateLayerRegex.test x = true ↔ ∃ w ∈ stateLayerWords, w <:+ x := by
  rw [RegExp.test_iff_run]
  constructor
  · rintro ⟨pre, post, s2, rfl, h⟩
    obtain ⟨s1, h1, h2⟩ := Run.seq_iff.1 h
    obtain ⟨s0, h0, rfl⟩ := Run.group_iff.1 h1
    obtain ⟨w, hw, h3, _⟩ := Run.stateLayer_iff.1 h0
    obtain ⟨_, h4⟩ := Run.eol_iff.1 h2
    simp only [stateLayerRegex, Bool.false_and, Bool.or_false, List.isEmpty_iff] at h4
    simp only at h3
    refine ⟨w, hw, ?_⟩
    rw [h3, h4, List.append_nil]
    exact List.suffix_append _ _
  · rintro ⟨w, hw, pre, rfl⟩
    refine ⟨pre, w, _, rfl, Run.seq_iff.2 ⟨_, Run.group_iff.2
      ⟨⟨w.reverse ++ pre.reverse, [], []⟩, Run.stateLayer_iff.2 ⟨w, hw, by simp, rfl⟩, rfl⟩,
      Run.eol _ rfl⟩⟩

theorem suffix_exclusive {a b s : Str} (hab : ¬ a <:+ b) (hba : ¬ b <:+ a) (ha : a <:+ s) :
    ¬ b <:+ s := by
  intro hb
  rcases Nat.le_total a.length b.length with h | h
  · exact hab (List.suffix_of_suffix_length_le ha hb h)
  · exact hba (List.suffix_of_suffix_length_le hb ha h)

theorem stateLayerWords_exclusive {a s : Str}
    (hex : ∀ w ∈ stateLayerWords, ¬ a <:+ w ∧ ¬ w <:+ a) (ha : a <:+ s) :
    ¬ ∃ w ∈ stateLayerWords, w <:+ s := by
  rintro ⟨w, hw, hs⟩
  exact suffix_exclusive (hex w hw).1 (hex w hw).2 ha hs

/-- C11: `getNodeColor` is a function of the suffix of the identifier,
compared letter for letter: the colour is `#ffcfcf` exactly when the
identifier ends with `module`, `#cfffcf` exactly when it ends with
`component`, `#ffcfff` exactly when it ends with `service`, `#cfcfcf` exactly
when it ends with one of the state-layer words, and absent exactly when it
ends with none of them; and it is the first rule that applies, in this
order, that gives the colour. -/
theorem getNodeColor_by_suffix (s : Str) :
    (getNodeColor s = some "#ffcfcf".toList ↔ "module".toList <:+ s) ∧
    (getNodeColor s = some "#cfffcf".toList ↔ "component".toList <:+ s) ∧
    (getNodeColor s = some "#ffcfff".toList ↔ "service".toList <:+ s) ∧
    (getNodeColor s = some "#cfcfcf".toList ↔ ∃ w ∈ stateLayerWords, w <:+ s) ∧
    (getNodeColor s = none ↔
      ¬ "module".toList <:+ s ∧ ¬ "component".toList <:+ s ∧ ¬ "service".toList <:+ s ∧
        ∀ w ∈ stateLayerWords, ¬ w <:+ s) ∧
    getNodeColor s =
      (if "module".toList <:+ s then some "#ffcfcf".toList
       else if "component".toList <:+ s then some "#cfffcf".toList
       else if "service".toList <:+ s then some "#ffcfff".toList
       else if ∃ w ∈ stateLayerWords, w <:+ s then some "#cfcfcf".toList
       else none) := by
  have hm : moduleRegex.test s = true ↔ "module".toList <:+ s := RegExp.test_lit_eol _ s
  have hc : componentRegex.test s = true ↔ "component".toList <:+ s := RegExp.test_lit_eol _ s
  have hs : serviceRegex.test s = true ↔ "service".toList <:+ s := RegExp.test_lit_eol _ s
  have hl := stateLayerRegex_test s
  have hmc : "module".toList <:+ s → ¬ "component".toList <:+ s :=
    suffix_exclusive (by decide) (by decide)
  have hms : "module".toList <:+ s → ¬ "service".toList <:+ s :=
    suffix_exclusive (by decide) (by decide)
  have hcs : "component".toList <:+ s → ¬ "service".toList <:+ s :=
    suffix_exclusive (by decide) (by decide)
  have hml : "module".toList <:+ s → ¬ ∃ w ∈ stateLayerWords, w <:+ s :=
    stateLayerWords_exclusive (by decide)
  have hcl : "component".toList <:+ s → ¬ ∃ w ∈ stateLayerWords, w <:+ s :=
    stateLayerWords_exclusive (by decide)
  have hsl : "service".toList <:+ s → ¬ ∃ w ∈ stateLayerWords, w <:+ s :=
    stateLayerWords_exclusive (by decide)
  have d1 : some "#ffcfcf".toList ≠ some "#cfffcf".toList := by decide
  have d2 : some "#ffcfcf".toList ≠ some "#ffcfff".toList := by decide
  have d3 : some "#ffcfcf".toList ≠ some "#cfcfcf".toList := by decide
  have d4 : some "#cfffcf".toList ≠ some "#ffcfff".toList := by decide
  have d5 : some "#cfffcf".toList ≠ some "#cfcfcf".toList := by decide
  have d6 : some "#ffcfff".toList ≠ some "#cfcfcf".toList := by decide
  have hform : getNodeColor s =
      (if "module".toList <:+ s then some "#ffcfcf".toList
       else if "component".toList <:+ s then some "#cfffcf".toList
       else if "service".toList <:+ s then some "#ffcfff".toList
       else if ∃ w ∈ stateLayerWords, w <:+ s then some "#cfcfcf".toList
       else none) := by
    unfold getNodeColor
    by_cases h1 : "module".toList <:+ s
    · rw [if_pos (hm.2 h1), if_pos h1]
    · rw [if_neg (fun h => h1 (hm.1 h)), if_neg h1]
      by_cases h2 : "component".toList <:+ s
      · rw [if_pos (hc.2 h2), if_pos h2]
      · rw [if_neg (fun h => h2 (hc.1 h)), if_neg h2]
        by_cases h3 : "service".toList <:+ s
        · rw [if_pos (hs.2 h3), if_pos h3]
        · rw [if_neg (fun h => h3 (hs.1 h)), if_neg h3]
          by_cases h4 : ∃ w ∈ stateLayerWords, w <:+ s
          · rw [if_pos (hl.2 h4), if_pos h4]
          · rw [if_neg (fun h => h4 (hl.1 h)), if_neg h4]
  refine ⟨?_, ?_, ?_, ?_, ?_, hform⟩ <;> rw [hform] <;>
    by_cases h1 : "module".toList <:+ s <;>
    by_cases h2 : "component".toList <:+ s <;>
    by_cases h3 : "service".toList <:+ s <;>
    by_cases h4 : ∃ w ∈ stateLayerWords, w <:+ s <;>
    simp only [h1, h2, h3, h4, if_true, if_false, true_iff, iff_true, false_iff, iff_false,
      not_true_eq_false, not_false_eq_true, reduceCtorEq, and_true, and_false, true_and,
      false_and, d1, d2, d3, d4, d5, d6, d1.symm, d2.symm, d3.symm, d4.symm, d5.symm, d6.symm,
      not_exists, not_and] <;>
    first
      | exact absurd h2 (hmc h1)
      | exact absurd h3 (hms h1)
      | exact absurd h3 (hcs h2)
      | exact absurd h4 (hml h1)
      | exact absurd h4 (hcl h2)
      | exact absurd h4 (hsl h3)
      | (intro w hw hws; exact h4 ⟨w, hw, hws⟩)
      | (intro hall; obtain ⟨w, hw, hws⟩ := h4; exact hall w hw hws)


/-! ## Stripping of the source specifier -/

/-- C14, at its failing input: in `import a from<TAB>'./x';`, a statement
that `getImports` extracts, the specifier handed to path normalization is
`<TAB>'./x`: it begins with a whitespace character and still holds the quote,
because the class around the specifier strips the space and the two quotes
only.  The import of the existing file `x.ts` stays unresolved, while the
same statement written with a space resolves. -/
theorem parseImport_keeps_tab_before_specifier :
    getImportsOfText "import a from\t'./x';".toList = ["import a from\t'./x';".toList] ∧
    (parseImportRegex.exec "import a from\t'./x';".toList).map
        (fun data => (data.cap 2).getD []) = some "\t'./x".toList ∧
    ("\t'./x".toList.head?.map isWhiteSpace) = some true ∧
    parseImport (fun p => p = "/home/dev/shop/src/x.ts".toList) "/home/dev/shop/src".toList []
        "import a from\t'./x';".toList "/home/dev/shop/src/main.ts".toList =
      some { to_ := "/home/dev/shop/src/main.ts".toList, imports := ["a".toList],
             from_ := "\t'./x".toList } ∧
    parseImport (fun p => p = "/home/dev/shop/src/x.ts".toList) "/home/dev/shop/src".toList []
        "import a from './x';".toList "/home/dev/shop/src/main.ts".toList =
      some { to_ := "/home/dev/shop/src/main.ts".toList, imports := ["a".toList],
             from_ := "/home/dev/shop/src/x".toList } := by
  decide!


/-! ## What `getImports` extracts -/

theorem matchedText_of_prev (p w : Str) (st : MState) (h : st.prev = w.reverse ++ p) :
    matchedText p st = w := by
  unfold matchedText
  rw [h]
  simp

/-- A sequence of patterns that ends with a literal character consumes a
text that ends with that character, up to the case folding of the flags. -/
theorem Run.seqs_snoc_chr {ic ml : Bool} (a : Char) :
    ∀ (rs : List Regex) (s s1 : MState), Run ic ml (Regex.seqs (rs ++ [.chr a])) s s1 →
      ∃ (w : Str) (c : Char), canonicalize ic c = canonicalize ic a ∧
        s.rest = w ++ c :: s1.rest ∧ s1.prev = c :: (w.reverse ++ s.prev)
  | [], s, s1, h => by
    have h1 : Run ic ml (.seq (.chr a) .empty) s s1 := h
    obtain ⟨s0, h2, h3⟩ := Run.seq_iff.1 h1
    obtain ⟨c, t, h4, h5, rfl⟩ := Run.chr_iff.1 h2
    rw [Run.empty_iff.1 h3]
    exact ⟨[], c, h5, h4, rfl⟩
  | r :: rs, s, s1, h => by
    have h1 : Run ic ml (.seq r (Regex.seqs (rs ++ [.chr a]))) s s1 := h
    obtain ⟨s0, h2, h3⟩ := Run.seq_iff.1 h1
    obtain ⟨v, hv1, hv2⟩ := h2.zipper
    obtain ⟨w, c, hc, hw1, hw2⟩ := Run.seqs_snoc_chr a rs s0 s1 h3
    refine ⟨v ++ w, c, hc, ?_, ?_⟩
    · rw [hv1, hw1, List.append_assoc]
    · rw [hw2, hv2, List.reverse_append, List.append_assoc]

/-- Every global match is the text of a match found by a search. -/
theorem RegExp.mem_matchAllFrom (r : RegExp) :
    ∀ (fuel : Nat) (prev rest x : Str), x ∈ r.matchAllFrom fuel prev rest →
      ∃ (prev0 rest0 p : Str) (st : MState),
        r.search prev0 rest0 = some (p, st) ∧ x = matchedText p st
  | 0, _, _, _, h => by simp [RegExp.matchAllFrom] at h
  | fuel + 1, prev, rest, x, h => by
    simp only [RegExp.matchAllFrom] at h
    cases hs : r.search prev rest with
    | none => simp [hs] at h
    | some res =>
      obtain ⟨p, st⟩ := res
      simp only [hs] at h
      split_ifs at h
      · cases hr : st.rest with
        | nil =>
          simp only [hr, List.mem_singleton] at h
          exact ⟨prev, rest, p, st, hs, h⟩
        | cons c t =>
          simp only [hr, List.mem_cons] at h
          rcases h with h | h
          · exact ⟨prev, rest, p, st, hs, h⟩
          · exact RegExp.mem_matchAllFrom r fuel _ _ x h
      · rcases List.mem_cons.1 h with h | h
        · exact ⟨prev, rest, p, st, hs, h⟩
        · exact RegExp.mem_matchAllFrom r fuel _ _ x h

/-- The shape of every match of the statement pattern: the keyword `import`
in any letter case, a whitespace character, more text, and `;` last. -/
theorem importStatementRegex_match (prev0 rest0 p : Str) (st : MState)
    (h : importStatementRegex.search prev0 rest0 = some (p, st)) :
    ∃ (pre kw : Str) (c : Char) (body : Str),
      rest0 = pre ++ (kw ++ c :: body ++ ';' :: st.rest) ∧
      matchedText p st = kw ++ c :: body ++ [';'] ∧
      kw.map Char.toUpper = "IMPORT".toList ∧ isWhiteSpace c = true := by
  obtain ⟨pre, post, h1, h2, h3⟩ := RegExp.search_spec _ _ _ _ _ h
  obtain ⟨s9, hrun, hs9⟩ := Regex.matcher_sound _ _ _ _ _ _ h3
  cases hs9
  have hrun1 : Run true true
      (.seq (.lit "import".toList) (.seq (.plus true (.cls false [.space]))
        (Regex.seqs ([.star false .any, .plus true (.cls false [.space]), .lit "from".toList,
          .plus true (.cls false [.space]), .star false .any] ++ [.chr ';']))))
      ⟨p, post, []⟩ st := hrun
  obtain ⟨s1, r1, hrun2⟩ := Run.seq_iff.1 hrun1
  obtain ⟨s2, r2, hrun3⟩ := Run.seq_iff.1 hrun2
  obtain ⟨kw, hkw, hk1, hk2⟩ := Run.lit_iff.1 r1
  obtain ⟨s1a, r2a, r2b⟩ := Run.plus_iff.1 r2
  obtain ⟨c, t, hc1, hc2, rfl⟩ := Run.cls_iff.1 r2a
  obtain ⟨w2, hw1, hw2⟩ := r2b.zipper
  obtain ⟨w3, sc, hsc, hw3, hw4⟩ := Run.seqs_snoc_chr ';' _ _ _ hrun3
  have hsc1 : sc = ';' := eq_of_toUpper_eq sc ';' (by decide) hsc
  subst hsc1
  rw [classTest_space] at hc2
  have hc1a : s1.rest = c :: t := hc1
  simp only at hw1 hw2 hk1
  have hprev1 : s1.prev = kw.reverse ++ p := by
    rw [hk2]
  refine ⟨pre, kw, c, w2 ++ w3, ?_, ?_, ?_, hc2⟩
  · rw [h1, hk1, hc1a, hw1, hw3]
    simp
  · apply matchedText_of_prev
    rw [hw4, hw2]
    have : (s1.clear (Regex.cls false [ClassItem.space]).groups).prev = s1.prev := rfl
    rw [this, hprev1]
    simp
  · have e : ∀ l : Str, l.map (canonicalize true) = l.map Char.toUpper := fun l => rfl
    rw [e, e] at hkw
    rw [hkw]
    decide


theorem spaceForLineBreak_of_import_letter (x : Char)
    (h : (spaceForLineBreak x).toUpper ∈ "IMPORT".toList) : spaceForLineBreak x = x := by
  unfold spaceForLineBreak at h ⊢
  split_ifs at h ⊢ with hx
  · exact absurd h (by decide)
  · rfl

theorem map_spaceForLineBreak_of_import (b : Str)
    (h : (b.map spaceForLineBreak).map Char.toUpper = "IMPORT".toList) :
    b.map spaceForLineBreak = b := by
  conv_rhs => rw [← List.map_id b]
  apply List.map_congr_left
  intro x hx
  apply spaceForLineBreak_of_import_letter
  rw [← h]
  exact List.mem_map.2 ⟨_, List.mem_map.2 ⟨x, hx, rfl⟩, rfl⟩

/-- C18: `getImports` extracts no dynamic import.  Every statement it
extracts from a text begins with the keyword `import` (in any letter case, as
the pattern has the `i` flag) followed by a whitespace character, and ends
with `;`; and from a text in which every occurrence of `import`, in any
letter case, is immediately followed by `(`, it extracts nothing. -/
theorem getImports_extracts_no_dynamic_import (text : Str) :
    (∀ x ∈ getImportsOfText text, ∃ (kw : Str) (c : Char) (body : Str),
      x = kw ++ c :: body ++ [';'] ∧ kw.map Char.toUpper = "IMPORT".toList ∧
        isWhiteSpace c = true) ∧
    ((∀ post : Str, post <:+ text → startsWithImportKeyword post = true →
        (post.drop 6).head? = some '(') →
      getImportsOfText text = []) := by
  constructor
  · intro x hx
    obtain ⟨prev0, rest0, p, st, hs, rfl⟩ := RegExp.mem_matchAllFrom _ _ _ _ x hx
    obtain ⟨pre, kw, c, body, _, h2, h3, h4⟩ := importStatementRegex_match _ _ _ _ hs
    exact ⟨kw, c, body, h2, h3, h4⟩
  · intro hyp
    unfold getImportsOfText RegExp.matchAll
    rw [lineBreakRegex_replace]
    cases hs : importStatementRegex.search [] (text.map spaceForLineBreak) with
    | none => simp [RegExp.matchAllFrom, hs]
    | some res =>
      exfalso
      obtain ⟨p, st⟩ := res
      obtain ⟨pre, kw, c, body, h1, _, h3, h4⟩ := importStatementRegex_match _ _ _ _ hs
      have h1a : text.map spaceForLineBreak =
          pre ++ (kw ++ c :: (body ++ ';' :: st.rest)) := by
        rw [h1]
        simp
      obtain ⟨l1, l2, ht, _, hl2⟩ := List.map_eq_append_iff.1 h1a
      obtain ⟨b, e2, hb, hbk, he2⟩ := List.map_eq_append_iff.1 hl2
      obtain ⟨d, e, hde, hd, _⟩ := List.map_eq_cons_iff.1 he2
      have hbb : b = kw := by
        rw [← hbk]
        exact (map_spaceForLineBreak_of_import b (by rw [hbk, h3])).symm
      have hlen : b.length = 6 := by
        have := congrArg List.length h3
        rw [List.length_map, ← hbb] at this
        exact this
      have hsuf : (b ++ d :: e) <:+ text := ⟨l1, by rw [ht, hb, hde]⟩
      have hstart : startsWithImportKeyword (b ++ d :: e) = true := by
        unfold startsWithImportKeyword
        rw [List.take_left' hlen, hbb, h3]
        simp
      have hcall := hyp _ hsuf hstart
      rw [List.drop_left' hlen] at hcall
      simp only [List.head?_cons, Option.some.injEq] at hcall
      subst hcall
      have hc : c = '(' := by
        rw [← hd]
        decide
      subst hc
      revert h4
      decide

theorem getImports_extracts_no_dynamic_import_witness :
    getImportsOfText "const page = import('./page');".toList = [] :=
  (getImports_extracts_no_dynamic_import "const page = import('./page');".toList).2
    fun post hpost =>
      (by decide! : ∀ post ∈ "const page = import('./page');".toList.tails,
        startsWithImportKeyword post = true → (post.drop 6).head? = some '(')
        post ((List.mem_tails _ _).2 hpost)


/-! ## The lazy `.*?` -/

/-- A derivation of a pattern without capture groups leaves the captures as
they are. -/
theorem Run.caps_eq {ic ml : Bool} {r : Regex} {s s1 : MState} (h : Run ic ml r s s1) :
    r.groups = [] → s1.caps = s.caps := by
  induction h with
  | empty s => exact fun _ => rfl
  | chr a c prev t caps h => exact fun _ => rfl
  | any c prev t caps h => exact fun _ => rfl
  | cls neg items c prev t caps h => exact fun _ => rfl
  | bol s h => exact fun _ => rfl
  | eol s h => exact fun _ => rfl
  | wordB s h => exact fun _ => rfl
  | notWordB s h => exact fun _ => rfl
  | seq a b s s1 s2 _ _ iha ihb =>
    intro hg
    simp only [Regex.groups, List.append_eq_nil] at hg
    rw [ihb hg.2, iha hg.1]
  | altL a b s s1 _ ih =>
    intro hg
    simp only [Regex.groups, List.append_eq_nil] at hg
    exact ih hg.1
  | altR a b s s1 _ ih =>
    intro hg
    simp only [Regex.groups, List.append_eq_nil] at hg
    exact ih hg.2
  | starDone g r s => exact fun _ => rfl
  | starStep g r s s1 s2 _ _ _ ihr ihs =>
    intro hg
    have hg1 : r.groups = [] := hg
    rw [ihs hg, ihr hg1, hg1, MState.clear_nil]
  | plus g r s s1 s2 _ _ ihr ihs =>
    intro hg
    have hg1 : r.groups = [] := hg
    rw [ihs hg, ihr hg1, hg1, MState.clear_nil]
  | optSkip g r s => exact fun _ => rfl
  | optTake g r s s1 _ _ ih =>
    intro hg
    have hg1 : r.groups = [] := hg
    rw [ih hg1, hg1, MState.clear_nil]
  | group i r s s1 _ ih =>
    intro hg
    simp [Regex.groups] at hg

/-- The pattern `.*` can consume any text without line terminator. -/
theorem Run.star_any {ic ml g : Bool} :
    ∀ (n prev rest : Str) (caps : List (Nat × Str)), (∀ c ∈ n, isLineTerminator c = false) →
      Run ic ml (.star g .any) ⟨prev, n ++ rest, caps⟩ ⟨n.reverse ++ prev, rest, caps⟩
  | [], prev, rest, caps, _ => Run.starDone g .any _
  | c :: n, prev, rest, caps, h => by
    have h1 := @Run.star_any ic ml g n (c :: prev) rest caps
      fun x hx => h x (List.mem_cons_of_mem _ hx)
    have h2 : Run ic ml .any (MState.clear ⟨prev, c :: n ++ rest, caps⟩ Regex.any.groups)
        ⟨c :: prev, n ++ rest, caps⟩ := by
      simp only [Regex.groups, MState.clear_nil]
      exact Run.any c prev (n ++ rest) caps (h c (List.mem_cons_self _ _))
    have h3 := Run.starStep g .any ⟨prev, c :: n ++ rest, caps⟩ _ _ h2 (by simp) h1
    simpa using h3

/-- What the lazy `.*?` hands on: the shortest text without line terminator
at whose end the continuation succeeds. -/
theorem repeatMatcher_lazy_any (ic ml : Bool) (K : Cont) (z : MState) :
    ∀ (fuel : Nat) (x : MState),
      repeatMatcher (Regex.matcher ic ml .any) [] false fuel 0 none x K = some z →
      ∃ w rest1 : Str, x.rest = w ++ rest1 ∧ (∀ c ∈ w, isLineTerminator c = false) ∧
        K ⟨w.reverse ++ x.prev, rest1, x.caps⟩ = some z ∧
        ∀ a b : Str, w = a ++ b → b ≠ [] → K ⟨a.reverse ++ x.prev, b ++ rest1, x.caps⟩ = none
  | 0, _, h => by simp [repeatMatcher] at h
  | fuel + 1, x, h => by
    obtain ⟨prev, rest, caps⟩ := x
    rw [repeatMatcher_star_succ] at h
    simp only [Bool.false_eq_true, if_false] at h
    cases hk : K ⟨prev, rest, caps⟩ with
    | some z1 =>
      rw [hk] at h
      cases h
      refine ⟨[], rest, rfl, by simp, hk, ?_⟩
      intro a b hab hb
      exact absurd (List.append_eq_nil.1 hab.symm).2 hb
    | none =>
      rw [hk] at h
      simp only [Option.orElse, MState.clear_nil] at h
      obtain ⟨c, t, hrest, hc, hcont⟩ := stepChar_some _ _ _ _ h
      simp only at hrest
      subst hrest
      rw [starCont_apply, if_neg (by simp)] at hcont
      obtain ⟨w, rest1, h1, h2, h3, h4⟩ := repeatMatcher_lazy_any ic ml K z fuel _ hcont
      simp only at h1 h3 h4
      subst h1
      refine ⟨c :: w, rest1, rfl, ?_, by simpa using h3, ?_⟩
      · intro d hd
        rcases List.mem_cons.1 hd with rfl | hd
        · simpa using hc
        · exact h2 d hd
      · intro a b hab hb
        cases a with
        | nil =>
          simp only [List.nil_append] at hab
          subst hab
          simpa using hk
        | cons a0 a =>
          simp only [List.cons_append, List.cons.injEq] at hab
          obtain ⟨rfl, hab⟩ := hab
          simpa using h4 a b hab hb

theorem Regex.matcher_lazy_any (ic ml : Bool) (K : Cont) (z : MState) (x : MState)
    (h : (Regex.star false .any).matcher ic ml x K = some z) :
    ∃ w rest1 : Str, x.rest = w ++ rest1 ∧ (∀ c ∈ w, isLineTerminator c = false) ∧
      K ⟨w.reverse ++ x.prev, rest1, x.caps⟩ = some z ∧
      ∀ a b : Str, w = a ++ b → b ≠ [] → K ⟨a.reverse ++ x.prev, b ++ rest1, x.caps⟩ = none :=
  repeatMatcher_lazy_any ic ml K z _ x h


/-! ## Splitting and trimming -/

/-- The pieces of a split hold no separator, and only characters of the
text. -/
theorem splitOn_pieces (sep : Char) :
    ∀ (s piece : Str), piece ∈ splitOn sep s → sep ∉ piece ∧ ∀ c ∈ piece, c ∈ s
  | [], piece, h => by
    simp only [splitOn, List.mem_singleton] at h
    subst h
    simp
  | c :: t, piece, h => by
    simp only [splitOn] at h
    split_ifs at h with hc
    · rcases List.mem_cons.1 h with rfl | h1
      · simp
      · obtain ⟨h2, h3⟩ := splitOn_pieces sep t piece h1
        exact ⟨h2, fun x hx => List.mem_cons_of_mem _ (h3 x hx)⟩
    · cases hs : splitOn sep t with
      | nil =>
        rw [hs] at h
        simp only [List.mem_singleton] at h
        subst h
        exact ⟨by simpa using Ne.symm hc, by simp⟩
      | cons p ps =>
        rw [hs] at h
        rcases List.mem_cons.1 h with rfl | h1
        · obtain ⟨h2, h3⟩ := splitOn_pieces sep t p (by rw [hs]; exact List.mem_cons_self _ _)
          refine ⟨?_, ?_⟩
          · intro hmem
            rcases List.mem_cons.1 hmem with e | e
            · exact hc e.symm
            · exact h2 e
          · intro x hx
            rcases List.mem_cons.1 hx with rfl | e
            · exact List.mem_cons_self _ _
            · exact List.mem_cons_of_mem _ (h3 x e)
        · obtain ⟨h2, h3⟩ := splitOn_pieces sep t piece
            (by rw [hs]; exact List.mem_cons_of_mem _ h1)
          exact ⟨h2, fun x hx => List.mem_cons_of_mem _ (h3 x hx)⟩

theorem trim_sublist (s : Str) : (trim s).Sublist s := by
  unfold trim
  have h1 : ((s.dropWhile isWhiteSpace).reverse.dropWhile isWhiteSpace).Sublist
      (s.dropWhile isWhiteSpace).reverse := List.dropWhile_sublist _
  have h2 := h1.reverse
  rw [List.reverse_reverse] at h2
  exact h2.trans (List.dropWhile_sublist _)

theorem head_dropWhile_not (p : Char → Bool) :
    ∀ (l : Str) (c : Char), (l.dropWhile p).head? = some c → p c = false
  | [], c, h => by simp at h
  | a :: l, c, h => by
    rw [List.dropWhile_cons] at h
    split_ifs at h with ha
    · exact head_dropWhile_not p l c h
    · simp only [List.head?_cons, Option.some.injEq] at h
      subst h
      simpa using ha

/-- A trimmed text does not begin with a whitespace character. -/
theorem trim_head (s : Str) (c : Char) (h : (trim s).head? = some c) :
    isWhiteSpace c = false := by
  unfold trim at h
  have hsuf : ((s.dropWhile isWhiteSpace).reverse.dropWhile isWhiteSpace) <:+
      (s.dropWhile isWhiteSpace).reverse := List.dropWhile_suffix _
  have hpre := List.reverse_prefix.2 hsuf
  rw [List.reverse_reverse] at hpre
  obtain ⟨t, ht⟩ := hpre
  apply head_dropWhile_not isWhiteSpace s c
  rw [← ht]
  cases hx : ((s.dropWhile isWhiteSpace).reverse.dropWhile isWhiteSpace).reverse with
  | nil => simp [hx] at h
  | cons a x =>
    rw [hx] at h
    simpa using h

/-- A trimmed text does not end with a whitespace character. -/
theorem trim_getLast (s : Str) (c : Char) (h : (trim s).getLast? = some c) :
    isWhiteSpace c = false := by
  unfold trim at h
  rw [List.getLast?_reverse] at h
  exact head_dropWhile_not isWhiteSpace _ c h

/-- The bound names hold no brace and no comma, and neither begin nor end
with a whitespace character. -/
theorem parseBoundNames_clean (clause name : Str) (h : name ∈ parseBoundNames clause) :
    '{' ∉ name ∧ '}' ∉ name ∧ ',' ∉ name ∧
      (∀ c, name.head? = some c → isWhiteSpace c = false) ∧
      (∀ c, name.getLast? = some c → isWhiteSpace c = false) := by
  unfold parseBoundNames at h
  rw [braceRegex_replace] at h
  obtain ⟨piece, hp, rfl⟩ := List.mem_map.1 h
  obtain ⟨h1, h2⟩ := splitOn_pieces ',' _ piece hp
  have hsub := (trim_sublist piece).subset
  refine ⟨?_, ?_, fun hc => h1 (hsub hc), trim_head piece, trim_getLast piece⟩
  · intro hc
    have := h2 _ (hsub hc)
    simp at this
  · intro hc
    have := h2 _ (hsub hc)
    simp at this


/-! ## Repetition of a one-character pattern -/

/-- A repetition of a pattern that consumes one character at a time, each
with the property `P`, consumes a text of such characters. -/
theorem Run.star_chars {ic ml g : Bool} {r : Regex} (P : Char → Prop) (hg : r.groups = [])
    (hr : ∀ s s1 : MState, Run ic ml r s s1 →
      ∃ c : Char, s.rest = c :: s1.rest ∧ s1.prev = c :: s.prev ∧ P c) :
    ∀ {s s1 : MState}, Run ic ml (.star g r) s s1 →
      ∃ w : Str, s.rest = w ++ s1.rest ∧ s1.prev = w.reverse ++ s.prev ∧ s1.caps = s.caps ∧
        ∀ c ∈ w, P c := by
  intro s s1 h
  have hcaps := h.caps_eq hg
  generalize hq : Regex.star g r = q at h
  induction h with
  | starDone g1 r1 s => exact ⟨[], rfl, rfl, rfl, by simp⟩
  | starStep g1 r1 s s1 s2 h1 hp h2 _ ih2 =>
    cases hq
    obtain ⟨c, hc1, hc2, hc3⟩ := hr _ _ h1
    obtain ⟨w, hw1, hw2, _, hw4⟩ := ih2 (h2.caps_eq hg) rfl
    have hc1a : s.rest = c :: s1.rest := hc1
    have hc2a : s1.prev = c :: s.prev := hc2
    refine ⟨c :: w, ?_, ?_, hcaps, ?_⟩
    · rw [hc1a, hw1]
      rfl
    · rw [hw2, hc2a]
      simp
    · intro d hd
      rcases List.mem_cons.1 hd with rfl | hd
      · exact hc3
      · exact hw4 d hd
  | _ => cases hq

theorem Run.star_any_inv {ic ml g : Bool} {s s1 : MState} (h : Run ic ml (.star g .any) s s1) :
    ∃ w : Str, s.rest = w ++ s1.rest ∧ s1.prev = w.reverse ++ s.prev ∧ s1.caps = s.caps ∧
      ∀ c ∈ w, isLineTerminator c = false :=
  @Run.star_chars ic ml g .any (fun c => isLineTerminator c = false) rfl
    (fun s s1 h1 => by
      obtain ⟨c, t, h2, h3, rfl⟩ := Run.any_iff.1 h1
      exact ⟨c, h2, rfl, h3⟩) s s1 h

theorem Run.star_cls_inv {ic ml g neg : Bool} {items : List ClassItem} {s s1 : MState}
    (h : Run ic ml (.star g (.cls neg items)) s s1) :
    ∃ w : Str, s.rest = w ++ s1.rest ∧ s1.prev = w.reverse ++ s.prev ∧ s1.caps = s.caps ∧
      ∀ c ∈ w, classTest ic neg items c = true :=
  @Run.star_chars ic ml g (.cls neg items) (fun c => classTest ic neg items c = true) rfl
    (fun s s1 h1 => by
      obtain ⟨c, t, h2, h3, rfl⟩ := Run.cls_iff.1 h1
      exact ⟨c, h2, rfl, h3⟩) s s1 h

theorem quoteOrSpace_not_lineTerminator (c : Char)
    (h : classTest false false [.chr '\'', .chr '"', .chr ' '] c = true) :
    isLineTerminator c = false := by
  simp only [classTest, List.any_cons, List.any_nil, ClassItem.test, Bool.false_and,
    Bool.or_false, Bool.false_eq_true, if_false, Bool.or_eq_true, decide_eq_true_eq] at h
  rcases h with rfl | rfl | rfl <;> decide


/-! ## The pattern of `parseImport` -/

theorem from_length : "from".toList.length = 4 := rfl

/-- What a match of `\bfrom\b['" ]*(.*?)['" ]*;` consumes: the keyword `from`
and a text without line terminator up to a `;`; it records the second
capture. -/
theorem Run.fromClause_inv {s st : MState} (h : Run false false fromClauseRegex s st) :
    ∃ n spec : Str, s.rest = "from".toList ++ (n ++ ';' :: st.rest) ∧
      (∀ c ∈ n, isLineTerminator c = false) ∧ fromKeywordAt s.prev s.rest = true ∧
      st.caps = (2, spec) :: s.caps := by
  have h0 : Run false false (.seq .wordB (.seq (.lit "from".toList) (.seq .wordB
      (.seq (.star true (.cls false [.chr '\'', .chr '"', .chr ' ']))
      (.seq (.group 2 (.star false .any))
      (.seq (.star true (.cls false [.chr '\'', .chr '"', .chr ' ']))
      (.seq (.chr ';') .empty))))))) s st := h
  obtain ⟨s1, a1, h1⟩ := Run.seq_iff.1 h0
  obtain ⟨e1, c1⟩ := Run.wordB_iff.1 a1
  subst e1
  obtain ⟨s2, a2, h2⟩ := Run.seq_iff.1 h1
  obtain ⟨e2, f2⟩ := Run.lit_iff_consumed.1 a2
  obtain ⟨s3, a3, h3⟩ := Run.seq_iff.1 h2
  obtain ⟨e3, c3⟩ := Run.wordB_iff.1 a3
  subst e3
  obtain ⟨s4, a4, h4⟩ := Run.seq_iff.1 h3
  obtain ⟨q1, e4, _, g4, l4⟩ := Run.star_cls_inv a4
  obtain ⟨s5, a5, h5⟩ := Run.seq_iff.1 h4
  obtain ⟨s5a, b5, e5a⟩ := Run.group_iff.1 a5
  obtain ⟨spec, e5, _, g5, l5⟩ := Run.star_any_inv b5
  obtain ⟨s6, a6, h6⟩ := Run.seq_iff.1 h5
  obtain ⟨q2, e6, _, g6, l6⟩ := Run.star_cls_inv a6
  obtain ⟨s7, a7, h7⟩ := Run.seq_iff.1 h6
  obtain ⟨c, t, e7, hc, f7⟩ := Run.chr_iff.1 a7
  have est := Run.empty_iff.1 h7
  have hc1 : c = ';' := hc
  subst hc1
  have r5 : s5.rest = s5a.rest := by rw [e5a]
  have k5 : s5.caps = (2, s4.rest.take (s4.rest.length - s5a.rest.length)) :: s5a.caps := by
    rw [e5a]
  have rst : st.rest = t := by rw [est, f7]
  have kst : st.caps = s6.caps := by rw [est, f7]
  have k2 : s3.caps = s1.caps := by rw [f2]
  have p2 : s3.prev = "from".toList.reverse ++ s1.prev := by rw [f2]
  have htail : s3.rest = (q1 ++ spec ++ q2) ++ ';' :: st.rest := by
    rw [e4, e5, ← r5, e6, e7, rst]
    simp
  refine ⟨q1 ++ spec ++ q2, s4.rest.take (s4.rest.length - s5a.rest.length), ?_, ?_, ?_, ?_⟩
  · rw [e2, htail]
  · intro d hd
    rcases List.mem_append.1 hd with hd | hd
    · rcases List.mem_append.1 hd with hd | hd
      · exact quoteOrSpace_not_lineTerminator d (l4 d hd)
      · exact l5 d hd
    · exact quoteOrSpace_not_lineTerminator d (l6 d hd)
  · unfold fromKeywordAt
    rw [← p2]
    have hdrop : s1.rest.drop 4 = s3.rest := by
      rw [e2]
      exact List.drop_left' from_length
    rw [hdrop, c1, c3, e2]
    simp
  · rw [kst, g6, k5, g5, g4, k2]

/-- Where the keyword `from` stands and a `;` follows on the same line, the
pattern `\bfrom\b['" ]*(.*?)['" ]*;` matches. -/
theorem Run.fromClause_intro (prev rest n rest1 : Str) (caps : List (Nat × Str))
    (hkw : fromKeywordAt prev rest = true) (hrest : rest = "from".toList ++ (n ++ ';' :: rest1))
    (hn : ∀ c ∈ n, isLineTerminator c = false) :
    ∃ st : MState, Run false false fromClauseRegex ⟨prev, rest, caps⟩ st := by
  unfold fromKeywordAt at hkw
  simp only [Bool.and_eq_true] at hkw
  obtain ⟨⟨_, c1⟩, c3⟩ := hkw
  have hdrop : rest.drop 4 = n ++ ';' :: rest1 := by
    rw [hrest]
    exact List.drop_left' from_length
  rw [hdrop] at c3
  subst hrest
  refine ⟨_, Run.seq _ _ _ _ _ (Run.wordB _ c1)
    (Run.seq _ _ _ _ _ (Run.lit_iff_consumed.2 ⟨rfl, rfl⟩)
    (Run.seq _ _ _ _ _ (Run.wordB _ c3)
    (Run.seq _ _ _ _ _ (Run.starDone _ _ _)
    (Run.seq _ _ _ _ _ (Run.group 2 _ _ _ (Run.star_any n _ (';' :: rest1) caps hn))
    (Run.seq _ _ _ _ _ (Run.starDone _ _ _)
    (Run.seq _ _ _ _ _ (Run.chr ';' ';' _ rest1 _ rfl) (Run.empty _)))))))⟩


theorem from_letters_not_lineTerminator : ∀ c ∈ "from".toList, isLineTerminator c = false := by
  decide

/-- A match of the pattern of `parseImport` at a position: the keyword
`import`, the bound-names clause, which is the first capture, and the keyword
`from`, at the first place behind `import` where it stands. -/
theorem parseImportRegex_matchAt (p post : Str) (st : MState)
    (h : parseImportRegex.matchAt p post = some st) :
    ∃ clause tail : Str, post = "import".toList ++ (clause ++ ("from".toList ++ tail)) ∧
      (st.caps.find? fun q => q.1 = 1).map Prod.snd = some clause ∧
      (headIsWord ("import".toList.reverse ++ p) !=
        headIsWord (clause ++ ("from".toList ++ tail))) = true ∧
      fromKeywordAt (clause.reverse ++ ("import".toList.reverse ++ p))
        ("from".toList ++ tail) = true ∧
      ∀ a b : Str, clause = a ++ b → b ≠ [] →
        fromKeywordAt (a.reverse ++ ("import".toList.reverse ++ p))
          (b ++ ("from".toList ++ tail)) = false := by
  have hm : (Regex.lit "import".toList).matcher false false ⟨p, post, []⟩
      (fun s1 => Regex.wordB.matcher false false s1
        (fun s2 => (Regex.group 1 (.star false .any)).matcher false false s2
          (fun s3 => fromClauseRegex.matcher false false s3 some))) = some st := h
  obtain ⟨s1, r1, k1⟩ := Regex.matcher_sound _ _ _ _ _ _ hm
  obtain ⟨e1, f1⟩ := Run.lit_iff_consumed.1 r1
  simp only at e1 f1
  simp only [Regex.matcher.eq_7] at k1
  split_ifs at k1 with c1
  have k2 : (Regex.star false .any).matcher false false s1 (fun s3 =>
      fromClauseRegex.matcher false false
        { s3 with caps := (1, s1.rest.take (s1.rest.length - s3.rest.length)) :: s3.caps }
        some) = some st := k1
  obtain ⟨w, rest1, e2, l2, k3, hmin⟩ := Regex.matcher_lazy_any _ _ _ _ _ k2
  simp only at k3 hmin
  obtain ⟨st1, r3, k4⟩ := Regex.matcher_sound _ _ _ _ _ _ k3
  cases k4
  obtain ⟨n, spec, e3, l3, hkw, hcaps⟩ := Run.fromClause_inv r3
  simp only at e3 hkw hcaps
  have hprev : s1.prev = "import".toList.reverse ++ p := by rw [f1]
  have hcaps1 : s1.caps = [] := by rw [f1]
  have htake : s1.rest.take (s1.rest.length - rest1.length) = w := by
    rw [e2]
    simp
  refine ⟨w, n ++ ';' :: st.rest, ?_, ?_, ?_, ?_, ?_⟩
  · rw [e1, e2, e3]
  · rw [hcaps, htake, hcaps1]
    rfl
  · rw [← hprev, ← e3, ← e2]
    exact c1
  · rw [← hprev, ← e3]
    exact hkw
  · intro a b hab hb
    cases hf : fromKeywordAt (a.reverse ++ ("import".toList.reverse ++ p))
        (b ++ ("from".toList ++ (n ++ ';' :: st.rest))) with
    | false => rfl
    | true =>
      exfalso
      have hnone := hmin a b hab hb
      have hpre : "from".toList <+: b ++ ("from".toList ++ (n ++ ';' :: st.rest)) := by
        unfold fromKeywordAt at hf
        simp only [Bool.and_eq_true] at hf
        exact List.isPrefixOf_iff_prefix.1 hf.1.1
      obtain ⟨t, ht⟩ := hpre
      have hX : b ++ ("from".toList ++ (n ++ ';' :: st.rest)) =
          (b ++ ("from".toList ++ n)) ++ ';' :: st.rest := by simp
      have hlen : 4 ≤ (b ++ ("from".toList ++ n)).length := by
        simp only [List.length_append, from_length]
        omega
      have ht1 : t = (b ++ ("from".toList ++ n)).drop 4 ++ ';' :: st.rest := by
        have := congrArg (List.drop 4) ht
        rw [List.drop_left' from_length, hX, List.drop_append_of_le_length hlen] at this
        exact this
      have hlt : ∀ c ∈ (b ++ ("from".toList ++ n)).drop 4, isLineTerminator c = false := by
        intro c hc
        have hc1 := List.mem_of_mem_drop hc
        rcases List.mem_append.1 hc1 with hc2 | hc2
        · exact l2 c (by rw [hab]; exact List.mem_append_right _ hc2)
        · rcases List.mem_append.1 hc2 with hc3 | hc3
          · exact from_letters_not_lineTerminator c hc3
          · exact l3 c hc3
      obtain ⟨st2, hrun⟩ := Run.fromClause_intro (a.reverse ++ s1.prev) (b ++ rest1) _
        st.rest ((1, s1.rest.take (s1.rest.length - (b ++ rest1).length)) :: s1.caps)
        (by rw [hprev, e3]; exact hf) (by rw [← ht1, ht, e3]) hlt
      have hsome := Regex.matcher_complete hrun some rfl
      rw [hnone] at hsome
      cases hsome

/-- A successful search found the first position of the input at which the
pattern matches. -/
theorem RegExp.search_first (r : RegExp) :
    ∀ (rest prev p : Str) (st : MState), r.search prev rest = some (p, st) →
      ∃ pre post : Str, rest = pre ++ post ∧ p = pre.reverse ++ prev ∧
        r.matchAt p post = some st ∧
        ∀ a b : Str, pre = a ++ b → b ≠ [] → r.matchAt (a.reverse ++ prev) (b ++ post) = none
  | [], prev, p, st, h => by
    obtain ⟨pre, post, h1, h2, h3⟩ := RegExp.search_spec r [] prev p st h
    obtain ⟨rfl, rfl⟩ := List.append_eq_nil.1 h1.symm
    refine ⟨[], [], rfl, h2, h3, ?_⟩
    intro a b hab hb
    exact absurd (List.append_eq_nil.1 hab.symm).2 hb
  | c :: t, prev, p, st, h => by
    simp only [RegExp.search] at h
    cases hm : r.matchAt prev (c :: t) with
    | some s1 =>
      simp only [hm, Option.some.injEq, Prod.mk.injEq] at h
      obtain ⟨rfl, rfl⟩ := h
      refine ⟨[], c :: t, rfl, rfl, hm, ?_⟩
      intro a b hab hb
      exact absurd (List.append_eq_nil.1 hab.symm).2 hb
    | none =>
      simp only [hm] at h
      obtain ⟨pre, post, h1, h2, h3, h4⟩ := RegExp.search_first r t (c :: prev) p st h
      refine ⟨c :: pre, post, by rw [h1]; rfl, by rw [h2]; simp, h3, ?_⟩
      intro a b hab hb
      cases a with
      | nil =>
        simp only [List.nil_append] at hab
        subst hab
        simpa [h1] using hm
      | cons a0 a =>
        simp only [List.cons_append, List.cons.injEq] at hab
        obtain ⟨rfl, hab⟩ := hab
        simpa using h4 a b hab hb


/-! ## The bound names -/

/-- C15: for every statement that `parseImport` accepts, the statement has
the keyword `import`, at the first position where the pattern of
`parseImport` matches, then the bound-names clause, then the keyword `from`,
which stands nowhere earlier behind `import`; and `imports` is that clause
with every brace removed, split on commas, each piece trimmed, in order.
Hence no element of `imports` holds a brace or a comma, and none begins or
ends with a whitespace character. -/
theorem parseImport_bound_names (existsSync : Str → Bool) (sourceDirectory : Str)
    (aliasMapping : Obj Str) (raw file : Str) (record : Record)
    (h : parseImport existsSync sourceDirectory aliasMapping raw file = some record) :
    ∃ pre clause tail : Str,
      raw = pre ++ ("import".toList ++ (clause ++ ("from".toList ++ tail))) ∧
      (headIsWord ("import".toList.reverse ++ pre.reverse) !=
        headIsWord (clause ++ ("from".toList ++ tail))) = true ∧
      (∀ a b : Str, pre = a ++ b → b ≠ [] →
        parseImportRegex.matchAt a.reverse
          (b ++ ("import".toList ++ (clause ++ ("from".toList ++ tail)))) = none) ∧
      fromKeywordAt (clause.reverse ++ ("import".toList.reverse ++ pre.reverse))
        ("from".toList ++ tail) = true ∧
      (∀ a b : Str, clause = a ++ b → b ≠ [] →
        fromKeywordAt (a.reverse ++ ("import".toList.reverse ++ pre.reverse))
          (b ++ ("from".toList ++ tail)) = false) ∧
      record.imports =
        (splitOn ',' (clause.filter fun c => !(c = '{' || c = '}'))).map trim ∧
      ∀ name ∈ record.imports, '{' ∉ name ∧ '}' ∉ name ∧ ',' ∉ name ∧
        (∀ c, name.head? = some c → isWhiteSpace c = false) ∧
        (∀ c, name.getLast? = some c → isWhiteSpace c = false) := by
  unfold parseImport at h
  cases hx : parseImportRegex.exec raw with
  | none => simp [hx] at h
  | some data =>
    simp only [hx, Option.map_eq_some'] at h
    obtain ⟨target, _, hrec⟩ := h
    have himp : record.imports = parseBoundNames ((data.cap 1).getD []) := by
      rw [← hrec]
    unfold RegExp.exec at hx
    cases hs : parseImportRegex.search [] raw with
    | none => simp [hs] at hx
    | some res =>
      obtain ⟨p, st⟩ := res
      simp only [hs, Option.map_some', Option.some.injEq] at hx
      obtain ⟨pre, post, h1, h2, h3, h4⟩ := RegExp.search_first _ _ _ _ _ hs
      rw [List.append_nil] at h2
      subst h2
      obtain ⟨clause, tail, e1, e2, e3, e4, e5⟩ := parseImportRegex_matchAt _ _ _ h3
      have hcap : data.cap 1 = some clause := by
        rw [← hx]
        exact e2
      rw [hcap, Option.getD_some] at himp
      refine ⟨pre, clause, tail, by rw [h1, e1], e3, ?_, e4, e5, ?_, ?_⟩
      · intro a b hab hb
        have := h4 a b hab hb
        rw [List.append_nil, e1] at this
        exact this
      · rw [himp]
        unfold parseBoundNames
        rw [braceRegex_replace]
      · intro name hname
        rw [himp] at hname
        exact parseBoundNames_clean clause name hname

theorem parseImport_bound_names_witness :
    ∃ pre clause tail : Str,
      "import { a, b } from './x';".toList =
        pre ++ ("import".toList ++ (clause ++ ("from".toList ++ tail))) ∧
      ["a".toList, "b".toList] =
        (splitOn ',' (clause.filter fun c => !(c = '{' || c = '}'))).map trim := by
  obtain ⟨pre, clause, tail, h1, _, _, _, _, h2, _⟩ :=
    parseImport_bound_names (fun _ => false) "/home/dev/shop/src".toList []
      "import { a, b } from './x';".toList "/home/dev/shop/src/main.ts".toList
      { to_ := "/home/dev/shop/src/main.ts".toList, imports := ["a".toList, "b".toList],
        from_ := "./x".toList } (by decide!)
  exact ⟨pre, clause, tail, h1, h2⟩

end DepGraph
